import Mathlib

/-!
# Chat: message codec, framed transport and router

A shallow embedding of the chat server and client sources
(`ClientMessage.cpp`, `ClientBase.cpp`, `Server.cpp`) together with the
properties proved about them.

Conventions of the embedding.

* A raw buffer is a `List Byte`; a `wchar_t` is 16 bits wide (the Windows
  target of the sources) and is stored little-endian.
* A function that touches raw memory returns an `Option`: `none` means that
  an access fell outside the object it was aimed at (undefined behaviour in
  C++), `some` carries the ordinary result.
* Out-parameters and `*this` become arguments and results.
* `uint32_t` arithmetic is written with an explicit `% U32_MOD`.
-/

namespace Chat

/-! ## Machine values -/

/-- One `char` of a raw buffer. -/
abbrev Byte := Fin 256

/-- One `wchar_t`, a 16-bit code unit. -/
abbrev WChar := Fin 65536

/-- A `std::wstring`. -/
abbrev WString := List WChar

/-- A `uint64_t`. -/
abbrev U64 := Fin 18446744073709551616

/-- The modulus of `uint32_t` arithmetic. -/
def U32_MOD : Nat := 4294967296

/-- The underlying type of `enum class ClientCommand : uint32_t`. -/
abbrev ClientCommand := Fin 4294967296

namespace ClientCommand

def Error : ClientCommand := 0
def BroadcastMessage : ClientCommand := 1
def PrivateMessage : ClientCommand := 2
def ChangeName : ClientCommand := 3
def ListClients : ClientCommand := 4
def ClientConnect : ClientCommand := 5
def ServerMsg : ClientCommand := 6
def Help : ClientCommand := 7
def COMMAND_COUNT : ClientCommand := 8

end ClientCommand

/-- The byte of a natural number, `n mod 256`. -/
def toByte (n : Nat) : Byte := ⟨n % 256, Nat.mod_lt _ (by decide)⟩

/-- The code unit of a natural number, `n mod 65536`. -/
def toWChar (n : Nat) : WChar := ⟨n % 65536, Nat.mod_lt _ (by decide)⟩

/-- The `uint64_t` of a natural number. -/
def toU64 (n : Nat) : U64 := ⟨n % 18446744073709551616, Nat.mod_lt _ (by decide)⟩

/-- The `uint32_t` of a natural number, as a command code. -/
def toCommand (n : Nat) : ClientCommand := ⟨n % 4294967296, Nat.mod_lt _ (by decide)⟩

/-- Little-endian object representation of `v` on `n` chars. -/
def leBytes : Nat → Nat → List Byte
  | 0, _ => []
  | n + 1, v => toByte v :: leBytes n (v / 256)

/-- The value of a little-endian object representation. -/
def leValue : List Byte → Nat
  | [] => 0
  | b :: bs => b.val + 256 * leValue bs

/-- The chars of a sequence of code units, two per unit, low char first. -/
def wcharBytes : WString → List Byte
  | [] => []
  | c :: cs => toByte c.val :: toByte (c.val / 256) :: wcharBytes cs

/-- The code units stored in a sequence of chars (a trailing odd char is not a unit). -/
def bytesWChars : List Byte → WString
  | b0 :: b1 :: rest => toWChar (b0.val + 256 * b1.val) :: bytesWChars rest
  | _ => []

/-! ## Raw memory -/

/-- Read of `n` chars at offset `off` of the buffer `data`. -/
def readBytes (data : List Byte) (off n : Nat) : Option (List Byte) :=
  if off + n ≤ data.length then some ((data.drop off).take n) else none

/-- Read through a `const uint64_t*` at offset `off`. -/
def readU64 (data : List Byte) (off : Nat) : Option U64 :=
  (readBytes data off 8).map (fun bs => toU64 (leValue bs))

/-- Read through a `const ClientCommand*` at offset `off`. -/
def readCommand (data : List Byte) (off : Nat) : Option ClientCommand :=
  (readBytes data off 4).map (fun bs => toCommand (leValue bs))

/-- Read through a `const wchar_t*` at offset `off`. -/
def readWChar (data : List Byte) (off : Nat) : Option WChar :=
  (readBytes data off 2).map (fun bs => toWChar (leValue bs))

/-- The NUL-terminated scan of `std::wstring::assign(const wchar_t*)` over the
chars that follow the pointer: the units before the first NUL unit. The scan
leaves the buffer when no NUL unit is found. -/
def wcsAt : List Byte → Option WString
  | b0 :: b1 :: rest =>
    if toWChar (b0.val + 256 * b1.val) = 0 then some []
    else (wcsAt rest).map (fun s => toWChar (b0.val + 256 * b1.val) :: s)
  | _ => none

/-- The scan `assign(p)` for a pointer at offset `off` of `data`. -/
def readCStr (data : List Byte) (off : Nat) : Option WString :=
  if off ≤ data.length then wcsAt (data.drop off) else none

/-- The copy `assign(first, last)` of the units between two pointers, given
as offsets; the range must be well formed and inside the buffer. -/
def readRange (data : List Byte) (first last : Nat) : Option WString :=
  if first ≤ last then (readBytes data first (last - first)).map bytesWChars else none

/-- Write of the chars `bs` at offset `off` of the buffer `buf`. -/
def writeBytes (buf : List Byte) (off : Nat) (bs : List Byte) : Option (List Byte) :=
  if off + bs.length ≤ buf.length then
    some (buf.take off ++ bs ++ buf.drop (off + bs.length))
  else none

/-! ## ClientMessage (ClientMessage.h, ClientMessage.cpp) -/

/-- The chat record, `class ClientMessage`. -/
structure ClientMessage where
  msg : WString := []
  from_ : WString := []
  pmTo : WString := []
  timeStamp : U64 := 0
  command : ClientCommand := ClientCommand.Error
deriving DecidableEq, Repr

def COMMAND_OFFSET : Nat := 8
def MESSAGE_OFFSET : Nat := 8 + 4
def MIN_MSG_SIZE : Nat := MESSAGE_OFFSET + 2 * 2

/-- Whether a value is one of the commands: `Error < cmd && cmd < COMMAND_COUNT`. -/
def IsCommand (cmd : ClientCommand) : Bool :=
  decide (ClientCommand.Error < cmd) && decide (cmd < ClientCommand.COMMAND_COUNT)

/-- The exit of the breakable block of `Unserialize`: `command = ClientCommand::Error`. -/
def ClientMessage.setError (self : ClientMessage) : ClientMessage :=
  { self with command := ClientCommand.Error }

/-- The tail of `Unserialize` after the sender name: the receiver name of a
private message, then the text. `pMsg` and `pEnd` are offsets into `data`. -/
def ClientMessage.UnserializeBody (self : ClientMessage) (data : List Byte)
    (pMsg pEnd : Nat) : Option ClientMessage :=
  if self.command = ClientCommand.PrivateMessage then
    (readCStr data pMsg).bind fun pmTo =>
      let self := { self with pmTo := pmTo }
      if pmTo.isEmpty then some self.setError
      else
        let pMsg := pMsg + 2 * (pmTo.length + 1)
        if pMsg = pEnd then some self.setError
        else
          (readRange data pMsg (pEnd - 2)).bind fun msg =>
            let self := { self with msg := msg }
            if msg.isEmpty then some self.setError else some self
  else
    (readRange data pMsg (pEnd - 2)).bind fun msg =>
      let self := { self with msg := msg }
      if msg.isEmpty then some self.setError else some self

/-- The decoder `ClientMessage::Unserialize(data, size)` with `size` the length
of `data`; the result is the record after the call. -/
def ClientMessage.Unserialize (self : ClientMessage) (data : List Byte) :
    Option ClientMessage :=
  let size := data.length
  if size ≤ MIN_MSG_SIZE then some self.setError
  else
    (readU64 data 0).bind fun ts =>
      let self := { self with timeStamp := ts }
      (readCommand data COMMAND_OFFSET).bind fun cmd =>
        let self := { self with command := cmd }
        if !IsCommand cmd then some self.setError
        else
          let pMsg := MESSAGE_OFFSET
          let pEnd := pMsg + (size - MESSAGE_OFFSET) / 2 * 2
          if pMsg = pEnd then some self.setError
          else
            (readWChar data (pEnd - 2)).bind fun last =>
              if last ≠ 0 then some self.setError
              else
                (readCStr data pMsg).bind fun from_ =>
                  let self := { self with from_ := from_ }
                  if from_.isEmpty then some self.setError
                  else if cmd = ClientCommand.ListClients ∨
                      cmd = ClientCommand.ClientConnect then some self
                  else
                    let pMsg := pMsg + 2 * (from_.length + 1)
                    if pMsg = pEnd then some self.setError
                    else self.UnserializeBody data pMsg pEnd

/-- The outcome of `Serialize`: the returned pointer (`none` for `nullptr`)
and the value left in `*size`. -/
structure Serialized where
  data : Option (List Byte)
  size : Nat
deriving DecidableEq, Repr

/-- The rejected outcome of `Serialize`: `nullptr` with `*size = 0`. -/
def Serialized.null : Serialized := { data := none, size := 0 }

/-- The byte count `(s.size() + 1) * sizeof(wchar_t)` of a string with its terminator. -/
def wsize (s : WString) : Nat := (s.length + 1) * 2

/-- The chars copied by `wmemcpy(pIt, s.c_str(), s.size() + 1)`. -/
def cstrBytes (s : WString) : List Byte := wcharBytes (s ++ [0])

/-- The `dataSize` of `Serialize`, a `uint32_t`. -/
def ClientMessage.dataSize (self : ClientMessage) : Nat :=
  (8 + 4 + wsize self.from_ + wsize self.msg + wsize self.pmTo) % U32_MOD

/-- The encoder `ClientMessage::Serialize(size)` for a non-null `size`.
`alloc n` tells whether `new (std::nothrow) char[n]()` yields a buffer. -/
def ClientMessage.Serialize (alloc : Nat → Bool) (self : ClientMessage) :
    Option Serialized :=
  if self.command = ClientCommand.Error ∨ self.from_.isEmpty then some Serialized.null
  else
    let dataSize := self.dataSize
    if !alloc dataSize then some Serialized.null
    else
      let data : List Byte := List.replicate dataSize 0
      (writeBytes data 0 (leBytes 8 self.timeStamp.val)).bind fun data =>
        let actualSize := 8
        (writeBytes data COMMAND_OFFSET (leBytes 4 self.command.val)).bind fun data =>
          let actualSize := (actualSize + 4) % U32_MOD
          let pIt := MESSAGE_OFFSET
          (writeBytes data pIt (cstrBytes self.from_)).bind fun data =>
            let pIt := pIt + wsize self.from_
            let actualSize := (actualSize + wsize self.from_) % U32_MOD
            let writeMsg (data : List Byte) (pIt actualSize : Nat) : Option Serialized :=
              if ¬ (self.command = ClientCommand.ClientConnect ∨
                  self.command = ClientCommand.ListClients) then
                if self.msg.isEmpty then some Serialized.null
                else
                  (writeBytes data pIt (cstrBytes self.msg)).bind fun data =>
                    let actualSize := (actualSize + wsize self.msg) % U32_MOD
                    some { data := some data, size := actualSize }
              else some { data := some data, size := actualSize }
            if self.command = ClientCommand.PrivateMessage then
              if self.pmTo.isEmpty then some Serialized.null
              else
                (writeBytes data pIt (cstrBytes self.pmTo)).bind fun data =>
                  writeMsg data (pIt + wsize self.pmTo)
                    ((actualSize + wsize self.pmTo) % U32_MOD)
            else writeMsg data pIt actualSize

/-- The bytes handed to the transport by the callers of `Serialize`: the first
`size` chars of the returned buffer. -/
def Serialized.wire (s : Serialized) : Option (List Byte) :=
  s.data.map (fun d => d.take s.size)

/-! ## The wire layout of a record (specification side) -/

/-- A payload-bearing command: every command other than `ClientConnect` and `ListClients`. -/
def carriesMsg (r : ClientMessage) : Prop :=
  ¬ (r.command = ClientCommand.ClientConnect ∨ r.command = ClientCommand.ListClients)

instance (r : ClientMessage) : Decidable (carriesMsg r) := by
  unfold carriesMsg; infer_instance

/-- The byte count of the layout table: header, sender name, then the receiver
name and the text when the command carries them. -/
def wireSize (r : ClientMessage) : Nat :=
  12 + wsize r.from_ + (if r.command = ClientCommand.PrivateMessage then wsize r.pmTo else 0)
    + (if carriesMsg r then wsize r.msg else 0)

/-- The layout table of a record body: `u64` time stamp, `u32` command, then the
NUL-terminated fields the command carries, all little-endian. -/
def wireLayout (r : ClientMessage) : List Byte :=
  leBytes 8 r.timeStamp.val ++ leBytes 4 r.command.val ++ cstrBytes r.from_
    ++ (if r.command = ClientCommand.PrivateMessage then cstrBytes r.pmTo else [])
    ++ (if carriesMsg r then cstrBytes r.msg else [])

/-- The state in which a decode of `data`, started from the record `self`, may
leave the record `r`: the command is `Error` or one of the commands, and after
a failure each remaining field holds its prior value or what was read from
`data` before the failure was detected. -/
def FailurePost (self : ClientMessage) (data : List Byte) (r : ClientMessage) : Prop :=
  (r.command = ClientCommand.Error ∨ IsCommand r.command = true) ∧
  (r.command = ClientCommand.Error →
    (data.length ≤ 16 → r.timeStamp = self.timeStamp ∧ r.from_ = self.from_ ∧
        r.pmTo = self.pmTo ∧ r.msg = self.msg) ∧
    (16 < data.length →
      readU64 data 0 = some r.timeStamp ∧
      (r.from_ = self.from_ ∨ readCStr data 12 = some r.from_) ∧
      (r.pmTo = self.pmTo ∨ readCStr data (12 + 2 * (r.from_.length + 1)) = some r.pmTo) ∧
      (r.msg = self.msg ∨ r.msg = [])))


/-! ## Sockets: the transport under ClientBase (ClientBase.cpp, Common.h)

A socket is modelled by what its peer and the network will do: the pieces in
which the incoming stream is delivered, the outcome of each coming `::send`,
and the record of what was written. The result of `::send` and `::recv` is an
`Option Nat`, where `none` stands for `SOCKET_ERROR`. -/

def MAX_SEND_RECV_DATA_SIZE : Nat := 1024

/-- What one `::recv` call finds on the socket: the next piece of the incoming
stream, or a socket error. -/
inductive RecvEvent where
  | piece (bytes : List Byte)
  | error
deriving DecidableEq, Repr

/-- What one `::send` call meets: the transport takes at most `n` chars of the
write, or fails. -/
inductive SendEvent where
  | accept (n : Nat)
  | error
deriving DecidableEq, Repr

/-- A connected socket (`CSOCKET`). `inbox` holds what the coming `::recv` calls
find, `sendPlan` what the coming `::send` calls meet (past its end every write
is taken in full), `sent` the chars taken by each `::send` call so far, and
`closed` is set by `Reset`. -/
structure Socket where
  inbox : List RecvEvent := []
  sendPlan : List SendEvent := []
  sent : List (List Byte) := []
  closed : Bool := false
deriving DecidableEq, Repr

/-- The call `::recv(sock, buf, len, 0)`: the result, the chars stored in `buf`,
and the socket afterwards. A piece longer than `len` is returned in part and the
rest stays for the next call; with nothing left the peer has closed (result 0). -/
def Socket.recv (s : Socket) (len : Nat) : Option Nat × List Byte × Socket :=
  if s.closed then (none, [], s)
  else
    match s.inbox with
    | [] => (some 0, [], s)
    | RecvEvent.error :: rest => (none, [], { s with inbox := rest })
    | RecvEvent.piece p :: rest =>
      if p.length ≤ len then (some p.length, p, { s with inbox := rest })
      else (some len, p.take len, { s with inbox := RecvEvent.piece (p.drop len) :: rest })

/-- The call `::send(sock, buf, len, 0)` for the chars `bytes` of `buf`: the
result and the socket afterwards. -/
def Socket.send (s : Socket) (bytes : List Byte) : Option Nat × Socket :=
  if s.closed then (none, s)
  else
    match s.sendPlan with
    | [] => (some bytes.length, { s with sent := s.sent ++ [bytes] })
    | SendEvent.error :: rest => (none, { s with sendPlan := rest })
    | SendEvent.accept n :: rest =>
      (some (min n bytes.length),
        { s with sendPlan := rest, sent := s.sent ++ [bytes.take n] })

/-- `CSOCKET::Reset()`: the socket is closed. -/
def Socket.Reset (s : Socket) : Socket := { s with closed := true }

/-- The `for` loop of `ClientBase::SendData`: `n` iterations left, `rest` the
chars from `dataToSend` on (their number is `size`). The result is the value
returned by `SendData`. -/
def sendLoop : Nat → Socket → List Byte → Bool × Socket
  | 0, s, rest => (rest.length == 0, s)
  | n + 1, s, rest =>
    match s.send (rest.take (min rest.length MAX_SEND_RECV_DATA_SIZE)) with
    | (none, s) => (false, s)
    | (some result, s) => sendLoop n s (rest.drop result)

/-- `ClientBase::SendData(data, size)` with `size` the length of `data`. -/
def SendData (s : Socket) (data : List Byte) : Bool × Socket :=
  let size := data.length
  match s.send (leBytes 4 size) with
  | (none, s) => (false, s)
  | (some _, s) =>
    let nSends := ((size + MAX_SEND_RECV_DATA_SIZE - 1) % U32_MOD) / MAX_SEND_RECV_DATA_SIZE
    sendLoop nSends s data

/-- The state of the `for` loop of `ClientBase::RecvData`. -/
structure RecvLoop where
  sock : Socket
  recvSize : Nat
  got : List Byte
  result : Option Nat
deriving DecidableEq, Repr

/-- The `for` loop of `ClientBase::RecvData`: `n` iterations left; `got` holds
the chars stored so far, from `data.data()` up to `dataToRecv`. -/
def recvLoop : Nat → RecvLoop → RecvLoop
  | 0, st => st
  | n + 1, st =>
    match st.sock.recv (min st.recvSize MAX_SEND_RECV_DATA_SIZE) with
    | (none, _, s) => { st with sock := s, result := none }
    | (some result, bytes, s) =>
      recvLoop n { sock := s, recvSize := st.recvSize - result, got := st.got ++ bytes,
                   result := some result }

/-- What `ClientBase::RecvData` leaves: the returned value, the vector `data`
and `*recved`. -/
structure Received where
  ok : Bool
  data : List Byte
  recved : Nat
deriving DecidableEq, Repr

/-- `ClientBase::RecvData(data, recved)` for a non-null `recved`. `alloc n`
tells whether `data.resize(n)` succeeds. -/
def RecvData (alloc : Nat → Bool) (s : Socket) : Received × Socket :=
  match s.recv 4 with
  | (none, _, s) => ({ ok := false, data := [], recved := 0 }, s)
  | (some 0, _, s) => ({ ok := true, data := [], recved := 0 }, s)
  | (some result, bytes, s) =>
    let recvSize := leValue bytes
    if !alloc recvSize then ({ ok := false, data := [], recved := 0 }, s)
    else
      let nRecvs :=
        ((recvSize + MAX_SEND_RECV_DATA_SIZE - 1) % U32_MOD) / MAX_SEND_RECV_DATA_SIZE
      let st := recvLoop nRecvs { sock := s, recvSize := recvSize, got := [],
                                  result := some result }
      match st.result with
      | none => ({ ok := st.recvSize == 0, data := [], recved := 0 }, st.sock)
      | some _ =>
        ({ ok := st.recvSize == 0,
           data := st.got ++ List.replicate (recvSize - st.got.length) 0,
           recved := st.got.length }, st.sock)

/-- Successive `SendData` calls on one socket, one per body. -/
def SendAll : Socket → List (List Byte) → List Bool × Socket
  | s, [] => ([], s)
  | s, body :: rest =>
    let r := SendData s body
    let rs := SendAll r.2 rest
    (r.1 :: rs.1, rs.2)

/-- Successive `RecvData` calls on one socket. -/
def RecvAll (alloc : Nat → Bool) : Nat → Socket → List Received × Socket
  | 0, s => ([], s)
  | n + 1, s =>
    let r := RecvData alloc s
    let rs := RecvAll alloc n r.2
    (r.1 :: rs.1, rs.2)

/-- The body `data` cut as `SendData` cuts it: `n` chunks of
`MAX_SEND_RECV_DATA_SIZE` chars, the last one shorter. -/
def chunks : Nat → List Byte → List (List Byte)
  | 0, _ => []
  | n + 1, data =>
    data.take MAX_SEND_RECV_DATA_SIZE :: chunks n (data.drop MAX_SEND_RECV_DATA_SIZE)

/-! ## The server: registry and router (Server.cpp, ServerClient.cpp)

The handlers are taken as atomic steps on the server state; the readers-writer
coordinator that guards the registry and the console output are left out. A
handler returns `none` when `Serialize` or `Unserialize` leaves its buffer. -/

/-- A wide string literal `L"..."` of ASCII characters. -/
def L (s : String) : WString := s.toList.map (fun c => toWChar c.toNat)

/-- `ServerClient`: the name and the socket of a connection (the peer address
and the id, which is only printed, are left out). -/
structure ServerClient where
  m_name : WString := []
  m_socket : Socket := {}
deriving DecidableEq, Repr

/-- `struct ClientThread`: a slot of the registry (the thread handle is left out). -/
structure ClientThread where
  completed : Bool := true
  client : ServerClient := {}
deriving DecidableEq, Repr

/-- A `ServerClient*`: the client of a slot of the registry, or the client held
by `AcceptClient`, which is in no slot yet. -/
inductive ClientRef where
  | slot (ind : Nat)
  | accepted
deriving DecidableEq, Repr

/-- The state of `Server::Impl`: the registry `m_clientThreads`, the client held
by `AcceptClient` during a handshake, and the values the coming calls of
`time(nullptr)` return (0 past the end of the list). -/
structure Server where
  m_clientThreads : List ClientThread := []
  accepted : ServerClient := {}
  clock : List U64 := []
deriving DecidableEq, Repr

/-- What a handler leaves: its return value, the record it was given by
reference, and the server state. -/
structure Handled where
  ret : Bool
  msg : ClientMessage
  sv : Server
deriving DecidableEq, Repr

/-- The call `time(nullptr)`. -/
def Server.time (sv : Server) : U64 × Server :=
  match sv.clock with
  | [] => (0, sv)
  | t :: rest => (t, { sv with clock := rest })

/-- The client a pointer refers to. -/
def Server.client (sv : Server) : ClientRef → ServerClient
  | ClientRef.slot ind => (sv.m_clientThreads.getD ind {}).client
  | ClientRef.accepted => sv.accepted

/-- The slot `ind` of a registry with its client replaced. -/
def setSlotClient (c : ServerClient) : Nat → List ClientThread → List ClientThread
  | _, [] => []
  | 0, thr :: rest => { thr with client := c } :: rest
  | ind + 1, thr :: rest => thr :: setSlotClient c ind rest

/-- A write through a `ServerClient*`. -/
def Server.setClient (sv : Server) (ref : ClientRef) (c : ServerClient) : Server :=
  match ref with
  | ClientRef.slot ind =>
    { sv with m_clientThreads := setSlotClient c ind sv.m_clientThreads }
  | ClientRef.accepted => { sv with accepted := c }

/-- `ServerClient::SendData(data, size)`, the chars `wire` being the first `size`
chars of `data`. -/
def ServerClient.SendData (c : ServerClient) (wire : List Byte) : Bool × ServerClient :=
  ((Chat.SendData c.m_socket wire).1, { c with m_socket := (Chat.SendData c.m_socket wire).2 })

/-- The call `client->SendData(data, size)` through a pointer. -/
def Server.SendData (sv : Server) (ref : ClientRef) (wire : List Byte) : Bool × Server :=
  (((sv.client ref).SendData wire).1, sv.setClient ref ((sv.client ref).SendData wire).2)

/-- `Server::Impl::IsClientNameExists`. -/
def Server.IsClientNameExists (sv : Server) (name : WString) : Bool :=
  sv.m_clientThreads.any (fun thr => !thr.completed && thr.client.m_name == name)

/-- `Server::Impl::MakeServerMessage`. -/
def Server.MakeServerMessage (sv : Server) (msg : ClientMessage) (str : WString) :
    ClientMessage × Server :=
  ({ msg with command := ClientCommand.ServerMsg, from_ := L "Server", pmTo := [],
              msg := str, timeStamp := sv.time.1 }, sv.time.2)

/-- The `for` loop of `ProcessBroadcastSend` from slot `ind` on: every slot that
is not the one `client` points to and is not completed is sent `wire`; a failed
send is only printed. -/
def broadcastLoop (wire : List Byte) (client : Option ClientRef) :
    Nat → List ClientThread → List ClientThread
  | _, [] => []
  | ind, cl :: rest =>
    (if client ≠ some (ClientRef.slot ind) ∧ cl.completed = false then
      { cl with client := (cl.client.SendData wire).2 }
    else cl) :: broadcastLoop wire client (ind + 1) rest

/-- `Server::Impl::ProcessBroadcastSend(msg, client)`; `client` is `none` for
`nullptr`. -/
def Server.ProcessBroadcastSend (alloc : Nat → Bool) (sv : Server) (msg : ClientMessage)
    (client : Option ClientRef) : Option Handled :=
  (msg.Serialize alloc).map fun s =>
    match s.data with
    | none => { ret := false, msg := msg, sv := sv }
    | some data =>
      let threads := broadcastLoop (data.take s.size) client 0 sv.m_clientThreads
      { ret := true, msg := msg, sv := { sv with m_clientThreads := threads } }

/-- The index of the first slot that `std::find_if` accepts, if any. -/
def findSlot (p : ClientThread → Bool) : Nat → List ClientThread → Option Nat
  | _, [] => none
  | ind, cl :: rest => if p cl then some ind else findSlot p (ind + 1) rest

/-- `Server::Impl::ProcessPrivateSend(msg, receivedFrom)`. -/
def Server.ProcessPrivateSend (alloc : Nat → Bool) (sv : Server) (msg : ClientMessage)
    (receivedFrom : ClientRef) : Option Handled :=
  (msg.Serialize alloc).bind fun s =>
    match s.data with
    | none => some { ret := false, msg := msg, sv := sv }
    | some data =>
      match findSlot (fun cl => cl.client.m_name == msg.pmTo && !cl.completed) 0
          sv.m_clientThreads with
      | none =>
        let made := sv.MakeServerMessage msg (L "There is no user with name " ++ msg.pmTo)
        (made.1.Serialize alloc).map fun s =>
          match s.data with
          | none => { ret := false, msg := made.1, sv := made.2 }
          | some data =>
            { ret := (made.2.SendData receivedFrom (data.take s.size)).1, msg := made.1,
              sv := (made.2.SendData receivedFrom (data.take s.size)).2 }
      | some ind =>
        some { ret := (sv.SendData (ClientRef.slot ind) (data.take s.size)).1, msg := msg,
               sv := (sv.SendData (ClientRef.slot ind) (data.take s.size)).2 }

/-- The user list built by the loop of `ProcessClientsListRequest`: the name of
every slot that is not completed, each followed by a newline. -/
def listNames : List ClientThread → WString
  | [] => []
  | cl :: rest => (if cl.completed = false then cl.client.m_name ++ [10] else []) ++ listNames rest

/-- `Server::Impl::ProcessClientsListRequest(msg, client)`. -/
def Server.ProcessClientsListRequest (alloc : Nat → Bool) (sv : Server) (msg : ClientMessage)
    (client : ClientRef) : Option Handled :=
  let list := listNames sv.m_clientThreads
  let list := if list.isEmpty then L "there are no active users" else list.dropLast
  let made := sv.MakeServerMessage msg (L "Current active users:\n" ++ list)
  (made.1.Serialize alloc).map fun s =>
    match s.data with
    | none => { ret := false, msg := made.1, sv := made.2 }
    | some data =>
      { ret := (made.2.SendData client (data.take s.size)).1, msg := made.1,
        sv := (made.2.SendData client (data.take s.size)).2 }

/-- `Server::Impl::ProcessNameAlreadyExists(msg, client)`. -/
def Server.ProcessNameAlreadyExists (alloc : Nat → Bool) (sv : Server) (msg : ClientMessage)
    (client : ClientRef) : Option Handled :=
  let made := sv.MakeServerMessage msg
    (L "ErrorNameAlreadyExists " ++ msg.msg ++ [32] ++ (sv.client client).m_name)
  (made.1.Serialize alloc).map fun s =>
    match s.data with
    | none => { ret := false, msg := made.1, sv := made.2 }
    | some data =>
      { ret := (made.2.SendData client (data.take s.size)).1, msg := made.1,
        sv := (made.2.SendData client (data.take s.size)).2 }

/-- `Server::Impl::ProcessNameChange(msg, client)`. -/
def Server.ProcessNameChange (alloc : Nat → Bool) (sv : Server) (msg : ClientMessage)
    (client : ClientRef) : Option Handled :=
  if !sv.IsClientNameExists msg.msg then
    let oldName := (sv.client client).m_name
    let sv := sv.setClient client { sv.client client with m_name := msg.msg }
    let made := sv.MakeServerMessage msg
      (oldName ++ L " changed his name to " ++ (sv.client client).m_name)
    made.2.ProcessBroadcastSend alloc made.1 none
  else sv.ProcessNameAlreadyExists alloc msg client

/-- `Server::Impl::ProcessReceivedClientData(msg, client)`. -/
def Server.ProcessReceivedClientData (alloc : Nat → Bool) (sv : Server) (msg : ClientMessage)
    (client : ClientRef) : Option Handled :=
  if msg.command = ClientCommand.BroadcastMessage then
    sv.ProcessBroadcastSend alloc msg (some client)
  else if msg.command = ClientCommand.PrivateMessage then
    sv.ProcessPrivateSend alloc msg client
  else if msg.command = ClientCommand.ChangeName then
    sv.ProcessNameChange alloc msg client
  else if msg.command = ClientCommand.ListClients then
    sv.ProcessClientsListRequest alloc msg client
  else some { ret := false, msg := msg, sv := sv }

/-- `Server::Impl::ReceiveData(client, data)`: the returned value, the vector
`data`, and the server state. -/
def Server.ReceiveData (alloc : Nat → Bool) (sv : Server) (client : ClientRef) :
    Bool × List Byte × Server :=
  let r := RecvData alloc (sv.client client).m_socket
  let sv := sv.setClient client { sv.client client with m_socket := r.2 }
  if !r.1.ok then (false, r.1.data, sv)
  else if r.1.recved = 0 then (true, r.1.data, sv)
  else (true, r.1.data.take r.1.recved, sv)

/-- `Server::Impl::ProcessClientConnect(client)` for the client held by
`AcceptClient`: the returned value and the server state. -/
def Server.ProcessClientConnect (alloc : Nat → Bool) (sv : Server) : Option (Bool × Server) :=
  let client := ClientRef.accepted
  let rcv := sv.ReceiveData alloc client
  let sv := rcv.2.2
  if !rcv.1 ∨ rcv.2.1.length = 0 then some (false, sv)
  else
    (ClientMessage.Unserialize {} rcv.2.1).bind fun msg =>
      if msg.command ≠ ClientCommand.ClientConnect then some (false, sv)
      else
        let sv := sv.setClient client { sv.client client with m_name := msg.from_ }
        if !sv.IsClientNameExists (sv.client client).m_name then
          let made := sv.MakeServerMessage msg
            ((sv.client client).m_name ++ L " joined to the chat.")
          (made.2.ProcessBroadcastSend alloc made.1 (some client)).bind fun sent =>
            if sent.ret then
              (sent.sv.ProcessClientsListRequest alloc sent.msg client).map fun listed =>
                (listed.ret, listed.sv)
            else some (false, sent.sv)
        else
          (sv.ProcessNameAlreadyExists alloc { msg with msg := msg.from_ } client).map
            fun h => (false, h.sv)

/-- The slot `ind` of a registry replaced. -/
def setSlot (thr : ClientThread) : Nat → List ClientThread → List ClientThread
  | _, [] => []
  | 0, _ :: rest => thr :: rest
  | ind + 1, cl :: rest => cl :: setSlot thr ind rest

/-- `Server::Impl::AddClient(clThr)`: the new slot takes the place of the first
completed one, or is appended. -/
def Server.AddClient (sv : Server) (clThr : ClientThread) : Server :=
  match findSlot (fun cl => cl.completed) 0 sv.m_clientThreads with
  | none => { sv with m_clientThreads := sv.m_clientThreads ++ [clThr] }
  | some ind => { sv with m_clientThreads := setSlot clThr ind sv.m_clientThreads }

/-- `Server::Impl::AcceptClient()`. `newThread` tells whether the allocation of
the `ClientThread` succeeds, `conn` is the socket `::accept` returns (`none`
for `INVALID_SOCKET`). -/
def Server.AcceptClient (alloc : Nat → Bool) (sv : Server) (newThread : Bool)
    (conn : Option Socket) : Option (Bool × Server) :=
  if !newThread then some (false, sv)
  else
    match conn with
    | none => some (false, sv)
    | some sock =>
      let sv := { sv with accepted := { m_name := [], m_socket := sock } }
      (sv.ProcessClientConnect alloc).map fun r =>
        if r.1 then (true, r.2.AddClient { completed := false, client := r.2.accepted })
        else (true, r.2)

/-- The slot `ind` of a registry marked completed, its socket closed. -/
def retireSlot : Nat → List ClientThread → List ClientThread
  | _, [] => []
  | 0, thr :: rest =>
    { completed := true,
      client := { thr.client with m_socket := thr.client.m_socket.Reset } } :: rest
  | ind + 1, thr :: rest => thr :: retireSlot ind rest

/-- The exit of `Server::Impl::ClientFunction(ind)`: the leave notice is made in
`clMsg` and broadcast to the others, the socket is closed and the slot is
marked completed. -/
def Server.ClientFunctionExit (alloc : Nat → Bool) (sv : Server) (ind : Nat)
    (clMsg : ClientMessage) : Option Server :=
  let made := sv.MakeServerMessage clMsg
    ((sv.client (ClientRef.slot ind)).m_name ++ L " leaves the chat.")
  (made.2.ProcessBroadcastSend alloc made.1 (some (ClientRef.slot ind))).map fun sent =>
    { sent.sv with m_clientThreads := retireSlot ind sent.sv.m_clientThreads }

/-- The names of the slots that are not completed, in slot order. -/
def liveNames : List ClientThread → List WString
  | [] => []
  | cl :: rest => if cl.completed = false then cl.client.m_name :: liveNames rest
                  else liveNames rest

/-- One atomic step of the registry: a connect handshake followed by
installation, a rename handled for the session of a slot, or the retirement of
the session of a slot. -/
inductive Server.Step (alloc : Nat → Bool) : Server → Server → Prop where
  | connect (sv : Server) (newThread : Bool) (conn : Option Socket) (r : Bool × Server) :
      sv.AcceptClient alloc newThread conn = some r → Server.Step alloc sv r.2
  | rename (sv : Server) (ind : Nat) (msg : ClientMessage) (h : Handled) :
      ind < sv.m_clientThreads.length →
      sv.ProcessNameChange alloc msg (ClientRef.slot ind) = some h →
      Server.Step alloc sv h.sv
  | retire (sv : Server) (ind : Nat) (clMsg : ClientMessage) (sv' : Server) :
      ind < sv.m_clientThreads.length →
      sv.ClientFunctionExit alloc ind clMsg = some sv' → Server.Step alloc sv sv'

/-- The states reached from a server with an empty registry. -/
inductive Server.Reachable (alloc : Nat → Bool) : Server → Prop where
  | init (sv : Server) : sv.m_clientThreads = [] → Server.Reachable alloc sv
  | step (sv sv' : Server) :
      Server.Reachable alloc sv → Server.Step alloc sv sv' → Server.Reachable alloc sv'

/-- The writes of `SendData` for one body over a transport that takes every
write in full: the length on four chars, then the chunks. -/
def frameWrites (body : List Byte) : List (List Byte) :=
  leBytes 4 body.length :: chunks ((body.length + 1023) / 1024) body

/-- What every handler keeps apart from a rename, an installation and a
retirement: the live names and the name of the client under handshake. -/
def SameNames (sv sv' : Server) : Prop :=
  liveNames sv'.m_clientThreads = liveNames sv.m_clientThreads ∧
    sv'.accepted.m_name = sv.accepted.m_name

/-- The record `MakeServerMessage` leaves in `msg` when `time(nullptr)` returns
`t`: a `ServerMsg` from "Server" with an empty receiver and the text `str`. -/
def serverMessage (t : U64) (str : WString) : ClientMessage :=
  { command := ClientCommand.ServerMsg, from_ := L "Server", pmTo := [], msg := str,
    timeStamp := t }

/-- Whether the slot `cl` is live and holds the name `name`. -/
def liveNamed (name : WString) (cl : ClientThread) : Prop :=
  cl.completed = false ∧ cl.client.m_name = name

instance (name : WString) (cl : ClientThread) : Decidable (liveNamed name cl) := by
  unfold liveNamed; infer_instance

/-- The state in which `AcceptClient` calls `ProcessClientConnect`: the client
of the new `ClientThread` holds the accepted socket and has no name yet. -/
def Server.holdAccepted (sv : Server) (sock : Socket) : Server :=
  { sv with accepted := { m_name := [], m_socket := sock } }

/-- The text `ProcessClientsListRequest` puts after "Current active users:\n":
the live names in slot order joined by newlines, or the fallback text when no
slot is live. -/
def userListText (threads : List ClientThread) : WString :=
  if liveNames threads = [] then L "there are no active users"
  else List.intercalate [10] (liveNames threads)

/-! ## The client: input parsing and the input loop (Client.cpp, ClientMessage.cpp)

The classification of characters is fixed on ASCII and left to the platform
above it: `wide` tells how the locale classifies a code unit of 128 or more. -/

/-- `ClientMessage::GetCommandId`. -/
def GetCommandId (command : WString) : ClientCommand :=
  if command = L "/pm" then ClientCommand.PrivateMessage
  else if command = L "/setname" then ClientCommand.ChangeName
  else if command = L "/listusers" then ClientCommand.ListClients
  else if command = L "/help" then ClientCommand.Help
  else ClientCommand.Error

/-- Whitespace as the `ctype<wchar_t>` facet of the stream sees it: tab to
carriage return and the space on ASCII, `wide` above. -/
def isspace (wide : WChar → Bool) (c : WChar) : Bool :=
  if c.val < 128 then (9 ≤ c.val && c.val ≤ 13) || c.val == 32 else wide c

/-- The function `::isalnum` as `std::all_of` applies it to a code unit: digits
and letters on ASCII, `wide` above. -/
def isalnum (wide : WChar → Bool) (c : WChar) : Bool :=
  if c.val < 128 then
    (48 ≤ c.val && c.val ≤ 57) || (65 ≤ c.val && c.val ≤ 90) || (97 ≤ c.val && c.val ≤ 122)
  else wide c

/-- A `std::wistringstream`: the characters not read yet, `eofbit` and `failbit`. -/
structure IStream where
  rest : WString
  eofbit : Bool := false
  failbit : Bool := false
deriving DecidableEq, Repr

/-- The test `good()` of a stream. -/
def IStream.good (s : IStream) : Bool := !s.eofbit && !s.failbit

/-- The extraction `iss >> str`: the string and the stream afterwards. On a
stream that is not good, or that ends before a character that is not
whitespace, `failbit` is set and `str` is left as it was; otherwise `str` takes
the characters up to the next whitespace or the end. -/
def IStream.extract (wide : WChar → Bool) (s : IStream) (str : WString) : WString × IStream :=
  if !s.good then (str, { s with failbit := true })
  else
    let rest := s.rest.dropWhile (isspace wide)
    if rest.isEmpty then (str, { rest := [], eofbit := true, failbit := true })
    else
      let word := rest.takeWhile (fun c => !isspace wide c)
      let rest := rest.dropWhile (fun c => !isspace wide c)
      (word, { rest := rest, eofbit := rest.isEmpty, failbit := false })

/-- The call `iss.ignore()`: one character is read and dropped. -/
def IStream.ignore (s : IStream) : IStream :=
  if !s.good then { s with failbit := true }
  else
    match s.rest with
    | [] => { s with eofbit := true }
    | _ :: rest => { s with rest := rest }

/-- The call `std::getline(iss, str)`: the string and the stream afterwards.
The characters up to the next newline are stored, the newline is read and
dropped; `failbit` is set when nothing was read. -/
def IStream.getline (s : IStream) (str : WString) : WString × IStream :=
  if !s.good then (str, { s with failbit := true })
  else
    let line := s.rest.takeWhile (fun c => c != 10)
    match s.rest.dropWhile (fun c => c != 10) with
    | [] => (line, { rest := [], eofbit := true, failbit := line.isEmpty })
    | _ :: rest => (line, { rest := rest, eofbit := false, failbit := false })

/-- The text `ParseInputLine` stores for `/help`. -/
def helpText : WString :=
  L "Available commands:\n" ++ L "/pm (user name)- private message\n" ++
    L "/setname (new name) - change name\n" ++ L "/listusers - show current active users\n" ++
    L "/exit - exit program"

/-- The tail of `ParseInputLine` from `msg.timeStamp = ::time(nullptr)` on, with
the stream `iss` as the command word left it. -/
def ParseInputLineArgs (wide : WChar → Bool) (t : U64) (msg : ClientMessage) (iss : IStream) :
    Bool × ClientMessage :=
  let msg := { msg with timeStamp := t }
  if msg.command = ClientCommand.Help then (true, { msg with msg := helpText })
  else
    let pm := if msg.command = ClientCommand.PrivateMessage then iss.extract wide msg.pmTo
      else (msg.pmTo, iss)
    let msg := { msg with pmTo := pm.1 }
    let iss := pm.2
    if msg.command = ClientCommand.PrivateMessage ∧ msg.pmTo.isEmpty then (false, msg)
    else if msg.command = ClientCommand.ListClients then (true, msg)
    else if msg.command = ClientCommand.ChangeName then
      let msg := { msg with msg := (iss.extract wide msg.msg).1 }
      if msg.msg.isEmpty then (false, msg) else (true, msg)
    else
      let iss := if msg.command ≠ ClientCommand.BroadcastMessage then iss.ignore else iss
      let msg := { msg with msg := (iss.getline msg.msg).1 }
      if msg.msg.isEmpty then (false, msg) else (true, msg)

/-- `Client::Impl::ParseInputLine(msg, str)`: the returned value and the record
`msg` afterwards; `t` is the value of `time(nullptr)`. -/
def ParseInputLine (wide : WChar → Bool) (t : U64) (msg : ClientMessage) (str : WString) :
    Bool × ClientMessage :=
  if str.isEmpty then (false, msg)
  else
    let msg := { msg with pmTo := [], msg := [], command := ClientCommand.BroadcastMessage }
    let iss : IStream := { rest := str }
    if str.head? = some 47 then
      let cmdStr := iss.extract wide []
      let msg := { msg with command := GetCommandId cmdStr.1 }
      if msg.command = ClientCommand.Error then (false, msg)
      else ParseInputLineArgs wide t msg cmdStr.2
    else ParseInputLineArgs wide t msg iss

/-- The state of `Client::Impl` in `ClientRoutine`: the name, the exit flag,
the socket, and the local record `msg` of the routine. -/
structure Client where
  m_name : WString := []
  m_exit : Bool := false
  m_socket : Socket := {}
  msg : ClientMessage := {}
deriving DecidableEq, Repr

/-- How one pass of the `while` loop of `ClientRoutine` ends: with `continue`
or at the end of the body, with `break`, or with `return false`. -/
inductive Flow where
  | again
  | leave
  | returnFalse
deriving DecidableEq, Repr

/-- The end of a pass of the loop of `ClientRoutine`, after the send: a
`ChangeName` record makes its `msg` the name of the client, and
`msg.from = std::move(msg.msg)` leaves `msg.msg` empty. -/
def Client.adoptName (c : Client) (msg : ClientMessage) : Client :=
  if msg.command = ClientCommand.ChangeName then
    { c with m_name := msg.msg, msg := { msg with from_ := msg.msg, msg := [] } }
  else { c with msg := msg }

/-- One pass of the `while` loop of `Client::Impl::ClientRoutine` from the
return of `ReadLine` with the line `inpStr`; `c.m_exit` is the flag as the test
after `ReadLine` finds it. The console output (`PrintInputMessage`,
`PrintError`) is left out; `none` stands for a `Serialize` that leaves its
buffer. -/
def ClientRoutineStep (wide : WChar → Bool) (alloc : Nat → Bool) (t : U64) (c : Client)
    (inpStr : WString) : Option (Flow × Client) :=
  if c.m_exit then some (Flow.leave, c)
  else if inpStr = L "/exit" then some (Flow.leave, { c with m_exit := true })
  else
    let p := ParseInputLine wide t c.msg inpStr
    if !p.1 then some (Flow.again, { c with msg := p.2 })
    else if p.2.command = ClientCommand.Help then some (Flow.again, { c with msg := p.2 })
    else
      let msg := { p.2 with from_ := c.m_name }
      (msg.Serialize alloc).map fun s =>
        match s.data with
        | none => (Flow.again, c.adoptName msg)
        | some data =>
          let r := SendData c.m_socket (data.take s.size)
          if !r.1 then (Flow.returnFalse, { c with m_socket := r.2, msg := msg })
          else (Flow.again, Client.adoptName { c with m_socket := r.2 } msg)

/-- The name loop of `Client::Impl::InitClient`: of the lines the user enters,
the first one that `std::all_of(..., ::isalnum)` accepts becomes `m_name`
(`none` while the prompt is still repeated). -/
def InitClientName (wide : WChar → Bool) : List WString → Option WString
  | [] => none
  | line :: rest => if line.all (isalnum wide) then some line else InitClientName wide rest

/-- The record of `ClientRoutine` after `msg.from = m_name`. -/
def Client.outgoing (c : Client) (r : ClientMessage) : ClientMessage :=
  { r with from_ := c.m_name }

/-- The record `ParseInputLine` leaves for a `/setname` line with the token `T`
at time `t`, after `msg.from = m_name`. -/
def Client.renameRecord (c : Client) (t : U64) (T : WString) : ClientMessage :=
  { command := ClientCommand.ChangeName, from_ := c.m_name, pmTo := [], msg := T,
    timeStamp := t }

/-! ## The readers-writer coordinator (RWAccessManager.h, Event.h)

Every function body that runs under a mutex is one atomic step. A call of
`Event::Wait` that has to wait is two steps, the entry, which registers the
waiter, and the wake-up, which is enabled once the predicate of the condition
variable holds. -/

/-- `Event::SignalData`. -/
structure SignalData where
  nSignaled : Nat := 0
  state : Bool := false
  signalType : Bool := false
deriving DecidableEq, Repr

/-- An `Event`. `objects` holds the `SignalData` objects allocated so far, a
pointer to one being its index; `signalData` is the pointer of the event. The
`delete` of an object is left out. -/
structure Event where
  objects : List SignalData := [{}]
  signalData : Nat := 0
  nWaits : Nat := 0
  manualReset : Bool := false
deriving DecidableEq, Repr

/-- The object `*signalData`. -/
def Event.current (e : Event) : SignalData := e.objects.getD e.signalData {}

/-- A write through the pointer `sd`. -/
def Event.store (e : Event) (sd : Nat) (d : SignalData) : Event :=
  { e with objects := e.objects.set sd d }

/-- `Event::Signal(bAll)`. -/
def Event.Signal (e : Event) (bAll : Bool) : Event :=
  let e := e.store e.signalData { e.current with signalType := bAll || e.manualReset }
  if e.nWaits ≠ 0 then
    if e.current.signalType then
      let e := e.store e.signalData { e.current with nSignaled := e.nWaits }
      let e := { e with nWaits := 0 }
      let e := { e with objects := e.objects ++ [({} : SignalData)], signalData := e.objects.length }
      e.store e.signalData { e.current with state := e.manualReset }
    else
      let e := e.store e.signalData
        { e.current with nSignaled := (e.current.nSignaled + 1) % U32_MOD }
      let e := { e with nWaits := (e.nWaits + U32_MOD - 1) % U32_MOD }
      e.store e.signalData { e.current with state := e.manualReset }
  else e.store e.signalData { e.current with state := true }

/-- The entry of `Event::Wait()`: with the state clear the caller is counted in
`nWaits` and waits on the object `sd` (result `some sd`); with the state set
the call returns at once (result `none`), clearing the state of an event that
is not manual-reset. -/
def Event.WaitEnter (e : Event) : Option Nat × Event :=
  if !e.current.state then
    (some e.signalData, { e with nWaits := (e.nWaits + 1) % U32_MOD })
  else if !e.manualReset then
    (none, e.store e.signalData { e.current with state := false })
  else (none, e)

/-- The predicate `sd->nSignaled != 0` on which a waiter of `Event::Wait()`
is blocked. -/
def Event.canWake (e : Event) (sd : Nat) : Bool := (e.objects.getD sd {}).nSignaled != 0

/-- The wake-up of a waiter on the object `sd`: `--sd->nSignaled`, then `Wait`
returns. -/
def Event.WaitWake (e : Event) (sd : Nat) : Event :=
  e.store sd { e.objects.getD sd {} with
    nSignaled := ((e.objects.getD sd {}).nSignaled + U32_MOD - 1) % U32_MOD }

/-- The value of `-1` in the `uint32_t` member `m_nCurrUsers`: one writer. -/
def WRITER : Nat := U32_MOD - 1

/-- The `RWAccessManager`: the two events and the three counters. -/
structure RWAccessManager where
  m_canReadEvent : Event := {}
  m_canWriteEvent : Event := {}
  m_nCurrUsers : Nat := 0
  m_nPendingWriters : Nat := 0
  m_nPendingReaders : Nat := 0
deriving DecidableEq, Repr

/-- The part of `RWAccessManager::LockRead` under the mutex: whether the caller
goes on to `m_canReadEvent->Wait()`, and the coordinator afterwards. -/
def RWAccessManager.LockRead (m : RWAccessManager) : Bool × RWAccessManager :=
  if m.m_nCurrUsers = WRITER ∨ m.m_nPendingWriters ≠ 0 then
    (true, { m with m_nPendingReaders := (m.m_nPendingReaders + 1) % U32_MOD })
  else (false, { m with m_nCurrUsers := (m.m_nCurrUsers + 1) % U32_MOD })

/-- The part of `RWAccessManager::LockWrite` under the mutex: whether the
caller goes on to `m_canWriteEvent->Wait()`, and the coordinator afterwards. -/
def RWAccessManager.LockWrite (m : RWAccessManager) : Bool × RWAccessManager :=
  if m.m_nCurrUsers ≠ 0 then
    (true, { m with m_nPendingWriters := (m.m_nPendingWriters + 1) % U32_MOD })
  else (false, { m with m_nCurrUsers := WRITER })

/-- The event `RWAccessManager::Unlock` signals. -/
inductive Signalled where
  | nothing
  | canWrite
  | canRead
deriving DecidableEq, Repr

/-- `RWAccessManager::Unlock`: the event it signals and the coordinator
afterwards. -/
def RWAccessManager.Unlock (m : RWAccessManager) : Signalled × RWAccessManager :=
  let m := if m.m_nCurrUsers = WRITER then { m with m_nCurrUsers := 0 }
    else if m.m_nCurrUsers ≠ 0 then { m with m_nCurrUsers := m.m_nCurrUsers - 1 }
    else m
  if m.m_nCurrUsers = 0 then
    if m.m_nPendingWriters ≠ 0 then
      (Signalled.canWrite,
        { m with m_nCurrUsers := WRITER, m_nPendingWriters := m.m_nPendingWriters - 1,
                 m_canWriteEvent := m.m_canWriteEvent.Signal false })
    else if m.m_nPendingReaders ≠ 0 then
      (Signalled.canRead,
        { m with m_nCurrUsers := m.m_nPendingReaders, m_nPendingReaders := 0,
                 m_canReadEvent := m.m_canReadEvent.Signal true })
    else (Signalled.nothing, m)
  else (Signalled.nothing, m)

/-- The calls `ProcessClientsListRequest` makes on the coordinator, in order,
when the read lock is granted at once: `LockRead` in the constructor of `rwlk`,
`Unlock` in `rwlk.Unlock()`, and `Unlock` in the destructor of `rwlk`, which
runs on every return. -/
def ProcessClientsListRequestLocks (m : RWAccessManager) : RWAccessManager :=
  (m.LockRead.2.Unlock.2.Unlock).2

/-- A call on the coordinator. -/
inductive RWOp where
  | lockRead
  | lockWrite
  | unlock
deriving DecidableEq, Repr

/-- The coordinator after one call. -/
def RWAccessManager.apply (m : RWAccessManager) : RWOp → RWAccessManager
  | RWOp.lockRead => m.LockRead.2
  | RWOp.lockWrite => m.LockWrite.2
  | RWOp.unlock => m.Unlock.2

/-- The coordinator after a sequence of calls, each one atomic. -/
def RWAccessManager.run (m : RWAccessManager) : List RWOp → RWAccessManager
  | [] => m
  | op :: rest => (m.apply op).run rest

/-- What a thread is to the coordinator: it holds nothing, it holds or has been
granted the lock as reader or as writer, or it is counted as a pending reader
or writer. -/
inductive Role where
  | idle
  | reader
  | writer
  | pendingReader
  | pendingWriter
deriving DecidableEq, Repr

/-- The roles after `Unlock` has signalled: a broadcast on the can-read event
grants the lock to every pending reader, a single signal on the can-write
event to the pending writer `w`. -/
def grant (s : Signalled) (w : Nat) (roles : List Role) : List Role :=
  match s with
  | Signalled.nothing => roles
  | Signalled.canRead =>
    roles.map (fun r => if r = Role.pendingReader then Role.reader else r)
  | Signalled.canWrite => roles.set w Role.writer

/-- One atomic step of a thread `t` on the coordinator, with the role of each
thread kept beside it. A thread calls `LockRead` or `LockWrite` when it holds
nothing, and `Unlock` when it holds the lock; the signal of `Unlock` on the
can-write event reaches a pending writer `w`. -/
inductive RWStep : RWAccessManager × List Role → RWAccessManager × List Role → Prop where
  | lockRead (m : RWAccessManager) (roles : List Role) (t : Nat) :
      roles[t]? = some Role.idle →
      RWStep (m, roles)
        (m.LockRead.2, roles.set t (if m.LockRead.1 then Role.pendingReader else Role.reader))
  | lockWrite (m : RWAccessManager) (roles : List Role) (t : Nat) :
      roles[t]? = some Role.idle →
      RWStep (m, roles)
        (m.LockWrite.2, roles.set t (if m.LockWrite.1 then Role.pendingWriter else Role.writer))
  | unlock (m : RWAccessManager) (roles : List Role) (t w : Nat) :
      (roles[t]? = some Role.reader ∨ roles[t]? = some Role.writer) →
      (m.Unlock.1 = Signalled.canWrite → roles[w]? = some Role.pendingWriter) →
      RWStep (m, roles) (m.Unlock.2, grant m.Unlock.1 w (roles.set t Role.idle))

/-- The states reached by `n` threads from the coordinator as constructed. -/
inductive RWReachable (n : Nat) : RWAccessManager × List Role → Prop where
  | init : RWReachable n ({}, List.replicate n Role.idle)
  | step (s s' : RWAccessManager × List Role) :
      RWReachable n s → RWStep s s' → RWReachable n s'

/-- The number of threads in the role `r`. -/
def threads (r : Role) (roles : List Role) : Nat := roles.count r

/-- The invariant of the coordinator with `n` threads: the pending counters
count the pending threads, and either `m_nCurrUsers` is `-1` with one writer
and no reader, or it is the number of readers with no writer. -/
def RWInv (n : Nat) (s : RWAccessManager × List Role) : Prop :=
  s.2.length = n ∧
  s.1.m_nPendingWriters = threads Role.pendingWriter s.2 ∧
  s.1.m_nPendingReaders = threads Role.pendingReader s.2 ∧
  ((s.1.m_nCurrUsers = WRITER ∧ threads Role.writer s.2 = 1 ∧ threads Role.reader s.2 = 0) ∨
   (s.1.m_nCurrUsers = threads Role.reader s.2 ∧ threads Role.writer s.2 = 0))

/-- The locals of `Server::Impl::ClientFunction`: the record `clMsg` and the
flag `error`. -/
structure Worker where
  clMsg : ClientMessage := {}
  error : Bool := false
deriving DecidableEq, Repr

/-- One pass of the `while` loop of `Server::Impl::ClientFunction(ind)`:
whether the loop goes on (`Flow.again`) or is left with `break`
(`Flow.leave`), the locals and the server afterwards. `connReset` tells whether
`WSAGetLastError()` is `WSAECONNRESET` after a failed receive. -/
def Server.ClientFunctionPass (alloc : Nat → Bool) (connReset : Bool) (sv : Server) (ind : Nat)
    (w : Worker) : Option (Flow × Worker × Server) :=
  let client := ClientRef.slot ind
  let rcv := sv.ReceiveData alloc client
  if rcv.1 then
    if rcv.2.1.length = 0 then some (Flow.leave, w, rcv.2.2)
    else
      (w.clMsg.Unserialize rcv.2.1).bind fun clMsg =>
        (rcv.2.2.ProcessReceivedClientData alloc clMsg client).map fun h =>
          if !h.ret then (Flow.again, { clMsg := h.msg, error := true }, h.sv)
          else (Flow.again, { w with clMsg := h.msg }, h.sv)
  else
    some (Flow.leave, { w with error := if connReset then w.error else true }, rcv.2.2)

/-- The `while (!m_exit && !error)` loop of `ClientFunction`. `exits` holds the
values of `m_exit` the coming tests of the loop find (past its end the server
is shutting down), `resets` the values of `connReset` for the coming passes
(false past its end). -/
def Server.ClientFunctionLoop (alloc : Nat → Bool) (ind : Nat) :
    List Bool → List Bool → Worker → Server → Option (Worker × Server)
  | [], _, w, sv => some (w, sv)
  | m_exit :: exits, resets, w, sv =>
    if m_exit ∨ w.error then some (w, sv)
    else
      (sv.ClientFunctionPass alloc (resets.headD false) ind w).bind fun r =>
        match r.1 with
        | Flow.again => Server.ClientFunctionLoop alloc ind exits resets.tail r.2.1 r.2.2
        | _ => some (r.2.1, r.2.2)

/-- `Server::Impl::ClientFunction(ind)` from a test of its loop on, with the
locals `w`: the value of `error` at the end of the loop and the server after
the exit of the worker. -/
def Server.ClientFunctionFrom (alloc : Nat → Bool) (ind : Nat) (exits resets : List Bool)
    (w : Worker) (sv : Server) : Option (Bool × Server) :=
  (Server.ClientFunctionLoop alloc ind exits resets w sv).bind fun r =>
    (r.2.ClientFunctionExit alloc ind r.1.clMsg).map fun sv' => (r.1.error, sv')

/-- `Server::Impl::ClientFunction(ind)`: the value of `error` at the end of the
loop and the server after the exit of the worker. -/
def Server.ClientFunction (alloc : Nat → Bool) (ind : Nat) (exits resets : List Bool)
    (sv : Server) : Option (Bool × Server) :=
  Server.ClientFunctionFrom alloc ind exits resets {} sv

/-- How two decodes of one buffer, into the records `a` and `b`, relate: both
leave their buffer or neither does; the commands are equal, and when the
command is not `Error` the time stamps and the sender names are equal, the
receiver names are equal for `PrivateMessage` and are the prior ones otherwise,
and the texts are equal when the command carries a text and are the prior ones
otherwise. -/
def DecodeAgrees (a b : ClientMessage) : Option ClientMessage → Option ClientMessage → Prop
  | some ra, some rb =>
    ra.command = rb.command ∧
    (ra.command ≠ ClientCommand.Error →
      ra.timeStamp = rb.timeStamp ∧ ra.from_ = rb.from_ ∧
      (if ra.command = ClientCommand.PrivateMessage then ra.pmTo = rb.pmTo
        else ra.pmTo = a.pmTo ∧ rb.pmTo = b.pmTo) ∧
      (if carriesMsg ra then ra.msg = rb.msg else ra.msg = a.msg ∧ rb.msg = b.msg))
  | none, none => True
  | _, _ => False

/-- The handling of a decoded record in `Client::Impl::ReceiveThread`, from the
test for the `ErrorNameAlreadyExists` marker to the call of
`PrintReceivedMessage`: the record handed to `PrintReceivedMessage`, `m_name`
and `error` afterwards. `tmpStr` starts empty and keeps its value when an
extraction fails. -/
def ReceiveThreadRecord (wide : WChar → Bool) (m_name : WString) (error : Bool)
    (msg : ClientMessage) : ClientMessage × WString × Bool :=
  if msg.command = ClientCommand.ServerMsg ∧
      msg.msg.take 22 = L "ErrorNameAlreadyExists" then
    let iss : IStream := { rest := msg.msg }
    let first := iss.extract wide []
    let second := first.2.extract wide first.1
    let msg := { msg with msg := L "User with name '" ++ second.1 ++ L "' already exists" }
    let third := second.2.extract wide second.1
    (msg, third.1, if third.1.isEmpty then true else error)
  else (msg, m_name, error)

/-- The text `Client::Impl::PrintReceivedMessage(msg)` writes to the console
(empty when it writes nothing); `timeStr` is what `GetTimeStr(msg.timeStamp)`
returns. -/
def PrintReceivedMessage (timeStr : WString) (msg : ClientMessage) : WString :=
  if msg.command = ClientCommand.Error then []
  else
    let resStr :=
      if msg.command = ClientCommand.ServerMsg ∨
          msg.command = ClientCommand.BroadcastMessage then
        timeStr ++ msg.from_ ++ L ": " ++ msg.msg
      else if msg.command = ClientCommand.PrivateMessage then
        timeStr ++ L "From " ++ msg.from_ ++ L ": " ++ msg.msg
      else []
    if resStr.isEmpty then [] else resStr ++ [10]

/-- The broadcast "h" from "A". -/
def sampleBroadcast : ClientMessage :=
  { from_ := [65], msg := [104], command := ClientCommand.BroadcastMessage }

/-- The private message "h" from "A" to "B" with time stamp 7. -/
def samplePrivate : ClientMessage :=
  { from_ := [65], pmTo := [66], msg := [104], command := ClientCommand.PrivateMessage,
    timeStamp := 7 }

/-- The body of the `ClientConnect` record of "AB" with time stamp 5 (18 chars). -/
def sampleConnect : List Byte :=
  [5, 0, 0, 0, 0, 0, 0, 0, 5, 0, 0, 0, 65, 0, 66, 0, 0, 0]

/-- A new connection on which the frame of `sampleConnect` arrives as `SendData`
writes it. -/
def sampleConnection : Socket :=
  { inbox := [RecvEvent.piece [18, 0, 0, 0], RecvEvent.piece sampleConnect] }

/-- A registry of three slots: "A" live, "B" live on a socket whose next send
fails, "C" completed. -/
def sampleServer : Server :=
  { m_clientThreads :=
      [{ completed := false, client := { m_name := [65] } },
       { completed := false,
         client := { m_name := [66], m_socket := { sendPlan := [SendEvent.error] } } },
       { completed := true, client := { m_name := [67] } }] }

/-- The private message "h" from "A" to "C" with time stamp 7. -/
def samplePrivateToC : ClientMessage :=
  { from_ := [65], pmTo := [67], msg := [104], command := ClientCommand.PrivateMessage,
    timeStamp := 7 }

/-- A registry in which "Alice" is the only live session. -/
def sampleAlice : Server :=
  { m_clientThreads := [{ completed := false, client := { m_name := L "Alice" } }] }

/-- The `ListClients` record of "Alice". -/
def sampleListClients : ClientMessage :=
  { from_ := L "Alice", command := ClientCommand.ListClients }

/-- The `ChangeName` record of "A" asking for the name "B". -/
def sampleRenameToB : ClientMessage :=
  { from_ := [65], msg := [66], command := ClientCommand.ChangeName }

/-- A registry in which "AB" is the only live session. -/
def sampleServerAB : Server :=
  { m_clientThreads := [{ completed := false, client := { m_name := [65, 66] } }] }

/-- The `ChangeName` record of "A" asking for the name "D". -/
def sampleRenameToD : ClientMessage :=
  { from_ := [65], msg := [68], command := ClientCommand.ChangeName }

/-- The `ClientConnect` record of "Bob" with time stamp 5. -/
def sampleBobConnect : ClientMessage :=
  { from_ := L "Bob", timeStamp := 5, command := ClientCommand.ClientConnect }

/-- A new connection on which the frame of `sampleBobConnect` arrives as
`SendData` writes it. -/
def sampleBobConnection : Socket :=
  { inbox := [RecvEvent.piece (leBytes 4 20), RecvEvent.piece (wireLayout sampleBobConnect)] }

/-- The client "Alice" in its input loop, on a socket that takes every write. -/
def sampleClient : Client := { m_name := L "Alice" }

/-- The private message "hello" for "Bob" as `ParseInputLine` leaves it at time 3. -/
def samplePmBob : ClientMessage :=
  { command := ClientCommand.PrivateMessage, pmTo := L "Bob", msg := L "hello", timeStamp := 3 }

/-- The coordinator and the roles of three threads after thread 0 has taken the
write lock, thread 1 has asked for the read lock, and thread 0 has unlocked. -/
def sampleRW : RWAccessManager × List Role :=
  (RWAccessManager.run {} [RWOp.lockWrite, RWOp.lockRead, RWOp.unlock],
    [Role.idle, Role.reader, Role.idle])

/-- A coordinator on which two threads hold the read lock. -/
def sampleTwoReaders : RWAccessManager := { m_nCurrUsers := 2 }

/-- A coordinator on which one thread holds the read lock. -/
def sampleOneReader : RWAccessManager := { m_nCurrUsers := 1 }

/-- The coordinator after a writer has taken the lock, two readers have been
counted as pending by `LockRead` without having entered `Event::Wait` yet, and
the writer has unlocked. -/
def sampleAdmitted : RWAccessManager :=
  RWAccessManager.run {} [RWOp.lockWrite, RWOp.lockRead, RWOp.lockRead, RWOp.unlock]

/-- A registry of three slots: "A" live, with the frame of `sampleConnect`
arriving on its socket, "B" live, "C" completed. -/
def sampleFaultServer : Server :=
  { m_clientThreads :=
      [{ completed := false, client := { m_name := [65], m_socket := sampleConnection } },
       { completed := false, client := { m_name := [66] } },
       { completed := true, client := { m_name := [67] } }] }

/-- A registry of three slots: "A" live, with the frame of `samplePrivate` (a
private message to "B") arriving on its socket, "B" live on a socket whose
next send fails, "C" completed. -/
def samplePmServer : Server :=
  { m_clientThreads :=
      [{ completed := false,
         client := { m_name := [65], m_socket :=
           { inbox := [RecvEvent.piece (leBytes 4 24),
                       RecvEvent.piece (wireLayout samplePrivate)] } } },
       { completed := false,
         client := { m_name := [66], m_socket := { sendPlan := [SendEvent.error] } } },
       { completed := true, client := { m_name := [67] } }] }

/-- A broadcast "h" that carries the sender name "XY". -/
def sampleSpoof : ClientMessage :=
  { from_ := [88, 89], msg := [104], command := ClientCommand.BroadcastMessage, timeStamp := 7 }

/-- A registry of two live slots, "AB" with the frame of `sampleSpoof` arriving
on its socket, and "CD". -/
def sampleSpoofServer : Server :=
  { m_clientThreads :=
      [{ completed := false,
         client := { m_name := [65, 66], m_socket :=
           { inbox := [RecvEvent.piece (leBytes 4 22),
                       RecvEvent.piece (wireLayout sampleSpoof)] } } },
       { completed := false, client := { m_name := [67, 68] } }] }

/-- The body of the `ListClients` record of "AB" with time stamp 5 (18 chars). -/
def sampleListBody : List Byte :=
  [5, 0, 0, 0, 0, 0, 0, 0, 4, 0, 0, 0, 65, 0, 66, 0, 0, 0]

/-- The `ClientConnect` record of a user who chose the name
"ErrorNameAlreadyExists". -/
def sampleMarkerConnect : ClientMessage :=
  { from_ := L "ErrorNameAlreadyExists", timeStamp := 5, command := ClientCommand.ClientConnect }

/-- A new connection on which the frame of `sampleMarkerConnect` arrives as
`SendData` writes it. -/
def sampleMarkerConnection : Socket :=
  { inbox := [RecvEvent.piece (leBytes 4 58), RecvEvent.piece (wireLayout sampleMarkerConnect)] }

/-- The `ChangeName` record of "AB" asking for the name "A". -/
def sampleRenameABtoA : ClientMessage :=
  { from_ := [65, 66], msg := [65], command := ClientCommand.ChangeName }

/-- The `ClientConnect` record of a user who chose the name "A", time stamp 5. -/
def sampleConnectA : ClientMessage :=
  { from_ := [65], timeStamp := 5, command := ClientCommand.ClientConnect }

/-- A new connection on which the frame of `sampleConnectA` arrives as
`SendData` writes it: the prefix 16 0 0 0 and the 16 chars of the record. -/
def sampleConnectionA : Socket :=
  { inbox := [RecvEvent.piece (leBytes 4 16), RecvEvent.piece (wireLayout sampleConnectA)] }

/-! ## Lemmas about the codec -/

theorem leBytes_length (n v : Nat) : (leBytes n v).length = n := by
  induction n generalizing v with
  | zero => rfl
  | succ n ih => simp [leBytes, ih]

theorem leValue_leBytes (n v : Nat) : leValue (leBytes n v) = v % 256 ^ n := by
  induction n generalizing v with
  | zero => simp [leBytes, leValue, Nat.mod_one]
  | succ n ih =>
    simp only [leBytes, leValue, toByte, ih]
    rw [pow_succ, Nat.mul_comm (256 ^ n) 256, Nat.mod_mul]

theorem wcharBytes_length (s : WString) : (wcharBytes s).length = 2 * s.length := by
  induction s with
  | nil => rfl
  | cons c cs ih => simp [wcharBytes, ih]; omega

theorem wcharBytes_append (s t : WString) : wcharBytes (s ++ t) = wcharBytes s ++ wcharBytes t := by
  induction s with
  | nil => rfl
  | cons c cs ih => simp [wcharBytes, ih]

theorem toWChar_toByte (c : WChar) :
    toWChar ((toByte c.val).val + 256 * (toByte (c.val / 256)).val) = c := by
  apply Fin.ext
  have := c.isLt
  simp only [toWChar, toByte]
  omega

theorem bytesWChars_wcharBytes (s : WString) : bytesWChars (wcharBytes s) = s := by
  induction s with
  | nil => rfl
  | cons c cs ih => simp [wcharBytes, bytesWChars, ih, toWChar_toByte]

theorem cstrBytes_length (s : WString) : (cstrBytes s).length = wsize s := by
  simp [cstrBytes, wcharBytes_length, wsize]; omega

theorem wcsAt_cstrBytes (s : WString) (rest : List Byte) (h : ∀ c ∈ s, c ≠ 0) :
    wcsAt (cstrBytes s ++ rest) = some s := by
  induction s with
  | nil => simp [cstrBytes, wcharBytes, wcsAt, toByte, toWChar]
  | cons c cs ih =>
    have hc : c ≠ 0 := h c (List.mem_cons_self _ _)
    have hcs : ∀ x ∈ cs, x ≠ 0 := fun x hx => h x (List.mem_cons_of_mem _ hx)
    have ih2 := ih hcs
    simp only [cstrBytes] at ih2
    simp [cstrBytes, wcharBytes, wcsAt, toWChar_toByte, hc, ih2]

theorem writeBytes_zeros (pre bs : List Byte) (k off : Nat) (h : off = pre.length) :
    writeBytes (pre ++ List.replicate k 0) off bs =
      if bs.length ≤ k then some ((pre ++ bs) ++ List.replicate (k - bs.length) 0) else none := by
  subst h
  unfold writeBytes
  by_cases hk : bs.length ≤ k
  · have h1 : pre.length + bs.length ≤ (pre ++ List.replicate k (0 : Byte)).length := by
      simp; omega
    rw [if_pos h1, if_pos hk]
    congr 1
    rw [List.take_left, List.drop_append_eq_append_drop]
    simp
  · have h1 : ¬ pre.length + bs.length ≤ (pre ++ List.replicate k (0 : Byte)).length := by
      simp; omega
    rw [if_neg h1, if_neg hk]

theorem bind_ite_some {α β : Type} (c : Prop) [Decidable c] (a : α) (f : α → Option β) :
    (if c then some a else none).bind f = if c then f a else none := by
  split <;> rfl

theorem writeBytes_zeros_nil (bs : List Byte) (k : Nat) :
    writeBytes (List.replicate k 0) 0 bs =
      if bs.length ≤ k then some (bs ++ List.replicate (k - bs.length) 0) else none := by
  simpa using writeBytes_zeros [] bs k 0 rfl

theorem Serialize_eq (alloc : Nat → Bool) (r : ClientMessage) :
    r.Serialize alloc =
      if r.command = ClientCommand.Error ∨ r.from_.isEmpty = true then some Serialized.null
      else if (!alloc r.dataSize) = true then some Serialized.null
      else if r.dataSize < 12 + wsize r.from_ then none
      else if r.command = ClientCommand.PrivateMessage ∧ r.pmTo.isEmpty = true then
        some Serialized.null
      else if r.command = ClientCommand.PrivateMessage ∧
          r.dataSize < 12 + wsize r.from_ + wsize r.pmTo then none
      else if carriesMsg r ∧ r.msg.isEmpty = true then some Serialized.null
      else if r.dataSize < wireSize r then none
      else some { data := some (wireLayout r ++ List.replicate (r.dataSize - wireSize r) 0),
                  size := wireSize r } := by
  unfold ClientMessage.Serialize
  have hD : r.dataSize < U32_MOD := Nat.mod_lt _ (by decide)
  generalize r.dataSize = D at *
  simp only [writeBytes_zeros_nil, writeBytes_zeros, bind_ite_some, List.length_append,
    leBytes_length, cstrBytes_length, COMMAND_OFFSET, MESSAGE_OFFSET]
  have hmod : U32_MOD = 4294967296 := rfl
  rw [hmod] at hD
  simp only [hmod]
  by_cases c1 : r.command = ClientCommand.Error ∨ r.from_.isEmpty = true
  · simp only [c1, if_true]
  by_cases c2 : (!alloc D) = true
  · simp only [c1, c2, if_true, if_false]
  by_cases c3 : D < 12 + wsize r.from_
  · simp only [c1, c2, c3, if_true, if_false]
    by_cases c4 : 8 ≤ D
    swap
    · simp only [c4, if_false]
    by_cases c5 : 4 ≤ D - 8
    swap
    · simp only [c4, c5, if_true, if_false]
    have c6 : ¬ wsize r.from_ ≤ D - 8 - 4 := by omega
    simp only [c4, c5, c6, if_true, if_false]
  have c4 : 8 ≤ D := by omega
  have c5 : 4 ≤ D - 8 := by omega
  have c6 : wsize r.from_ ≤ D - 8 - 4 := by omega
  simp only [c1, c2, c3, c4, c5, c6, if_true, if_false, Bool.false_eq_true]
  have e12 : (8 + 4) % 4294967296 = 12 := rfl
  simp only [e12]
  by_cases c7' : r.command = ClientCommand.PrivateMessage
  · have hcm : carriesMsg r := by
      unfold carriesMsg; rw [c7']; decide
    have c7 : (r.command = ClientCommand.PrivateMessage) = True := eq_true c7'
    have hcm2 : ¬(r.command = ClientCommand.ClientConnect ∨
        r.command = ClientCommand.ListClients) := hcm
    by_cases c8 : r.pmTo.isEmpty = true
    · simp only [c7, c8, if_true, and_self]
    by_cases c9 : D < 12 + wsize r.from_ + wsize r.pmTo
    · have c10 : ¬ wsize r.pmTo ≤ D - 8 - 4 - wsize r.from_ := by omega
      simp only [c7, c8, c9, c10, if_true, if_false, and_self, and_false, true_and, Bool.false_eq_true]
    have c10 : wsize r.pmTo ≤ D - 8 - 4 - wsize r.from_ := by omega
    by_cases c11 : r.msg.isEmpty = true
    · simp only [c7, c8, c9, c10, c11, hcm, hcm2, if_true, if_false, and_self, and_false, true_and,
        Bool.false_eq_true, not_false_eq_true]
    have hws : wireSize r = 12 + wsize r.from_ + wsize r.pmTo + wsize r.msg := by
      simp only [wireSize, c7, hcm, if_true]
    have hwl : wireLayout r = leBytes 8 r.timeStamp.val ++ leBytes 4 r.command.val ++
        cstrBytes r.from_ ++ cstrBytes r.pmTo ++ cstrBytes r.msg := by
      simp only [wireLayout, hcm, if_true, c7]
    by_cases c12 : D < wireSize r
    · have c13 : ¬ wsize r.msg ≤ D - 8 - 4 - wsize r.from_ - wsize r.pmTo := by omega
      simp only [c7, c8, c9, c10, c11, c12, c13, hcm, hcm2, if_true, if_false, and_self,
        and_false, Bool.false_eq_true, not_false_eq_true]
    have c13 : wsize r.msg ≤ D - 8 - 4 - wsize r.from_ - wsize r.pmTo := by omega
    simp only [c7, c8, c9, c10, c11, c12, c13, hcm, hcm2, if_true, if_false, and_self,
      and_false, Bool.false_eq_true, not_false_eq_true]
    rw [hws, hwl]
    have e1 : D - 8 - 4 - wsize r.from_ - wsize r.pmTo - wsize r.msg =
        D - (12 + wsize r.from_ + wsize r.pmTo + wsize r.msg) := by omega
    have e2 : (((12 + wsize r.from_) % 4294967296 + wsize r.pmTo) % 4294967296 +
        wsize r.msg) % 4294967296 = 12 + wsize r.from_ + wsize r.pmTo + wsize r.msg := by
      omega
    rw [e1, e2]
  · have c7 : (r.command = ClientCommand.PrivateMessage) = False := eq_false c7'
    by_cases c8 : carriesMsg r
    · have c8b : ¬(r.command = ClientCommand.ClientConnect ∨
          r.command = ClientCommand.ListClients) := c8
      by_cases c11 : r.msg.isEmpty = true
      · simp only [c7, c8, c8b, c11, if_true, if_false, and_self, false_and,
          not_false_eq_true]
      have hws : wireSize r = 12 + wsize r.from_ + wsize r.msg := by
        simp only [wireSize, c7, c8, if_true, if_false, Nat.add_zero]
      have hwl : wireLayout r = leBytes 8 r.timeStamp.val ++ leBytes 4 r.command.val ++
          cstrBytes r.from_ ++ cstrBytes r.msg := by
        simp only [wireLayout, c7, c8, if_true, if_false, List.append_nil]
      by_cases c12 : D < wireSize r
      · have c13 : ¬ wsize r.msg ≤ D - 8 - 4 - wsize r.from_ := by omega
        simp only [c7, c8, c8b, c11, c12, c13, if_true, if_false, and_self, false_and,
          and_false, Bool.false_eq_true, not_false_eq_true]
      have c13 : wsize r.msg ≤ D - 8 - 4 - wsize r.from_ := by omega
      simp only [c7, c8, c8b, c11, c12, c13, if_true, if_false, and_self, false_and,
        and_false, Bool.false_eq_true, not_false_eq_true]
      rw [hws, hwl]
      have e1 : D - 8 - 4 - wsize r.from_ - wsize r.msg =
          D - (12 + wsize r.from_ + wsize r.msg) := by omega
      have e2 : ((12 + wsize r.from_) % 4294967296 + wsize r.msg) % 4294967296 =
          12 + wsize r.from_ + wsize r.msg := by omega
      rw [e1, e2]
    · have c8b : (r.command = ClientCommand.ClientConnect ∨
          r.command = ClientCommand.ListClients) := by
        unfold carriesMsg at c8; exact not_not.mp c8
      have hws : wireSize r = 12 + wsize r.from_ := by
        simp only [wireSize, c7, c8, if_true, if_false, Nat.add_zero]
      have hwl : wireLayout r = leBytes 8 r.timeStamp.val ++ leBytes 4 r.command.val ++
          cstrBytes r.from_ := by
        simp only [wireLayout, c7, c8, if_true, if_false, List.append_nil]
      have c12 : ¬ D < wireSize r := by omega
      simp only [c7, c8, c8b, c12, if_true, if_false, false_and, not_true_eq_false]
      rw [hws, hwl]
      have e1 : D - 8 - 4 - wsize r.from_ = D - (12 + wsize r.from_) := by omega
      have e2 : (12 + wsize r.from_) % 4294967296 = 12 + wsize r.from_ := by omega
      rw [e1, e2]

theorem readBytes_of_le (data : List Byte) (off n : Nat) (h : off + n ≤ data.length) :
    readBytes data off n = some ((data.drop off).take n) := by
  unfold readBytes; rw [if_pos h]

theorem readBytes_drop (data : List Byte) (a off n : Nat) (h : a + off + n ≤ data.length) :
    readBytes (data.drop a) off n = readBytes data (a + off) n := by
  unfold readBytes
  rw [if_pos (by simp; omega), if_pos (by omega), List.drop_drop]

theorem readWChar_eq (bs : List Byte) (off : Nat) (c : WChar) (h : readWChar bs off = some c) :
    ∃ b0 b1 rest, bs.drop off = b0 :: b1 :: rest ∧ c = toWChar (b0.val + 256 * b1.val) := by
  unfold readWChar readBytes at h
  split at h
  · rename_i hle
    simp only [Option.map_some', Option.some.injEq] at h
    match hd : bs.drop off with
    | [] => 
      have := congrArg List.length hd
      simp at this; omega
    | [_] =>
      have := congrArg List.length hd
      simp at this; omega
    | b0 :: b1 :: rest =>
      refine ⟨b0, b1, rest, rfl, ?_⟩
      rw [hd] at h
      simp [leValue] at h
      exact h.symm
  · simp at h

/-- A scan that starts at or before a NUL unit stays inside the buffer. -/
theorem wcsAt_of_nul (k : Nat) (bs : List Byte) (h : readWChar bs (2 * k) = some 0) :
    ∃ s, wcsAt bs = some s ∧ s.length ≤ k := by
  induction k generalizing bs with
  | zero =>
    obtain ⟨b0, b1, rest, hd, hc⟩ := readWChar_eq bs 0 0 h
    simp only [List.drop_zero] at hd
    subst hd
    refine ⟨[], ?_, Nat.le_refl _⟩
    simp [wcsAt, ← hc]
  | succ k ih =>
    have hlen : 2 * (k + 1) + 2 ≤ bs.length := by
      unfold readWChar readBytes at h
      split at h
      · assumption
      · simp at h
    match bs, hlen, h with
    | [], hlen, _ => simp at hlen
    | [_], hlen, _ => simp at hlen
    | a0 :: a1 :: tl, _, h =>
      by_cases hz : toWChar (a0.val + 256 * a1.val) = 0
      · exact ⟨[], by simp [wcsAt, hz], Nat.zero_le _⟩
      · have h2 : readWChar tl (2 * k) = some 0 := by
          have e : 2 * (k + 1) = 2 * k + 2 := by omega
          rw [e] at h
          unfold readWChar readBytes at h ⊢
          simp only [List.length_cons] at h
          split at h
          · rw [if_pos (by omega)]
            simpa using h
          · simp at h
        obtain ⟨s, hs, hl⟩ := ih tl h2
        refine ⟨toWChar (a0.val + 256 * a1.val) :: s, ?_, by simp; omega⟩
        simp [wcsAt, hz, hs]


theorem readWChar_some_le (bs : List Byte) (off : Nat) (c : WChar)
    (h : readWChar bs off = some c) : off + 2 ≤ bs.length := by
  unfold readWChar readBytes at h
  split at h
  · assumption
  · simp at h

theorem readCStr_of_nul (data : List Byte) (off e : Nat) (h1 : off ≤ e)
    (he : (e - off) % 2 = 0) (hn : readWChar data e = some 0) :
    ∃ s, readCStr data off = some s ∧ off + 2 * s.length ≤ e := by
  have hlen := readWChar_some_le data e 0 hn
  have hk : readWChar (data.drop off) (2 * ((e - off) / 2)) = some 0 := by
    unfold readWChar at hn ⊢
    rw [readBytes_drop data off _ 2 (by omega)]
    have e2 : off + 2 * ((e - off) / 2) = e := by omega
    rw [e2]; exact hn
  obtain ⟨s, hs, hl⟩ := wcsAt_of_nul _ _ hk
  refine ⟨s, ?_, by omega⟩
  unfold readCStr
  rw [if_pos (by omega)]
  exact hs

theorem readRange_of_le (data : List Byte) (first last : Nat) (h : first ≤ last)
    (h2 : last ≤ data.length) :
    readRange data first last =
      some (bytesWChars ((data.drop first).take (last - first))) := by
  unfold readRange
  rw [if_pos h, readBytes_of_le data first _ (by omega)]
  rfl

theorem IsCommand_ne_Error (cmd : ClientCommand) (h : IsCommand cmd = true) :
    cmd ≠ ClientCommand.Error := by
  intro he
  rw [he] at h
  revert h
  decide

theorem UnserializeBody_post (self0 self : ClientMessage) (data : List Byte) (pMsg pEnd : Nat)
    (h1 : pMsg + 2 ≤ pEnd) (he : (pEnd - pMsg) % 2 = 0)
    (hn : readWChar data (pEnd - 2) = some 0)
    (hlen : 16 < data.length)
    (hcmd : IsCommand self.command = true)
    (hts : readU64 data 0 = some self.timeStamp)
    (hfrom : readCStr data 12 = some self.from_)
    (hp : pMsg = 12 + 2 * (self.from_.length + 1))
    (hpm : self.pmTo = self0.pmTo) (hmsg : self.msg = self0.msg) :
    ∃ r, self.UnserializeBody data pMsg pEnd = some r ∧ FailurePost self0 data r := by
  have hl2 := readWChar_some_le data _ 0 hn
  unfold ClientMessage.UnserializeBody
  by_cases hpmc : self.command = ClientCommand.PrivateMessage
  · rw [if_pos hpmc]
    obtain ⟨s, hs, hl⟩ := readCStr_of_nul data pMsg (pEnd - 2) (by omega) (by omega) hn
    rw [hs]
    simp only [Option.some_bind]
    by_cases c1 : s.isEmpty = true
    · rw [if_pos c1]
      refine ⟨_, rfl, Or.inl rfl, fun _ => ⟨fun h => by omega, fun _ => ?_⟩⟩
      simp only [ClientMessage.setError]
      exact ⟨hts, Or.inr hfrom, Or.inr (hp ▸ hs), Or.inl hmsg⟩
    rw [if_neg c1]
    by_cases c2 : pMsg + 2 * (s.length + 1) = pEnd
    · rw [if_pos c2]
      refine ⟨_, rfl, Or.inl rfl, fun _ => ⟨fun h => by omega, fun _ => ?_⟩⟩
      simp only [ClientMessage.setError]
      exact ⟨hts, Or.inr hfrom, Or.inr (hp ▸ hs), Or.inl hmsg⟩
    rw [if_neg c2, readRange_of_le data _ _ (by omega) (by omega)]
    simp only [Option.some_bind]
    split
    · rename_i hem
      refine ⟨_, rfl, Or.inl rfl, fun _ => ⟨fun h => by omega, fun _ => ?_⟩⟩
      simp only [ClientMessage.setError]
      exact ⟨hts, Or.inr hfrom, Or.inr (hp ▸ hs), Or.inr (List.isEmpty_iff.mp hem)⟩
    · refine ⟨_, rfl, Or.inr hcmd, fun h => ?_⟩
      exact absurd h (IsCommand_ne_Error _ hcmd)
  · rw [if_neg hpmc, readRange_of_le data _ _ (by omega) (by omega)]
    simp only [Option.some_bind]
    split
    · rename_i hem
      refine ⟨_, rfl, Or.inl rfl, fun _ => ⟨fun h => by omega, fun _ => ?_⟩⟩
      simp only [ClientMessage.setError]
      exact ⟨hts, Or.inr hfrom, Or.inl hpm, Or.inr (List.isEmpty_iff.mp hem)⟩
    · refine ⟨_, rfl, Or.inr hcmd, fun h => ?_⟩
      exact absurd h (IsCommand_ne_Error _ hcmd)

theorem Unserialize_post (self : ClientMessage) (data : List Byte) :
    ∃ r, self.Unserialize data = some r ∧ FailurePost self data r := by
  unfold ClientMessage.Unserialize
  simp only [MIN_MSG_SIZE, MESSAGE_OFFSET, COMMAND_OFFSET]
  by_cases c0 : data.length ≤ 8 + 4 + 2 * 2
  · rw [if_pos c0]
    exact ⟨_, rfl, Or.inl rfl, fun _ => ⟨fun _ => ⟨rfl, rfl, rfl, rfl⟩, fun h => by omega⟩⟩
  rw [if_neg c0]
  have hts : readU64 data 0 = some (toU64 (leValue ((data.drop 0).take 8))) := by
    unfold readU64; rw [readBytes_of_le data 0 8 (by omega)]; rfl
  have hcmd : readCommand data 8 = some (toCommand (leValue ((data.drop 8).take 4))) := by
    unfold readCommand; rw [readBytes_of_le data 8 4 (by omega)]; rfl
  rw [hts]
  simp only [Option.some_bind]
  rw [hcmd]
  simp only [Option.some_bind]
  generalize toCommand (leValue ((data.drop 8).take 4)) = cmd
  generalize toU64 (leValue ((data.drop 0).take 8)) = ts at hts ⊢
  split
  · refine ⟨_, rfl, Or.inl rfl, fun _ => ⟨fun h => by omega, fun _ => ?_⟩⟩
    exact ⟨hts, Or.inl rfl, Or.inl rfl, Or.inl rfl⟩
  rename_i hic
  have hic2 : IsCommand cmd = true := by simpa using hic
  split
  · refine ⟨_, rfl, Or.inl rfl, fun _ => ⟨fun h => by omega, fun _ => ?_⟩⟩
    exact ⟨hts, Or.inl rfl, Or.inl rfl, Or.inl rfl⟩
  have hlast : readWChar data (8 + 4 + (data.length - (8 + 4)) / 2 * 2 - 2) =
      some (toWChar (leValue ((data.drop (8 + 4 + (data.length - (8 + 4)) / 2 * 2 - 2)).take 2))) := by
    unfold readWChar; rw [readBytes_of_le data _ 2 (by omega)]; rfl
  rw [hlast]
  simp only [Option.some_bind]
  split
  · refine ⟨_, rfl, Or.inl rfl, fun _ => ⟨fun h => by omega, fun _ => ?_⟩⟩
    exact ⟨hts, Or.inl rfl, Or.inl rfl, Or.inl rfl⟩
  rename_i hz
  have hz2 := not_not.mp hz
  rw [hz2] at hlast
  obtain ⟨s, hs, hl⟩ := readCStr_of_nul data (8 + 4) _ (by omega) (by omega) hlast
  rw [hs]
  simp only [Option.some_bind]
  split
  · refine ⟨_, rfl, Or.inl rfl, fun _ => ⟨fun h => by omega, fun _ => ?_⟩⟩
    exact ⟨hts, Or.inr hs, Or.inl rfl, Or.inl rfl⟩
  split
  · refine ⟨_, rfl, Or.inr hic2, fun h => ?_⟩
    exact absurd h (IsCommand_ne_Error _ hic2)
  split
  · refine ⟨_, rfl, Or.inl rfl, fun _ => ⟨fun h => by omega, fun _ => ?_⟩⟩
    exact ⟨hts, Or.inr hs, Or.inl rfl, Or.inl rfl⟩
  rename_i hne
  exact UnserializeBody_post self _ data _ _ (by omega) (by omega) hlast (by omega) hic2 hts hs
    rfl rfl rfl

theorem toU64_val (t : U64) : toU64 t.val = t := by
  apply Fin.ext
  simp only [toU64]
  exact Nat.mod_eq_of_lt t.isLt

theorem toCommand_val (c : ClientCommand) : toCommand c.val = c := by
  apply Fin.ext
  simp only [toCommand]
  exact Nat.mod_eq_of_lt c.isLt

theorem readBytes_append (pre bs post : List Byte) (off : Nat) (h : off = pre.length) :
    readBytes (pre ++ bs ++ post) off bs.length = some bs := by
  subst h
  unfold readBytes
  rw [if_pos (by simp)]
  simp [List.append_assoc]

theorem readU64_leBytes (pre post : List Byte) (t : U64) (off : Nat) (h : off = pre.length) :
    readU64 (pre ++ leBytes 8 t.val ++ post) off = some t := by
  unfold readU64
  have := readBytes_append pre (leBytes 8 t.val) post off h
  rw [leBytes_length] at this
  rw [this]
  simp only [Option.map_some', leValue_leBytes]
  have e : t.val % 256 ^ 8 = t.val := Nat.mod_eq_of_lt (by have := t.isLt; omega)
  rw [e, toU64_val]

theorem readCommand_leBytes (pre post : List Byte) (c : ClientCommand) (off : Nat)
    (h : off = pre.length) :
    readCommand (pre ++ leBytes 4 c.val ++ post) off = some c := by
  unfold readCommand
  have := readBytes_append pre (leBytes 4 c.val) post off h
  rw [leBytes_length] at this
  rw [this]
  simp only [Option.map_some', leValue_leBytes]
  have e : c.val % 256 ^ 4 = c.val := Nat.mod_eq_of_lt (by have := c.isLt; omega)
  rw [e, toCommand_val]

theorem cstrBytes_eq (s : WString) : cstrBytes s = wcharBytes s ++ [0, 0] := by
  simp [cstrBytes, wcharBytes_append, wcharBytes, toByte]

theorem readCStr_cstrBytes (pre post : List Byte) (s : WString) (off : Nat)
    (h : off = pre.length) (hs : ∀ c ∈ s, c ≠ 0) :
    readCStr (pre ++ cstrBytes s ++ post) off = some s := by
  subst h
  unfold readCStr
  rw [if_pos (by simp), List.append_assoc, List.drop_left]
  exact wcsAt_cstrBytes s post hs

theorem readWChar_nul (pre : List Byte) (off : Nat) (h : off = pre.length) :
    readWChar (pre ++ [0, 0]) off = some 0 := by
  unfold readWChar
  have := readBytes_append pre [0, 0] [] off h
  simp only [List.append_nil, List.length_cons, List.length_nil] at this
  rw [this]
  rfl

theorem readRange_wcharBytes (pre post : List Byte) (s : WString) (first last : Nat)
    (h : first = pre.length) (hl : last = first + 2 * s.length) :
    readRange (pre ++ wcharBytes s ++ post) first last = some s := by
  subst h hl
  rw [readRange_of_le _ _ _ (by omega) (by simp [wcharBytes_length])]
  have e : pre.length + 2 * s.length - pre.length = (wcharBytes s).length := by
    rw [wcharBytes_length]; omega
  rw [List.append_assoc, List.drop_left, e, List.take_left, bytesWChars_wcharBytes]

theorem wireLayout_length (r : ClientMessage) : (wireLayout r).length = wireSize r := by
  unfold wireLayout wireSize
  split <;> split <;>
    simp only [List.length_append, leBytes_length, cstrBytes_length, List.length_nil]

theorem wsize_of_ne_nil (s : WString) (h : s ≠ []) : 4 ≤ wsize s := by
  unfold wsize
  cases s with
  | nil => exact absurd rfl h
  | cons c cs => simp; omega

theorem isEmpty_false_of_ne_nil (s : WString) (h : s ≠ []) : s.isEmpty = false := by
  cases s with
  | nil => exact absurd rfl h
  | cons c cs => rfl

theorem Unserialize_header (r0 : ClientMessage) (ts : U64) (cmd : ClientCommand)
    (name : WString) (rest : List Byte)
    (hcmd : IsCommand cmd = true) (hname : name ≠ []) (nname : ∀ c ∈ name, c ≠ 0)
    (heven : rest.length % 2 = 0) (hlong : 4 < wsize name + rest.length)
    (hlast : readWChar (leBytes 8 ts.val ++ leBytes 4 cmd.val ++ cstrBytes name ++ rest)
      (12 + wsize name + rest.length - 2) = some 0) :
    r0.Unserialize (leBytes 8 ts.val ++ leBytes 4 cmd.val ++ cstrBytes name ++ rest) =
      if cmd = ClientCommand.ListClients ∨ cmd = ClientCommand.ClientConnect then
        some { r0 with timeStamp := ts, command := cmd, from_ := name }
      else if rest = [] then
        some ({ r0 with timeStamp := ts, command := cmd, from_ := name } : ClientMessage).setError
      else
        ({ r0 with timeStamp := ts, command := cmd, from_ := name } :
          ClientMessage).UnserializeBody
          (leBytes 8 ts.val ++ leBytes 4 cmd.val ++ cstrBytes name ++ rest)
          (12 + wsize name) (12 + wsize name + rest.length) := by
  have hf4 := wsize_of_ne_nil _ hname
  have hfe := isEmpty_false_of_ne_nil _ hname
  have hsz : (leBytes 8 ts.val ++ leBytes 4 cmd.val ++ cstrBytes name ++ rest).length =
      12 + wsize name + rest.length := by
    simp only [List.length_append, leBytes_length, cstrBytes_length]
  generalize hdata : leBytes 8 ts.val ++ leBytes 4 cmd.val ++ cstrBytes name ++ rest = data
    at hsz hlast ⊢
  have hts : readU64 data 0 = some ts := by
    rw [← hdata]
    simp only [List.append_assoc]
    exact readU64_leBytes [] _ ts 0 rfl
  have hc : readCommand data 8 = some cmd := by
    rw [← hdata]
    simp only [List.append_assoc]
    have := readCommand_leBytes (leBytes 8 ts.val) (cstrBytes name ++ rest) cmd 8
      (by rw [leBytes_length])
    simpa only [List.append_assoc] using this
  have hfr : readCStr data 12 = some name := by
    rw [← hdata]
    exact readCStr_cstrBytes _ _ _ _ (by simp [leBytes_length]) nname
  unfold ClientMessage.Unserialize
  simp only [MIN_MSG_SIZE, MESSAGE_OFFSET, COMMAND_OFFSET]
  rw [hsz]
  rw [if_neg (by omega), hts]
  simp only [Option.some_bind]
  rw [hc]
  simp only [Option.some_bind, hcmd, Bool.not_true, Bool.false_eq_true, if_false]
  have hev : (12 + wsize name + rest.length - (8 + 4)) / 2 * 2 = wsize name + rest.length := by
    unfold wsize; omega
  rw [hev, if_neg (by omega)]
  have e1 : 8 + 4 + (wsize name + rest.length) - 2 = 12 + wsize name + rest.length - 2 := by
    omega
  rw [e1, hlast]
  simp only [Option.some_bind, ne_eq, not_true_eq_false, if_false]
  rw [hfr]
  simp only [Option.some_bind, hfe, Bool.false_eq_true, if_false]
  by_cases hlc : cmd = ClientCommand.ListClients ∨ cmd = ClientCommand.ClientConnect
  · simp only [hlc, if_true]
  simp only [hlc, if_false]
  have e2 : 8 + 4 + 2 * (name.length + 1) = 12 + wsize name := by unfold wsize; omega
  have e3 : 8 + 4 + (wsize name + rest.length) = 12 + wsize name + rest.length := by omega
  rw [e2, e3]
  by_cases hr : rest = []
  · subst hr
    simp only [List.length_nil, Nat.add_zero, if_true]
  · have : rest.length ≠ 0 := by
      intro h; exact hr (List.length_eq_zero.mp h)
    rw [if_neg (by omega), if_neg hr]

theorem UnserializeBody_msg (self : ClientMessage) (pre : List Byte) (text : WString)
    (pMsg pEnd : Nat) (hp : pMsg = pre.length) (he : pEnd = pMsg + wsize text)
    (hc : self.command ≠ ClientCommand.PrivateMessage) (ht : text ≠ []) :
    self.UnserializeBody (pre ++ wcharBytes text ++ [0, 0]) pMsg pEnd =
      some { self with msg := text } := by
  unfold ClientMessage.UnserializeBody
  rw [if_neg hc, readRange_wcharBytes pre [0, 0] text pMsg (pEnd - 2) hp
    (by unfold wsize at he; omega)]
  simp only [Option.some_bind, isEmpty_false_of_ne_nil _ ht, Bool.false_eq_true, if_false]

theorem UnserializeBody_pm (self : ClientMessage) (pre : List Byte) (target text : WString)
    (pMsg pEnd : Nat) (hp : pMsg = pre.length) (he : pEnd = pMsg + wsize target + wsize text)
    (hc : self.command = ClientCommand.PrivateMessage) (hg : target ≠ [])
    (ng : ∀ c ∈ target, c ≠ 0) (ht : text ≠ []) :
    self.UnserializeBody (pre ++ cstrBytes target ++ (wcharBytes text ++ [0, 0])) pMsg pEnd =
      some { self with pmTo := target, msg := text } := by
  unfold ClientMessage.UnserializeBody
  have h4 := wsize_of_ne_nil _ ht
  rw [if_pos hc, readCStr_cstrBytes pre _ target pMsg hp ng]
  simp only [Option.some_bind, isEmpty_false_of_ne_nil _ hg, Bool.false_eq_true, if_false]
  rw [if_neg (by unfold wsize at *; omega)]
  have hr : readRange (pre ++ cstrBytes target ++ (wcharBytes text ++ [0, 0]))
      (pMsg + 2 * (target.length + 1)) (pEnd - 2) = some text := by
    rw [← List.append_assoc]
    apply readRange_wcharBytes
    · simp only [List.length_append, cstrBytes_length, wsize]; omega
    · unfold wsize at *; omega
  rw [hr]
  simp only [Option.some_bind, isEmpty_false_of_ne_nil _ ht, Bool.false_eq_true, if_false]

theorem Unserialize_wireLayout (r r0 : ClientMessage)
    (hcmd : IsCommand r.command = true) (hfrom : r.from_ ≠ [])
    (hpm : r.command = ClientCommand.PrivateMessage → r.pmTo ≠ [])
    (hmsg : carriesMsg r → r.msg ≠ [])
    (nfrom : ∀ c ∈ r.from_, c ≠ 0)
    (npm : r.command = ClientCommand.PrivateMessage → ∀ c ∈ r.pmTo, c ≠ 0)
    (hlong : 16 < wireSize r) :
    r0.Unserialize (wireLayout r) = some
      { timeStamp := r.timeStamp, command := r.command, from_ := r.from_,
        pmTo := if r.command = ClientCommand.PrivateMessage then r.pmTo else r0.pmTo,
        msg := if carriesMsg r then r.msg else r0.msg } := by
  by_cases c1 : carriesMsg r
  swap
  · have c1b : r.command = ClientCommand.ListClients ∨
        r.command = ClientCommand.ClientConnect := by
      unfold carriesMsg at c1
      have := not_not.mp c1
      tauto
    have c2 : ¬ r.command = ClientCommand.PrivateMessage := by
      intro h; apply c1; unfold carriesMsg; rw [h]; decide
    have hws : wireSize r = 12 + wsize r.from_ := by
      unfold wireSize; rw [if_neg c2, if_neg c1]; omega
    have hwl : wireLayout r = leBytes 8 r.timeStamp.val ++ leBytes 4 r.command.val ++
        cstrBytes r.from_ ++ [] := by
      unfold wireLayout; rw [if_neg c2, if_neg c1, List.append_nil]
    rw [hwl, Unserialize_header r0 r.timeStamp r.command r.from_ [] hcmd hfrom nfrom rfl
      (by simp only [List.length_nil]; omega) ?_, if_pos c1b, if_neg c1, if_neg c2]
    rw [List.append_nil, cstrBytes_eq, ← List.append_assoc]
    apply readWChar_nul
    simp only [List.length_append, leBytes_length, List.length_nil, wsize, wcharBytes_length]
    omega
  have c1b : ¬ (r.command = ClientCommand.ListClients ∨
      r.command = ClientCommand.ClientConnect) := by
    unfold carriesMsg at c1
    tauto
  have hm4 := wsize_of_ne_nil _ (hmsg c1)
  by_cases c2 : r.command = ClientCommand.PrivateMessage
  · have hp4 := wsize_of_ne_nil _ (hpm c2)
    have hws : wireSize r = 12 + wsize r.from_ + wsize r.pmTo + wsize r.msg := by
      unfold wireSize; rw [if_pos c2, if_pos c1]
    have hwl : wireLayout r = leBytes 8 r.timeStamp.val ++ leBytes 4 r.command.val ++
        cstrBytes r.from_ ++ (cstrBytes r.pmTo ++ (wcharBytes r.msg ++ [0, 0])) := by
      unfold wireLayout
      rw [if_pos c2, if_pos c1, cstrBytes_eq r.msg, List.append_assoc]
    have hrl : (cstrBytes r.pmTo ++ (wcharBytes r.msg ++ [0, 0])).length =
        wsize r.pmTo + wsize r.msg := by
      simp only [List.length_append, cstrBytes_length, wcharBytes_length, wsize,
        List.length_cons, List.length_nil]
      omega
    have hne : cstrBytes r.pmTo ++ (wcharBytes r.msg ++ [0, 0]) ≠ [] := by
      intro h
      have := congrArg List.length h
      rw [hrl] at this
      simp only [List.length_nil] at this
      omega
    rw [hwl, Unserialize_header r0 r.timeStamp r.command r.from_ _ hcmd hfrom nfrom
      (by rw [hrl]; unfold wsize; omega) (by rw [hrl]; omega) ?_, if_neg c1b, if_neg hne]
    · rw [← List.append_assoc, hrl]
      rw [UnserializeBody_pm
        { r0 with timeStamp := r.timeStamp, command := r.command, from_ := r.from_ }
        _ r.pmTo r.msg _ _
        (by simp only [List.length_append, leBytes_length, cstrBytes_length])
        (by omega) c2 (hpm c2) (npm c2) (hmsg c1), if_pos c1, if_pos c2]
    · rw [← List.append_assoc, ← List.append_assoc]
      apply readWChar_nul
      simp only [List.length_append, leBytes_length, cstrBytes_length, wcharBytes_length,
        List.length_cons, List.length_nil, wsize]
      omega
  · have hws : wireSize r = 12 + wsize r.from_ + wsize r.msg := by
      unfold wireSize; rw [if_neg c2, if_pos c1]; omega
    have hwl : wireLayout r = leBytes 8 r.timeStamp.val ++ leBytes 4 r.command.val ++
        cstrBytes r.from_ ++ (wcharBytes r.msg ++ [0, 0]) := by
      unfold wireLayout
      rw [if_neg c2, if_pos c1, cstrBytes_eq r.msg, List.append_nil]
    have hrl : (wcharBytes r.msg ++ [0, 0]).length = wsize r.msg := by
      simp only [List.length_append, wcharBytes_length, wsize,
        List.length_cons, List.length_nil]
      omega
    have hne : wcharBytes r.msg ++ [0, 0] ≠ [] := by
      intro h
      have := congrArg List.length h
      rw [hrl] at this
      simp only [List.length_nil] at this
      omega
    rw [hwl, Unserialize_header r0 r.timeStamp r.command r.from_ _ hcmd hfrom nfrom
      (by rw [hrl]; unfold wsize; omega) (by rw [hrl]; omega) ?_, if_neg c1b, if_neg hne]
    · rw [← List.append_assoc, hrl]
      rw [UnserializeBody_msg
        { r0 with timeStamp := r.timeStamp, command := r.command, from_ := r.from_ }
        _ r.msg _ _
        (by simp only [List.length_append, leBytes_length, cstrBytes_length])
        (by omega) c2 (hmsg c1), if_pos c1, if_neg c2]
    · rw [← List.append_assoc]
      apply readWChar_nul
      simp only [List.length_append, leBytes_length, cstrBytes_length, wcharBytes_length,
        List.length_cons, List.length_nil, wsize]
      omega

/-! ## Claims about the codec -/

/-- Every buffer of at most `MIN_MSG_SIZE` chars is rejected with all other
fields kept. -/
theorem Unserialize_of_length_le (self : ClientMessage) (data : List Byte)
    (h : data.length ≤ 16) : self.Unserialize data = some self.setError := by
  unfold ClientMessage.Unserialize
  simp only [MIN_MSG_SIZE, MESSAGE_OFFSET]
  rw [if_pos h]

/-- The size guard at a buffer of 3 chars: the record is kept and marked `Error`. -/
theorem Unserialize_of_length_le_witness :
    samplePrivate.Unserialize [1, 2, 3] = some samplePrivate.setError :=
  Unserialize_of_length_le samplePrivate [1, 2, 3] (by decide)

/-- A record that passes the four checks of `Serialize`, whose fields fit a
32-bit byte count and whose buffer is allocated, is laid out as the layout
table says, in a zero-filled buffer of `dataSize` chars. -/
theorem Serialize_accepts (alloc : Nat → Bool) (r : ClientMessage)
    (hcmd : r.command ≠ ClientCommand.Error) (hfrom : r.from_ ≠ [])
    (hpm : r.command = ClientCommand.PrivateMessage → r.pmTo ≠ [])
    (hmsg : carriesMsg r → r.msg ≠ [])
    (hfit : 12 + wsize r.from_ + wsize r.msg + wsize r.pmTo < U32_MOD)
    (halloc : alloc r.dataSize = true) :
    r.Serialize alloc = some
      { data := some (wireLayout r ++ List.replicate (r.dataSize - wireSize r) 0),
        size := wireSize r } := by
  have hD : r.dataSize = 12 + wsize r.from_ + wsize r.msg + wsize r.pmTo := by
    unfold ClientMessage.dataSize
    exact Nat.mod_eq_of_lt hfit
  have hws : wireSize r ≤ r.dataSize := by
    rw [hD]; unfold wireSize
    split <;> split <;> omega
  have hfe := isEmpty_false_of_ne_nil _ hfrom
  have c1 : ¬ (r.command = ClientCommand.Error ∨ r.from_.isEmpty = true) := by
    rw [hfe]; simp only [Bool.false_eq_true, or_false]; exact hcmd
  have c2 : ¬ (!alloc r.dataSize) = true := by rw [halloc]; decide
  have c3 : ¬ r.dataSize < 12 + wsize r.from_ := by omega
  have c4 : ¬ (r.command = ClientCommand.PrivateMessage ∧ r.pmTo.isEmpty = true) := by
    intro h
    have := isEmpty_false_of_ne_nil _ (hpm h.1)
    rw [this] at h
    exact absurd h.2 (by decide)
  have c5 : ¬ (r.command = ClientCommand.PrivateMessage ∧
      r.dataSize < 12 + wsize r.from_ + wsize r.pmTo) := by
    intro h; omega
  have c6 : ¬ (carriesMsg r ∧ r.msg.isEmpty = true) := by
    intro h
    have := isEmpty_false_of_ne_nil _ (hmsg h.1)
    rw [this] at h
    exact absurd h.2 (by decide)
  have c7 : ¬ r.dataSize < wireSize r := by omega
  rw [Serialize_eq alloc r, if_neg c1, if_neg c2, if_neg c3, if_neg c4, if_neg c5,
    if_neg c6, if_neg c7]

/-- The encoder followed by the decoder: for a record with a command in range,
a non-empty sender without NUL, a non-empty receiver without NUL when the
command is `PrivateMessage`, and a non-empty text when the command carries
one, whose encoding fits in 32 bits and is longer than 16 chars, `Serialize`
returns a buffer and decoding its first `size` chars gives the record back,
the fields the command does not carry keeping the values of the target. -/
theorem Serialize_Unserialize (alloc : Nat → Bool) (r r0 : ClientMessage)
    (hcmd : IsCommand r.command = true) (hfrom : r.from_ ≠ [])
    (hpm : r.command = ClientCommand.PrivateMessage → r.pmTo ≠ [])
    (hmsg : carriesMsg r → r.msg ≠ [])
    (nfrom : ∀ c ∈ r.from_, c ≠ 0)
    (npm : r.command = ClientCommand.PrivateMessage → ∀ c ∈ r.pmTo, c ≠ 0)
    (hfit : 12 + wsize r.from_ + wsize r.msg + wsize r.pmTo < U32_MOD)
    (halloc : alloc r.dataSize = true)
    (hlong : 16 < wireSize r) :
    ∃ s d, r.Serialize alloc = some s ∧ s.wire = some d ∧
      r0.Unserialize d = some
        { timeStamp := r.timeStamp, command := r.command, from_ := r.from_,
          pmTo := if r.command = ClientCommand.PrivateMessage then r.pmTo else r0.pmTo,
          msg := if carriesMsg r then r.msg else r0.msg } := by
  refine ⟨_, wireLayout r,
    Serialize_accepts alloc r (IsCommand_ne_Error _ hcmd) hfrom hpm hmsg hfit halloc, ?_, ?_⟩
  · simp only [Serialized.wire, Option.map_some', Option.some.injEq]
    rw [← wireLayout_length r, List.take_left]
  · exact Unserialize_wireLayout r r0 hcmd hfrom hpm hmsg nfrom npm hlong

/-- The round trip at a concrete record: the private message "h" from "A" to "B". -/
theorem Serialize_Unserialize_witness :
    ∃ s d, samplePrivate.Serialize (fun _ => true) = some s ∧ s.wire = some d ∧
      ClientMessage.Unserialize {} d = some samplePrivate := by
  have h1 : IsCommand samplePrivate.command = true := by decide
  have h2 : samplePrivate.from_ ≠ [] := by decide
  have h3 : samplePrivate.command = ClientCommand.PrivateMessage → samplePrivate.pmTo ≠ [] := by
    decide
  have h4 : carriesMsg samplePrivate → samplePrivate.msg ≠ [] := by decide
  have h5 : ∀ c ∈ samplePrivate.from_, c ≠ 0 := by
    intro c hc
    simp only [samplePrivate, List.mem_singleton] at hc
    rw [hc]; decide
  have h6 : samplePrivate.command = ClientCommand.PrivateMessage →
      ∀ c ∈ samplePrivate.pmTo, c ≠ 0 := by
    intro _ c hc
    simp only [samplePrivate, List.mem_singleton] at hc
    rw [hc]; decide
  have h7 : 12 + wsize samplePrivate.from_ + wsize samplePrivate.msg +
      wsize samplePrivate.pmTo < U32_MOD := by decide
  have h8 : 16 < wireSize samplePrivate := by decide
  exact Serialize_Unserialize (fun _ => true) samplePrivate {} h1 h2 h3 h4 h5 h6 h7 rfl h8

/-- The round trip fails on every 16-char encoding: a record with a one-unit
sender and the command `ListClients` or `ClientConnect`, whose fields fit a
32-bit byte count and whose buffer is allocated, is accepted by `Serialize` with
16 chars, and `Unserialize` of these chars marks the target `Error` and reads
nothing into it. -/
theorem roundtrip_fails_of_one_unit_name (alloc : Nat → Bool) (r r0 : ClientMessage)
    (hcmd : r.command = ClientCommand.ListClients ∨ r.command = ClientCommand.ClientConnect)
    (hlen : r.from_.length = 1)
    (hfit : 12 + wsize r.from_ + wsize r.msg + wsize r.pmTo < U32_MOD)
    (halloc : alloc r.dataSize = true) :
    ∃ s d, r.Serialize alloc = some s ∧ s.wire = some d ∧ d.length = 16 ∧
      r0.Unserialize d = some r0.setError := by
  have hne : r.command ≠ ClientCommand.Error := by
    rcases hcmd with h | h <;> rw [h] <;> decide
  have hnp : ¬ r.command = ClientCommand.PrivateMessage := by
    rcases hcmd with h | h <;> rw [h] <;> decide
  have hnc : ¬ carriesMsg r := by
    unfold carriesMsg
    rcases hcmd with h | h <;> rw [h] <;> decide
  have hfrom : r.from_ ≠ [] := by
    intro h
    rw [h] at hlen
    simp at hlen
  have hws : wireSize r = 16 := by
    unfold wireSize wsize
    rw [if_neg hnp, if_neg hnc, hlen]
  have hl : (wireLayout r).length = 16 := by rw [wireLayout_length, hws]
  refine ⟨_, wireLayout r,
    Serialize_accepts alloc r hne hfrom (fun h => absurd h hnp) (fun h => absurd h hnc)
      hfit halloc, ?_, hl, ?_⟩
  · simp only [Serialized.wire, Option.map_some', Option.some.injEq]
    rw [← wireLayout_length r, List.take_left]
  · unfold ClientMessage.Unserialize
    simp only [MIN_MSG_SIZE, MESSAGE_OFFSET]
    rw [if_pos (by omega)]

/-- The failing round trip at the `ClientConnect` record of the client "A". -/
theorem roundtrip_fails_of_one_unit_name_witness :
    ∃ s d, ClientMessage.Serialize (fun _ => true)
          { from_ := [65], command := ClientCommand.ClientConnect } = some s ∧
        s.wire = some d ∧ d.length = 16 ∧
        samplePrivate.Unserialize d = some samplePrivate.setError :=
  roundtrip_fails_of_one_unit_name (fun _ => true)
    { from_ := [65], command := ClientCommand.ClientConnect } samplePrivate
    (Or.inr rfl) rfl (by decide) rfl

/-- C1 (codec round trip), at the failing input: the record with command
`ListClients`, time stamp 5 and the one-unit sender name "A" satisfies the
well-formedness invariants, `Serialize` accepts it and reports 16 chars, and
`Unserialize` of these 16 chars into a fresh record ends with command `Error`
and an empty sender instead of `ListClients` and "A". -/
theorem roundtrip_fails_for_one_unit_name :
    ClientMessage.Serialize (fun _ => true)
        { from_ := [65], command := ClientCommand.ListClients, timeStamp := 5 } =
      some { data := some [5, 0, 0, 0, 0, 0, 0, 0, 4, 0, 0, 0, 65, 0, 0, 0, 0, 0, 0, 0],
             size := 16 } ∧
    ClientMessage.Unserialize {} [5, 0, 0, 0, 0, 0, 0, 0, 4, 0, 0, 0, 65, 0, 0, 0] =
      some { from_ := [], command := ClientCommand.Error, timeStamp := 0 } := by
  decide

/-- C2 (decode size limit), at the failing input: the 16-char buffers made of a
time stamp, the command `ListClients` or `ClientConnect`, the unit "A" and a
terminating NUL are rejected with command `Error`, while the same records with
a two-unit name (18 chars) are decoded. -/
theorem sixteen_byte_buffer_rejected :
    ClientMessage.Unserialize {} [5, 0, 0, 0, 0, 0, 0, 0, 4, 0, 0, 0, 65, 0, 0, 0] =
      some { command := ClientCommand.Error } ∧
    ClientMessage.Unserialize {} [5, 0, 0, 0, 0, 0, 0, 0, 5, 0, 0, 0, 65, 0, 0, 0] =
      some { command := ClientCommand.Error } ∧
    ClientMessage.Unserialize {} [5, 0, 0, 0, 0, 0, 0, 0, 4, 0, 0, 0, 65, 0, 66, 0, 0, 0] =
      some { from_ := [65, 66], command := ClientCommand.ListClients, timeStamp := 5 } ∧
    ClientMessage.Unserialize {} [5, 0, 0, 0, 0, 0, 0, 0, 5, 0, 0, 0, 65, 0, 66, 0, 0, 0] =
      some { from_ := [65, 66], command := ClientCommand.ClientConnect, timeStamp := 5 } := by
  decide

/-- C3, counterexample: the 18-char buffer holding time stamp 5, the command
`BroadcastMessage`, the sender "AB" and no text is rejected, and the record,
which held time stamp 0 and an empty sender before the call, ends with time
stamp 5 and sender "AB". -/
theorem failed_decode_overwrites_fields :
    ∃ r, ClientMessage.Unserialize {} [5, 0, 0, 0, 0, 0, 0, 0, 1, 0, 0, 0, 65, 0, 66, 0, 0, 0]
        = some r ∧
      r.command = ClientCommand.Error ∧
      r.timeStamp ≠ ({} : ClientMessage).timeStamp ∧
      r.from_ ≠ ({} : ClientMessage).from_ :=
  ⟨{ from_ := [65, 66], command := ClientCommand.Error, timeStamp := 5 },
    by decide, by decide, by decide, by decide⟩

/-- C3, amended: every decode returns, the record ends with command `Error` or
with a command in range, and when it ends with `Error`: for a buffer of at
most 16 chars the time stamp, sender, receiver and text keep their prior
values; for a longer buffer the time stamp is the one read from the buffer,
the sender is its prior value or the name scanned at offset 12, the receiver
is its prior value or the name scanned after the sender, and the text is its
prior value or empty. -/
theorem failed_decode_fields (self : ClientMessage) (data : List Byte) :
    ∃ r, self.Unserialize data = some r ∧
      (r.command = ClientCommand.Error ∨ IsCommand r.command = true) ∧
      (r.command = ClientCommand.Error →
        (data.length ≤ 16 → r.timeStamp = self.timeStamp ∧ r.from_ = self.from_ ∧
            r.pmTo = self.pmTo ∧ r.msg = self.msg) ∧
        (16 < data.length →
          readU64 data 0 = some r.timeStamp ∧
          (r.from_ = self.from_ ∨ readCStr data 12 = some r.from_) ∧
          (r.pmTo = self.pmTo ∨
            readCStr data (12 + 2 * (r.from_.length + 1)) = some r.pmTo) ∧
          (r.msg = self.msg ∨ r.msg = []))) :=
  Unserialize_post self data

/-- C4 (decode stays inside the buffer): for every buffer, of any length and
content, no read of `Unserialize` leaves the buffer (the call returns a
record); for a buffer longer than `MIN_MSG_SIZE` the header lies inside it and
the end pointer is past the first unit and not past the buffer; and when the
final unit is NUL, the scan for the sender starts before the end pointer and
stops at or before the final unit, and if it stops before the end pointer then
the scan for the receiver, started there, also stops at or before the final
unit, and the range taken for the text, from either place, has a non-negative
length. -/
theorem Unserialize_reads_in_bounds (self : ClientMessage) (data : List Byte) :
    (∃ r, self.Unserialize data = some r) ∧
    (MIN_MSG_SIZE < data.length →
      COMMAND_OFFSET + 4 ≤ data.length ∧
      MESSAGE_OFFSET < MESSAGE_OFFSET + (data.length - MESSAGE_OFFSET) / 2 * 2 ∧
      MESSAGE_OFFSET + (data.length - MESSAGE_OFFSET) / 2 * 2 ≤ data.length ∧
      (readWChar data (MESSAGE_OFFSET + (data.length - MESSAGE_OFFSET) / 2 * 2 - 2) = some 0 →
        ∃ name, readCStr data MESSAGE_OFFSET = some name ∧
          MESSAGE_OFFSET + 2 * (name.length + 1) ≤
            MESSAGE_OFFSET + (data.length - MESSAGE_OFFSET) / 2 * 2 ∧
          (MESSAGE_OFFSET + 2 * (name.length + 1) ≠
              MESSAGE_OFFSET + (data.length - MESSAGE_OFFSET) / 2 * 2 →
            MESSAGE_OFFSET + 2 * (name.length + 1) ≤
              MESSAGE_OFFSET + (data.length - MESSAGE_OFFSET) / 2 * 2 - 2 ∧
            ∃ target, readCStr data (MESSAGE_OFFSET + 2 * (name.length + 1)) = some target ∧
              MESSAGE_OFFSET + 2 * (name.length + 1) + 2 * (target.length + 1) ≤
                MESSAGE_OFFSET + (data.length - MESSAGE_OFFSET) / 2 * 2 ∧
              (MESSAGE_OFFSET + 2 * (name.length + 1) + 2 * (target.length + 1) ≠
                  MESSAGE_OFFSET + (data.length - MESSAGE_OFFSET) / 2 * 2 →
                MESSAGE_OFFSET + 2 * (name.length + 1) + 2 * (target.length + 1) ≤
                  MESSAGE_OFFSET + (data.length - MESSAGE_OFFSET) / 2 * 2 - 2)))) := by
  refine ⟨?_, ?_⟩
  · obtain ⟨r, hr, _⟩ := Unserialize_post self data
    exact ⟨r, hr⟩
  · simp only [MIN_MSG_SIZE, MESSAGE_OFFSET, COMMAND_OFFSET]
    intro hlen
    refine ⟨by omega, by omega, by omega, fun hn => ?_⟩
    obtain ⟨name, hname, hl⟩ := readCStr_of_nul data (8 + 4) _ (by omega) (by omega) hn
    refine ⟨name, hname, by omega, fun hne => ⟨by omega, ?_⟩⟩
    obtain ⟨target, htarget, hl2⟩ := readCStr_of_nul data (8 + 4 + 2 * (name.length + 1)) _
      (by omega) (by omega) hn
    exact ⟨target, htarget, by omega, fun _ => by omega⟩

/-- C5 (encode rejection): when the three text fields fit a 32-bit byte count
and the buffer allocation succeeds, `Serialize` returns `nullptr` with size 0
exactly when the command is `Error`, or the sender is empty, or the command is
`PrivateMessage` and the receiver is empty, or the command is payload-bearing
and the text is empty; for every other record it returns a buffer. -/
theorem Serialize_rejects_iff (alloc : Nat → Bool) (r : ClientMessage)
    (hfit : 12 + wsize r.from_ + wsize r.msg + wsize r.pmTo < U32_MOD)
    (halloc : alloc r.dataSize = true) :
    (r.Serialize alloc = some Serialized.null ↔
      (r.command = ClientCommand.Error ∨ r.from_ = [] ∨
        (r.command = ClientCommand.PrivateMessage ∧ r.pmTo = []) ∨
        (carriesMsg r ∧ r.msg = []))) ∧
    (¬ (r.command = ClientCommand.Error ∨ r.from_ = [] ∨
        (r.command = ClientCommand.PrivateMessage ∧ r.pmTo = []) ∨
        (carriesMsg r ∧ r.msg = [])) →
      ∃ d n, r.Serialize alloc = some { data := some d, size := n }) := by
  have hD : r.dataSize = 12 + wsize r.from_ + wsize r.msg + wsize r.pmTo := by
    unfold ClientMessage.dataSize
    exact Nat.mod_eq_of_lt hfit
  have hws : wireSize r ≤ r.dataSize := by
    rw [hD]; unfold wireSize
    split <;> split <;> omega
  have c2 : ¬ (!alloc r.dataSize) = true := by rw [halloc]; decide
  have c3 : ¬ r.dataSize < 12 + wsize r.from_ := by omega
  have c5 : ¬ (r.command = ClientCommand.PrivateMessage ∧
      r.dataSize < 12 + wsize r.from_ + wsize r.pmTo) := by
    intro h; omega
  have c7 : ¬ r.dataSize < wireSize r := by omega
  have hnull : ∀ d n, some Serialized.null ≠
      some ({ data := some d, size := n } : Serialized) := by
    intro d n h
    simp [Serialized.null] at h
  rw [Serialize_eq alloc r]
  by_cases c1 : r.command = ClientCommand.Error ∨ r.from_.isEmpty = true
  · rw [if_pos c1]
    have : r.command = ClientCommand.Error ∨ r.from_ = [] := by
      rcases c1 with h | h
      · exact Or.inl h
      · exact Or.inr (List.isEmpty_iff.mp h)
    refine ⟨⟨fun _ => ?_, fun _ => rfl⟩, fun hn => absurd ?_ hn⟩
    · rcases this with h | h
      · exact Or.inl h
      · exact Or.inr (Or.inl h)
    · rcases this with h | h
      · exact Or.inl h
      · exact Or.inr (Or.inl h)
  have n1 : ¬ r.command = ClientCommand.Error := fun h => c1 (Or.inl h)
  have n2 : ¬ r.from_ = [] := fun h => c1 (Or.inr (List.isEmpty_iff.mpr h))
  rw [if_neg c1, if_neg c2, if_neg c3]
  by_cases c4 : r.command = ClientCommand.PrivateMessage ∧ r.pmTo.isEmpty = true
  · rw [if_pos c4]
    have h4 : r.command = ClientCommand.PrivateMessage ∧ r.pmTo = [] :=
      ⟨c4.1, List.isEmpty_iff.mp c4.2⟩
    exact ⟨⟨fun _ => Or.inr (Or.inr (Or.inl h4)), fun _ => rfl⟩,
      fun hn => absurd (Or.inr (Or.inr (Or.inl h4))) hn⟩
  have n4 : ¬ (r.command = ClientCommand.PrivateMessage ∧ r.pmTo = []) :=
    fun h => c4 ⟨h.1, List.isEmpty_iff.mpr h.2⟩
  rw [if_neg c4, if_neg c5]
  by_cases c6 : carriesMsg r ∧ r.msg.isEmpty = true
  · rw [if_pos c6]
    have h6 : carriesMsg r ∧ r.msg = [] := ⟨c6.1, List.isEmpty_iff.mp c6.2⟩
    exact ⟨⟨fun _ => Or.inr (Or.inr (Or.inr h6)), fun _ => rfl⟩,
      fun hn => absurd (Or.inr (Or.inr (Or.inr h6))) hn⟩
  have n6 : ¬ (carriesMsg r ∧ r.msg = []) :=
    fun h => c6 ⟨h.1, List.isEmpty_iff.mpr h.2⟩
  rw [if_neg c6, if_neg c7]
  refine ⟨⟨fun h => absurd h.symm (hnull _ _), fun h => ?_⟩, fun _ => ⟨_, _, rfl⟩⟩
  rcases h with h | h | h | h
  · exact absurd h n1
  · exact absurd h n2
  · exact absurd h n4
  · exact absurd h n6

/-- C5, witness: a `BroadcastMessage` record from "A" with text "h". -/
theorem Serialize_rejects_iff_witness :
    (sampleBroadcast.Serialize (fun _ => true) = some Serialized.null ↔
      (sampleBroadcast.command = ClientCommand.Error ∨ sampleBroadcast.from_ = [] ∨
        (sampleBroadcast.command = ClientCommand.PrivateMessage ∧ sampleBroadcast.pmTo = []) ∨
        (carriesMsg sampleBroadcast ∧ sampleBroadcast.msg = []))) ∧
    (¬ (sampleBroadcast.command = ClientCommand.Error ∨ sampleBroadcast.from_ = [] ∨
        (sampleBroadcast.command = ClientCommand.PrivateMessage ∧ sampleBroadcast.pmTo = []) ∨
        (carriesMsg sampleBroadcast ∧ sampleBroadcast.msg = [])) →
      ∃ d n, sampleBroadcast.Serialize (fun _ => true) = some { data := some d, size := n }) :=
  Serialize_rejects_iff (fun _ => true) sampleBroadcast (by decide) rfl

/-- C6 (encode layout): for every record that `Serialize` accepts, the reported
size is the size of the layout table (12 chars of header, the sender with its
NUL, the receiver with its NUL for `PrivateMessage` only, the text with its
NUL for payload-bearing commands only), the first `size` chars of the buffer
are the layout table, and every char after them is zero: a receiver or text
that the command does not carry is not written. -/
theorem Serialize_layout (alloc : Nat → Bool) (r : ClientMessage) (d : List Byte) (n : Nat)
    (h : r.Serialize alloc = some { data := some d, size := n }) :
    n = wireSize r ∧ d.take n = wireLayout r ∧ (wireLayout r).length = n ∧
      d.drop n = List.replicate (d.length - n) 0 ∧ d.length = r.dataSize := by
  rw [Serialize_eq alloc r] at h
  have hnull : ∀ d n, some Serialized.null ≠
      some ({ data := some d, size := n } : Serialized) := by
    intro d n h
    simp [Serialized.null] at h
  have hnone : ∀ d n, (none : Option Serialized) ≠
      some ({ data := some d, size := n } : Serialized) := by
    intro d n h
    simp at h
  by_cases c1 : r.command = ClientCommand.Error ∨ r.from_.isEmpty = true
  · rw [if_pos c1] at h; exact absurd h (hnull _ _)
  rw [if_neg c1] at h
  by_cases c2 : (!alloc r.dataSize) = true
  · rw [if_pos c2] at h; exact absurd h (hnull _ _)
  rw [if_neg c2] at h
  by_cases c3 : r.dataSize < 12 + wsize r.from_
  · rw [if_pos c3] at h; exact absurd h (hnone _ _)
  rw [if_neg c3] at h
  by_cases c4 : r.command = ClientCommand.PrivateMessage ∧ r.pmTo.isEmpty = true
  · rw [if_pos c4] at h; exact absurd h (hnull _ _)
  rw [if_neg c4] at h
  by_cases c5 : r.command = ClientCommand.PrivateMessage ∧
      r.dataSize < 12 + wsize r.from_ + wsize r.pmTo
  · rw [if_pos c5] at h; exact absurd h (hnone _ _)
  rw [if_neg c5] at h
  by_cases c6 : carriesMsg r ∧ r.msg.isEmpty = true
  · rw [if_pos c6] at h; exact absurd h (hnull _ _)
  rw [if_neg c6] at h
  by_cases c7 : r.dataSize < wireSize r
  · rw [if_pos c7] at h; exact absurd h (hnone _ _)
  rw [if_neg c7] at h
  simp only [Option.some.injEq, Serialized.mk.injEq] at h
  obtain ⟨hd, hn⟩ := h
  subst hd hn
  have hl := wireLayout_length r
  refine ⟨rfl, ?_, hl, ?_, ?_⟩
  · rw [← hl, List.take_left]
  · rw [← hl, List.drop_left]
    simp only [List.length_append, List.length_replicate]
    congr 1
    omega
  · simp only [List.length_append, List.length_replicate, hl]
    omega

/-- C6, witness: the private message from "A" to "B" with text "h" and time
stamp 7 is laid out on 24 chars in a buffer of 24 chars. -/
theorem Serialize_layout_witness :
    samplePrivate.Serialize (fun _ => true) = some
        { data := some [7, 0, 0, 0, 0, 0, 0, 0, 2, 0, 0, 0, 65, 0, 0, 0, 66, 0, 0, 0,
            104, 0, 0, 0],
          size := 24 } ∧
      24 = wireSize samplePrivate ∧
      ([7, 0, 0, 0, 0, 0, 0, 0, 2, 0, 0, 0, 65, 0, 0, 0, 66, 0, 0, 0, 104, 0, 0, 0] :
          List Byte).take 24 = wireLayout samplePrivate :=
  have h : samplePrivate.Serialize (fun _ => true) = some
      { data := some [7, 0, 0, 0, 0, 0, 0, 0, 2, 0, 0, 0, 65, 0, 0, 0, 66, 0, 0, 0,
          104, 0, 0, 0],
        size := 24 } := by decide
  ⟨h, (Serialize_layout (fun _ => true) samplePrivate _ 24 h).1,
    (Serialize_layout (fun _ => true) samplePrivate _ 24 h).2.1⟩

/-! ## Lemmas about the transport -/

theorem chunks_length (n : Nat) (data : List Byte) : (chunks n data).length = n := by
  induction n generalizing data with
  | zero => rfl
  | succ n ih => simp [chunks, ih]

theorem chunks_join (n : Nat) (data : List Byte)
    (hn : n = (data.length + 1023) / 1024) : (chunks n data).flatten = data := by
  induction n generalizing data with
  | zero =>
    have : data.length = 0 := by omega
    simp [chunks, List.length_eq_zero.mp this]
  | succ n ih =>
    simp only [chunks, List.flatten_cons, MAX_SEND_RECV_DATA_SIZE]
    rw [ih (data.drop 1024) (by simp only [List.length_drop]; omega)]
    exact List.take_append_drop 1024 data

theorem chunks_le (n : Nat) (data : List Byte) :
    ∀ c ∈ chunks n data, c.length ≤ 1024 := by
  induction n generalizing data with
  | zero => intro c hc; simp [chunks] at hc
  | succ n ih =>
    intro c hc
    simp only [chunks, List.mem_cons, MAX_SEND_RECV_DATA_SIZE] at hc
    rcases hc with h | h
    · rw [h, List.length_take]; omega
    · exact ih _ c h

theorem chunks_dropLast (n : Nat) (data : List Byte)
    (hn : n = (data.length + 1023) / 1024) :
    ∀ c ∈ (chunks n data).dropLast, c.length = 1024 := by
  induction n generalizing data with
  | zero => intro c hc; simp [chunks] at hc
  | succ n ih =>
    intro c hc
    cases n with
    | zero => simp [chunks] at hc
    | succ m =>
      rw [chunks] at hc
      have hne : chunks (m + 1) (data.drop MAX_SEND_RECV_DATA_SIZE) ≠ [] := by
        intro h
        have := congrArg List.length h
        rw [chunks_length] at this
        simp at this
      rw [List.dropLast_cons_of_ne_nil hne, List.mem_cons] at hc
      rcases hc with h | h
      · rw [h, List.length_take]; simp only [MAX_SEND_RECV_DATA_SIZE]; omega
      · exact ih (data.drop MAX_SEND_RECV_DATA_SIZE)
          (by simp only [List.length_drop, MAX_SEND_RECV_DATA_SIZE]; omega) c h

theorem send_full (s : Socket) (bytes : List Byte) (hplan : s.sendPlan = [])
    (hopen : s.closed = false) :
    s.send bytes = (some bytes.length, { s with sent := s.sent ++ [bytes] }) := by
  unfold Socket.send
  rw [hopen, hplan]
  rfl

theorem sendLoop_full (n : Nat) (s : Socket) (rest : List Byte) (hplan : s.sendPlan = [])
    (hopen : s.closed = false) (hn : n = (rest.length + 1023) / 1024) :
    sendLoop n s rest = (true, { s with sent := s.sent ++ chunks n rest }) := by
  induction n generalizing s rest with
  | zero =>
    have : rest.length = 0 := by omega
    simp [sendLoop, chunks, this]
  | succ n ih =>
    rw [sendLoop, send_full s _ hplan hopen]
    simp only
    have hl : (rest.take (min rest.length MAX_SEND_RECV_DATA_SIZE)).length =
        min rest.length 1024 := by
      simp only [List.length_take, MAX_SEND_RECV_DATA_SIZE]; omega
    have e1 : rest.take (min rest.length 1024) = rest.take 1024 := by
      by_cases h : rest.length ≤ 1024
      · rw [Nat.min_eq_left h, List.take_of_length_le (Nat.le_refl _),
          List.take_of_length_le h]
      · rw [Nat.min_eq_right (by omega)]
    have e2 : rest.drop (min rest.length 1024) = rest.drop 1024 := by
      by_cases h : rest.length ≤ 1024
      · rw [Nat.min_eq_left h, List.drop_of_length_le (Nat.le_refl _),
          List.drop_of_length_le h]
      · rw [Nat.min_eq_right (by omega)]
    rw [hl, e2]
    simp only [MAX_SEND_RECV_DATA_SIZE]
    rw [e1]
    have := ih { s with sent := s.sent ++ [rest.take 1024] } (rest.drop 1024) hplan hopen
      (by simp only [List.length_drop]; omega)
    rw [this]
    simp only [chunks, MAX_SEND_RECV_DATA_SIZE, List.append_assoc, List.singleton_append]

/-- The chars of a 32-bit value read back from its little-endian representation. -/
theorem leValue_leBytes_u32 (n : Nat) (h : n < U32_MOD) : leValue (leBytes 4 n) = n := by
  rw [leValue_leBytes]
  exact Nat.mod_eq_of_lt (by unfold U32_MOD at h; omega)

theorem SendData_full (s : Socket) (data : List Byte) (hplan : s.sendPlan = [])
    (hopen : s.closed = false) (hn : data.length + 1023 < U32_MOD) :
    SendData s data =
      (true, { s with
        sent := s.sent ++ leBytes 4 data.length :: chunks ((data.length + 1023) / 1024) data })
      := by
  unfold SendData
  simp only
  rw [send_full s _ hplan hopen]
  simp only [MAX_SEND_RECV_DATA_SIZE]
  have e : (data.length + 1024 - 1) % U32_MOD = data.length + 1023 := by
    rw [Nat.mod_eq_of_lt (by omega)]; omega
  rw [e]
  have := sendLoop_full ((data.length + 1023) / 1024)
    { s with sent := s.sent ++ [leBytes 4 data.length] } data hplan hopen rfl
  rw [this]
  simp only [List.append_assoc, List.singleton_append]

theorem recv_piece (s : Socket) (p : List Byte) (rest : List RecvEvent) (len : Nat)
    (hopen : s.closed = false) (hin : s.inbox = RecvEvent.piece p :: rest)
    (hlen : p.length ≤ len) :
    s.recv len = (some p.length, p, { s with inbox := rest }) := by
  unfold Socket.recv
  rw [hopen, hin]
  simp only [Bool.false_eq_true, if_false]
  rw [if_pos hlen]

theorem recvLoop_full (k : Nat) (s : Socket) (data got : List Byte) (rest : List RecvEvent)
    (r0 : Nat) (hopen : s.closed = false)
    (hin : s.inbox = (chunks k data).map RecvEvent.piece ++ rest)
    (hk : k = (data.length + 1023) / 1024) :
    ∃ r, recvLoop k { sock := s, recvSize := data.length, got := got, result := some r0 } =
      { sock := { s with inbox := rest }, recvSize := 0, got := got ++ data,
        result := some r } := by
  induction k generalizing s data got r0 with
  | zero =>
    have h0 : data.length = 0 := by omega
    have hd : data = [] := List.length_eq_zero.mp h0
    subst hd
    simp only [chunks, List.map_nil, List.nil_append] at hin
    refine ⟨r0, ?_⟩
    simp only [recvLoop, List.length_nil, List.append_nil]
    rw [← hin]
  | succ k ih =>
    simp only [chunks, List.map_cons, List.cons_append, MAX_SEND_RECV_DATA_SIZE] at hin
    have hl : (data.take 1024).length = min data.length 1024 := by
      rw [List.length_take]; omega
    rw [recvLoop]
    simp only [MAX_SEND_RECV_DATA_SIZE]
    rw [recv_piece s (data.take 1024) _ (min data.length 1024) hopen hin (by omega)]
    simp only
    have hrs : data.length - (data.take 1024).length = (data.drop 1024).length := by
      rw [hl, List.length_drop]; omega
    rw [hrs]
    obtain ⟨r, hr⟩ := ih { s with inbox := (chunks k (data.drop 1024)).map RecvEvent.piece ++ rest }
      (data.drop 1024) (got ++ data.take 1024) (data.take 1024).length hopen rfl
      (by rw [List.length_drop]; omega)
    refine ⟨r, ?_⟩
    rw [hr]
    simp only [List.append_assoc, List.take_append_drop]

theorem RecvData_frame (alloc : Nat → Bool) (s : Socket) (body : List Byte)
    (rest : List RecvEvent) (hopen : s.closed = false)
    (hin : s.inbox = (frameWrites body).map RecvEvent.piece ++ rest)
    (hsz : body.length + 1023 < U32_MOD) (halloc : alloc body.length = true) :
    RecvData alloc s =
      ({ ok := true, data := body, recved := body.length }, { s with inbox := rest }) := by
  simp only [frameWrites, List.map_cons, List.cons_append] at hin
  unfold RecvData
  rw [recv_piece s (leBytes 4 body.length) _ 4 hopen hin (by rw [leBytes_length])]
  simp only [leBytes_length, MAX_SEND_RECV_DATA_SIZE]
  rw [leValue_leBytes_u32 _ (by omega), halloc]
  simp only [Bool.not_true, Bool.false_eq_true, if_false]
  have e : (body.length + 1024 - 1) % U32_MOD = body.length + 1023 := by
    rw [Nat.mod_eq_of_lt (by omega)]; omega
  rw [e]
  obtain ⟨r, hr⟩ := recvLoop_full ((body.length + 1023) / 1024)
    { s with inbox := (chunks ((body.length + 1023) / 1024) body).map RecvEvent.piece ++ rest }
    body [] rest 4 hopen rfl rfl
  rw [hr]
  simp

theorem SendAll_full (s : Socket) (bodies : List (List Byte)) (hplan : s.sendPlan = [])
    (hopen : s.closed = false) (hsz : ∀ b ∈ bodies, b.length + 1023 < U32_MOD) :
    SendAll s bodies =
      (bodies.map (fun _ => true),
        { s with sent := s.sent ++ (bodies.map frameWrites).flatten }) := by
  induction bodies generalizing s with
  | nil => simp [SendAll]
  | cons b bs ih =>
    rw [SendAll, SendData_full s b hplan hopen (hsz b (List.mem_cons_self _ _))]
    have := ih { s with
        sent := s.sent ++ leBytes 4 b.length :: chunks ((b.length + 1023) / 1024) b }
      hplan hopen (fun x hx => hsz x (List.mem_cons_of_mem _ hx))
    simp only [this]
    simp only [List.map_cons, List.flatten_cons, frameWrites, List.append_assoc,
      List.cons_append]

theorem RecvAll_frames (alloc : Nat → Bool) (s : Socket) (bodies : List (List Byte))
    (rest : List RecvEvent) (hopen : s.closed = false)
    (hin : s.inbox = ((bodies.map frameWrites).flatten).map RecvEvent.piece ++ rest)
    (hsz : ∀ b ∈ bodies, b.length + 1023 < U32_MOD)
    (halloc : ∀ b ∈ bodies, alloc b.length = true) :
    RecvAll alloc bodies.length s =
      (bodies.map (fun b => { ok := true, data := b, recved := b.length }),
        { s with inbox := rest }) := by
  induction bodies generalizing s with
  | nil =>
    simp only [List.map_nil, List.flatten_nil, List.nil_append] at hin
    simp only [RecvAll, List.length_nil, List.map_nil]
    rw [← hin]
  | cons b bs ih =>
    simp only [List.map_cons, List.flatten_cons, List.map_append, List.append_assoc] at hin
    simp only [List.length_cons, RecvAll]
    rw [RecvData_frame alloc s b _ hopen hin (hsz b (List.mem_cons_self _ _))
      (halloc b (List.mem_cons_self _ _))]
    simp only
    rw [ih { s with inbox := ((bs.map frameWrites).flatten).map RecvEvent.piece ++ rest }
      hopen rfl (fun x hx => hsz x (List.mem_cons_of_mem _ hx))
      (fun x hx => halloc x (List.mem_cons_of_mem _ hx))]
    simp only [List.map_cons]


/-- Round trip of the transport when the stream arrives as written: for every
sequence of bodies of `n` chars with `n + 1023 < 2^32`, written by successive
`SendData` calls on a transport that takes every write in full and delivered
to the receiver in the pieces written (the 4-char prefix, then chunks of 1024
chars, the last one shorter), with every receive buffer allocated, every
`SendData` returns true and the successive `RecvData` calls return true with
exactly the bodies, in order, leaving nothing unread. -/
theorem RecvAll_SendAll (alloc : Nat → Bool) (bodies : List (List Byte))
    (hsz : ∀ b ∈ bodies, b.length + 1023 < U32_MOD)
    (halloc : ∀ b ∈ bodies, alloc b.length = true) :
    (SendAll {} bodies).1 = bodies.map (fun _ => true) ∧
    RecvAll alloc bodies.length
        { inbox := (SendAll {} bodies).2.sent.map RecvEvent.piece } =
      (bodies.map (fun b => { ok := true, data := b, recved := b.length }), {}) := by
  rw [SendAll_full {} bodies rfl rfl hsz]
  refine ⟨rfl, ?_⟩
  simp only [List.nil_append]
  rw [RecvAll_frames alloc _ bodies [] rfl (by simp) hsz halloc]

/-- Round trip of the transport, witness: the frames of `sampleConnect` and of
the 3-char body 1 2 3. -/
theorem RecvAll_SendAll_witness :
    (SendAll {} [sampleConnect, [1, 2, 3]]).1 = [true, true] ∧
    RecvAll (fun _ => true) 2
        { inbox := (SendAll {} [sampleConnect, [1, 2, 3]]).2.sent.map RecvEvent.piece } =
      ([{ ok := true, data := sampleConnect, recved := 18 },
        { ok := true, data := [1, 2, 3], recved := 3 }], {}) :=
  RecvAll_SendAll (fun _ => true) [sampleConnect, [1, 2, 3]] (by decide) (by decide)

/-- C8 (framed send): for every body of `n` chars with `n + 1023 < 2^32`, on an
open socket whose transport takes every write in full, `SendData` returns true
and what it writes is first the four chars of `n` in little-endian order, then
exactly `ceil(n / 1024)` chunks, each of at most 1024 chars and all but the
last of exactly 1024, whose concatenation is the body; for `n = 0` only the
prefix is written. -/
theorem SendData_writes_frame (s : Socket) (data : List Byte) (hplan : s.sendPlan = [])
    (hopen : s.closed = false) (hn : data.length + 1023 < U32_MOD) :
    ∃ cs : List (List Byte),
      SendData s data = (true, { s with sent := s.sent ++ leBytes 4 data.length :: cs }) ∧
      leValue (leBytes 4 data.length) = data.length ∧
      cs.length = (data.length + 1023) / 1024 ∧
      (∀ c ∈ cs, c.length ≤ 1024) ∧
      (∀ c ∈ cs.dropLast, c.length = 1024) ∧
      cs.flatten = data ∧
      (data.length = 0 → cs = []) := by
  refine ⟨chunks ((data.length + 1023) / 1024) data, SendData_full s data hplan hopen hn,
    leValue_leBytes_u32 _ (by omega), chunks_length _ _, chunks_le _ _,
    chunks_dropLast _ _ rfl, chunks_join _ _ rfl, fun h => ?_⟩
  rw [h]
  rfl

/-- C8, witness: the 18-char body `sampleConnect` is written as its prefix
18 0 0 0 followed by one chunk. -/
theorem SendData_writes_frame_witness :
    ∃ cs : List (List Byte),
      SendData {} sampleConnect = (true, { sent := [18, 0, 0, 0] :: cs }) ∧
      cs.length = 1 ∧ cs.flatten = sampleConnect := by
  obtain ⟨cs, h1, _, h3, _, _, h6, _⟩ :=
    SendData_writes_frame {} sampleConnect rfl rfl (by decide)
  exact ⟨cs, h1, h3, h6⟩

/-! ## Lemmas about the registry and the router -/

theorem SameNames.refl (sv : Server) : SameNames sv sv := ⟨rfl, rfl⟩

theorem SameNames.trans {a b c : Server} (h1 : SameNames a b) (h2 : SameNames b c) :
    SameNames a c := ⟨h2.1.trans h1.1, h2.2.trans h1.2⟩

theorem ServerClient_SendData_name (c : ServerClient) (wire : List Byte) :
    (c.SendData wire).2.m_name = c.m_name := rfl

theorem liveNames_broadcastLoop (wire : List Byte) (client : Option ClientRef) (ind : Nat)
    (threads : List ClientThread) :
    liveNames (broadcastLoop wire client ind threads) = liveNames threads := by
  induction threads generalizing ind with
  | nil => rfl
  | cons cl rest ih =>
    simp only [broadcastLoop, liveNames]
    rw [ih]
    split <;> rfl

theorem liveNames_setSlotClient (c : ServerClient) (ind : Nat) (threads : List ClientThread)
    (h : c.m_name = (threads.getD ind {}).client.m_name) :
    liveNames (setSlotClient c ind threads) = liveNames threads := by
  induction threads generalizing ind with
  | nil => cases ind <;> rfl
  | cons cl rest ih =>
    cases ind with
    | zero =>
      simp only [List.getD_cons_zero] at h
      simp only [setSlotClient, liveNames, h]
    | succ n =>
      simp only [List.getD_cons_succ] at h
      simp only [setSlotClient, liveNames, ih n h]

theorem SameNames_setClient (sv : Server) (ref : ClientRef) (c : ServerClient)
    (h : c.m_name = (sv.client ref).m_name) : SameNames sv (sv.setClient ref c) := by
  cases ref with
  | slot ind =>
    exact ⟨liveNames_setSlotClient c ind _ h, rfl⟩
  | accepted => exact ⟨rfl, h⟩

theorem SameNames_SendData (sv : Server) (ref : ClientRef) (wire : List Byte) :
    SameNames sv (sv.SendData ref wire).2 :=
  SameNames_setClient sv ref _ rfl

theorem SameNames_MakeServerMessage (sv : Server) (msg : ClientMessage) (str : WString) :
    SameNames sv (sv.MakeServerMessage msg str).2 := by
  unfold Server.MakeServerMessage Server.time
  split <;> exact ⟨rfl, rfl⟩

theorem SameNames_ProcessBroadcastSend (alloc : Nat → Bool) (sv : Server)
    (msg : ClientMessage) (client : Option ClientRef) (h : Handled)
    (hh : sv.ProcessBroadcastSend alloc msg client = some h) : SameNames sv h.sv := by
  unfold Server.ProcessBroadcastSend at hh
  cases hs : msg.Serialize alloc with
  | none => rw [hs] at hh; simp at hh
  | some s =>
    rw [hs] at hh
    simp only [Option.map_some', Option.some.injEq] at hh
    subst hh
    cases s.data with
    | none => exact SameNames.refl sv
    | some data => exact ⟨liveNames_broadcastLoop _ _ _ _, rfl⟩

theorem SameNames_serialize_send (alloc : Nat → Bool) (sv : Server) (m : ClientMessage)
    (client : ClientRef) (h : Handled)
    (hh : ((m.Serialize alloc).map fun s =>
      match s.data with
      | none => ({ ret := false, msg := m, sv := sv } : Handled)
      | some data =>
        { ret := (sv.SendData client (data.take s.size)).1, msg := m,
          sv := (sv.SendData client (data.take s.size)).2 }) = some h) :
    SameNames sv h.sv := by
  cases hs : m.Serialize alloc with
  | none => rw [hs] at hh; simp at hh
  | some s =>
    rw [hs] at hh
    simp only [Option.map_some', Option.some.injEq] at hh
    subst hh
    cases s.data with
    | none => exact SameNames.refl sv
    | some data => exact SameNames_SendData sv client _

theorem SameNames_ProcessClientsListRequest (alloc : Nat → Bool) (sv : Server)
    (msg : ClientMessage) (client : ClientRef) (h : Handled)
    (hh : sv.ProcessClientsListRequest alloc msg client = some h) : SameNames sv h.sv := by
  unfold Server.ProcessClientsListRequest at hh
  exact (SameNames_MakeServerMessage sv msg _).trans (SameNames_serialize_send alloc _ _ _ h hh)

theorem SameNames_ProcessNameAlreadyExists (alloc : Nat → Bool) (sv : Server)
    (msg : ClientMessage) (client : ClientRef) (h : Handled)
    (hh : sv.ProcessNameAlreadyExists alloc msg client = some h) : SameNames sv h.sv := by
  unfold Server.ProcessNameAlreadyExists at hh
  exact (SameNames_MakeServerMessage sv msg _).trans (SameNames_serialize_send alloc _ _ _ h hh)

theorem IsClientNameExists_iff (sv : Server) (name : WString) :
    sv.IsClientNameExists name = true ↔ name ∈ liveNames sv.m_clientThreads := by
  unfold Server.IsClientNameExists
  induction sv.m_clientThreads with
  | nil => simp [liveNames]
  | cons cl rest ih =>
    simp only [List.any_cons, Bool.or_eq_true, ih, liveNames]
    cases hc : cl.completed
    · simp only [Bool.not_false, Bool.true_and, beq_iff_eq, if_true, List.mem_cons]
      constructor
      · rintro (h | h)
        · exact Or.inl h.symm
        · exact Or.inr h
      · rintro (h | h)
        · exact Or.inl h.symm
        · exact Or.inr h
    · simp

theorem findSlot_some (p : ClientThread → Bool) (start : Nat) (threads : List ClientThread)
    (ind : Nat) (h : findSlot p start threads = some ind) :
    start ≤ ind ∧ ind - start < threads.length ∧
      p (threads.getD (ind - start) {}) = true := by
  induction threads generalizing start with
  | nil => simp [findSlot] at h
  | cons cl rest ih =>
    simp only [findSlot] at h
    by_cases hp : p cl = true
    · rw [if_pos hp] at h
      simp only [Option.some.injEq] at h
      subst h
      simp [hp]
    · rw [if_neg hp] at h
      obtain ⟨h1, h2, h3⟩ := ih (start + 1) h
      refine ⟨by omega, by simp only [List.length_cons]; omega, ?_⟩
      have e : ind - start = (ind - (start + 1)) + 1 := by omega
      rw [e, List.getD_cons_succ]
      exact h3

theorem liveNames_append (a b : List ClientThread) :
    liveNames (a ++ b) = liveNames a ++ liveNames b := by
  induction a with
  | nil => rfl
  | cons cl rest ih =>
    rw [List.cons_append, liveNames, liveNames, ih]
    split
    · rfl
    · rfl

theorem liveNames_setSlot_perm (thr : ClientThread) (ind : Nat) (threads : List ClientThread)
    (hlt : ind < threads.length) (hc : (threads.getD ind {}).completed = true)
    (hl : thr.completed = false) :
    (liveNames (setSlot thr ind threads)).Perm (thr.client.m_name :: liveNames threads) := by
  induction threads generalizing ind with
  | nil => simp at hlt
  | cons cl rest ih =>
    cases ind with
    | zero =>
      simp only [List.getD_cons_zero] at hc
      simp only [setSlot, liveNames, hl, hc, if_true, Bool.true_eq_false, if_false]
      exact List.Perm.refl _
    | succ n =>
      simp only [List.getD_cons_succ] at hc
      simp only [List.length_cons] at hlt
      have := ih n (by omega) hc
      simp only [setSlot, liveNames]
      split
      · exact (List.Perm.cons _ this).trans (List.Perm.swap _ _ _)
      · exact this

theorem nodup_AddClient (sv : Server) (clThr : ClientThread) (hl : clThr.completed = false)
    (hnew : clThr.client.m_name ∉ liveNames sv.m_clientThreads)
    (hnd : (liveNames sv.m_clientThreads).Nodup) :
    (liveNames (sv.AddClient clThr).m_clientThreads).Nodup := by
  unfold Server.AddClient
  cases hf : findSlot (fun cl => cl.completed) 0 sv.m_clientThreads with
  | none =>
    simp only [liveNames_append, liveNames, hl, if_true]
    rw [List.nodup_append]
    refine ⟨hnd, List.nodup_singleton _, ?_⟩
    intro a ha hb
    simp only [List.mem_singleton] at hb
    subst hb
    exact hnew ha
  | some ind =>
    obtain ⟨_, h2, h3⟩ := findSlot_some _ _ _ _ hf
    simp only [Nat.sub_zero] at h2 h3
    have hp := liveNames_setSlot_perm clThr ind sv.m_clientThreads h2 h3 hl
    exact (List.Perm.nodup_iff hp).mpr (List.nodup_cons.mpr ⟨hnew, hnd⟩)

theorem liveNames_rename (c : ServerClient) (ind : Nat) (threads : List ClientThread) :
    (∀ y ∈ liveNames (setSlotClient c ind threads), y = c.m_name ∨ y ∈ liveNames threads) ∧
    (c.m_name ∉ liveNames threads → (liveNames threads).Nodup →
      (liveNames (setSlotClient c ind threads)).Nodup) := by
  induction threads generalizing ind with
  | nil => cases ind <;> simp [setSlotClient, liveNames]
  | cons cl rest ih =>
    cases ind with
    | zero =>
      simp only [setSlotClient, liveNames]
      cases hc : cl.completed
      · simp only [if_true, List.mem_cons, List.nodup_cons]
        refine ⟨?_, ?_⟩
        · rintro y (h | h)
          · exact Or.inl h
          · exact Or.inr (Or.inr h)
        · intro hn hd
          exact ⟨fun h => hn (Or.inr h), hd.2⟩
      · simp only [Bool.true_eq_false, if_false]
        exact ⟨fun y h => Or.inr h, fun _ hd => hd⟩
    | succ n =>
      obtain ⟨ih1, ih2⟩ := ih n
      simp only [setSlotClient, liveNames]
      cases hc : cl.completed
      · simp only [if_true, List.mem_cons, List.nodup_cons]
        refine ⟨?_, ?_⟩
        · rintro y (h | h)
          · exact Or.inr (Or.inl h)
          · rcases ih1 y h with h2 | h2
            · exact Or.inl h2
            · exact Or.inr (Or.inr h2)
        · intro hn hd
          refine ⟨?_, ih2 (fun h => hn (Or.inr h)) hd.2⟩
          intro hmem
          rcases ih1 _ hmem with h2 | h2
          · exact hn (Or.inl h2.symm)
          · exact hd.1 h2
      · simp only [Bool.true_eq_false, if_false]
        exact ⟨ih1, ih2⟩

theorem liveNames_retireSlot (ind : Nat) (threads : List ClientThread) :
    (liveNames (retireSlot ind threads)).Sublist (liveNames threads) := by
  induction threads generalizing ind with
  | nil => cases ind <;> exact List.Sublist.refl _
  | cons cl rest ih =>
    cases ind with
    | zero =>
      simp only [retireSlot, liveNames, Bool.true_eq_false, if_false]
      split
      · exact List.sublist_cons_self _ _
      · exact List.Sublist.refl _
    | succ n =>
      simp only [retireSlot, liveNames]
      split
      · exact List.Sublist.cons₂ _ (ih n)
      · exact ih n

theorem SameNames_ReceiveData (alloc : Nat → Bool) (sv : Server) (client : ClientRef) :
    SameNames sv (sv.ReceiveData alloc client).2.2 := by
  unfold Server.ReceiveData
  simp only
  split
  · exact SameNames_setClient sv client _ rfl
  · split <;> exact SameNames_setClient sv client _ rfl

theorem ProcessClientConnect_names (alloc : Nat → Bool) (sv : Server) (r : Bool × Server)
    (h : sv.ProcessClientConnect alloc = some r) :
    liveNames r.2.m_clientThreads = liveNames sv.m_clientThreads ∧
      (r.1 = true → r.2.accepted.m_name ∉ liveNames sv.m_clientThreads) := by
  unfold Server.ProcessClientConnect at h
  simp only at h
  have h0 := SameNames_ReceiveData alloc sv ClientRef.accepted
  generalize sv.ReceiveData alloc ClientRef.accepted = rcv at h h0
  split at h
  · simp only [Option.some.injEq] at h
    subst h
    exact ⟨h0.1, fun hf => by simp at hf⟩
  cases hu : ClientMessage.Unserialize {} rcv.2.1 with
  | none => rw [hu] at h; simp at h
  | some msg =>
    rw [hu] at h
    simp only [Option.some_bind] at h
    split at h
    · simp only [Option.some.injEq] at h
      subst h
      exact ⟨h0.1, fun hf => by simp at hf⟩
    have h1 : liveNames (rcv.2.2.setClient ClientRef.accepted
        { rcv.2.2.client ClientRef.accepted with m_name := msg.from_ }).m_clientThreads =
        liveNames sv.m_clientThreads := h0.1
    generalize rcv.2.2.setClient ClientRef.accepted
      { rcv.2.2.client ClientRef.accepted with m_name := msg.from_ } = sv1 at h h1
    split at h
    · rename_i hex
      have hnot : (sv1.client ClientRef.accepted).m_name ∉ liveNames sv1.m_clientThreads := by
        intro hmem
        have := (IsClientNameExists_iff sv1 _).mpr hmem
        rw [this] at hex
        simp at hex
      have h2 := SameNames_MakeServerMessage sv1 msg
        ((sv1.client ClientRef.accepted).m_name ++ L " joined to the chat.")
      generalize sv1.MakeServerMessage msg
        ((sv1.client ClientRef.accepted).m_name ++ L " joined to the chat.") = made at h h2
      cases hb : made.2.ProcessBroadcastSend alloc made.1 (some ClientRef.accepted) with
      | none => rw [hb] at h; simp at h
      | some sent =>
        rw [hb] at h
        simp only [Option.some_bind] at h
        have h3 := SameNames_ProcessBroadcastSend alloc _ _ _ _ hb
        split at h
        · cases hl : sent.sv.ProcessClientsListRequest alloc sent.msg ClientRef.accepted with
          | none => rw [hl] at h; simp at h
          | some listed =>
            rw [hl] at h
            simp only [Option.map_some', Option.some.injEq] at h
            subst h
            have h4 := SameNames_ProcessClientsListRequest alloc _ _ _ _ hl
            have hall := (h2.trans h3).trans h4
            refine ⟨hall.1.trans h1, fun _ => ?_⟩
            simp only
            rw [hall.2, ← h1]
            exact hnot
        · simp only [Option.some.injEq] at h
          subst h
          exact ⟨(h2.trans h3).1.trans h1, fun hf => by simp at hf⟩
    · cases hn : sv1.ProcessNameAlreadyExists alloc { msg with msg := msg.from_ }
          ClientRef.accepted with
      | none => rw [hn] at h; simp at h
      | some hd =>
        rw [hn] at h
        simp only [Option.map_some', Option.some.injEq] at h
        subst h
        have h4 := SameNames_ProcessNameAlreadyExists alloc _ _ _ _ hn
        exact ⟨h4.1.trans h1, fun hf => by simp at hf⟩

theorem nodup_AcceptClient (alloc : Nat → Bool) (sv : Server) (newThread : Bool)
    (conn : Option Socket) (r : Bool × Server)
    (h : sv.AcceptClient alloc newThread conn = some r)
    (hnd : (liveNames sv.m_clientThreads).Nodup) :
    (liveNames r.2.m_clientThreads).Nodup := by
  unfold Server.AcceptClient at h
  split at h
  · simp only [Option.some.injEq] at h
    subst h
    exact hnd
  cases conn with
  | none =>
    simp only [Option.some.injEq] at h
    subst h
    exact hnd
  | some sock =>
    simp only at h
    cases hc : Server.ProcessClientConnect alloc
        { sv with accepted := { m_name := [], m_socket := sock } } with
    | none => rw [hc] at h; simp at h
    | some r1 =>
      rw [hc] at h
      simp only [Option.map_some', Option.some.injEq] at h
      obtain ⟨hn1, hn2⟩ := ProcessClientConnect_names alloc _ r1 hc
      simp only at hn1 hn2
      subst h
      split
      · rename_i hr
        simp only
        apply nodup_AddClient
        · rfl
        · simp only
          rw [hn1]
          exact hn2 hr
        · rw [hn1]; exact hnd
      · simp only
        rw [hn1]; exact hnd

theorem nodup_ProcessNameChange (alloc : Nat → Bool) (sv : Server) (msg : ClientMessage)
    (ind : Nat) (h : Handled)
    (hh : sv.ProcessNameChange alloc msg (ClientRef.slot ind) = some h)
    (hnd : (liveNames sv.m_clientThreads).Nodup) :
    (liveNames h.sv.m_clientThreads).Nodup := by
  unfold Server.ProcessNameChange at hh
  split at hh
  · rename_i hex
    have hnot : msg.msg ∉ liveNames sv.m_clientThreads := by
      intro hmem
      have := (IsClientNameExists_iff sv _).mpr hmem
      rw [this] at hex
      simp at hex
    simp only at hh
    have h1 : (liveNames (sv.setClient (ClientRef.slot ind)
        { sv.client (ClientRef.slot ind) with m_name := msg.msg }).m_clientThreads).Nodup :=
      (liveNames_rename { sv.client (ClientRef.slot ind) with m_name := msg.msg } ind
        sv.m_clientThreads).2 hnot hnd
    generalize sv.setClient (ClientRef.slot ind)
      { sv.client (ClientRef.slot ind) with m_name := msg.msg } = sv1 at hh h1
    have h2 := SameNames_MakeServerMessage sv1 msg
      ((sv.client (ClientRef.slot ind)).m_name ++ L " changed his name to " ++
        (sv1.client (ClientRef.slot ind)).m_name)
    have h3 := SameNames_ProcessBroadcastSend alloc _ _ _ _ hh
    rw [(h2.trans h3).1]
    exact h1
  · have := SameNames_ProcessNameAlreadyExists alloc _ _ _ _ hh
    rw [this.1]
    exact hnd

theorem nodup_ClientFunctionExit (alloc : Nat → Bool) (sv : Server) (ind : Nat)
    (clMsg : ClientMessage) (sv' : Server)
    (hh : sv.ClientFunctionExit alloc ind clMsg = some sv')
    (hnd : (liveNames sv.m_clientThreads).Nodup) :
    (liveNames sv'.m_clientThreads).Nodup := by
  unfold Server.ClientFunctionExit at hh
  simp only at hh
  have h2 := SameNames_MakeServerMessage sv clMsg
    ((sv.client (ClientRef.slot ind)).m_name ++ L " leaves the chat.")
  generalize sv.MakeServerMessage clMsg
    ((sv.client (ClientRef.slot ind)).m_name ++ L " leaves the chat.") = made at hh h2
  cases hb : made.2.ProcessBroadcastSend alloc made.1 (some (ClientRef.slot ind)) with
  | none => rw [hb] at hh; simp at hh
  | some sent =>
    rw [hb] at hh
    simp only [Option.map_some', Option.some.injEq] at hh
    subst hh
    have h3 := SameNames_ProcessBroadcastSend alloc _ _ _ _ hb
    simp only
    apply List.Sublist.nodup (liveNames_retireSlot ind _)
    rw [(h2.trans h3).1]
    exact hnd

theorem broadcastLoop_getElem? (wire : List Byte) (client : Option ClientRef) (start : Nat)
    (threads : List ClientThread) (i : Nat) :
    (broadcastLoop wire client start threads)[i]? =
      (threads[i]?).map (fun cl =>
        if client ≠ some (ClientRef.slot (start + i)) ∧ cl.completed = false then
          { cl with client := (cl.client.SendData wire).2 }
        else cl) := by
  induction threads generalizing start i with
  | nil => simp [broadcastLoop]
  | cons cl rest ih =>
    cases i with
    | zero => simp [broadcastLoop]
    | succ n =>
      simp only [broadcastLoop, List.getElem?_cons_succ]
      rw [ih (start + 1) n]
      have e : start + 1 + n = start + (n + 1) := by omega
      rw [e]


/-! ## Claims about the registry and the router -/

/-- C9 (registry name uniqueness): with the connect handshake followed by
installation, the rename handler and the retirement of a session each taken as
one atomic step, in every state reached from an empty registry no two slots
with `completed = false` hold the same name. -/
theorem registry_names_unique (alloc : Nat → Bool) (sv : Server)
    (h : Server.Reachable alloc sv) : (liveNames sv.m_clientThreads).Nodup := by
  induction h with
  | init sv h0 => rw [h0]; exact List.nodup_nil
  | step sv sv' _ hstep ih =>
    cases hstep with
    | connect newThread conn r hr => exact nodup_AcceptClient alloc sv newThread conn r hr ih
    | rename ind msg h hlt hh => exact nodup_ProcessNameChange alloc sv msg ind h hh ih
    | retire ind clMsg hlt hh =>
      exact nodup_ClientFunctionExit alloc sv ind clMsg sv' (by assumption) ih

set_option maxRecDepth 100000 in
/-- C9, witness: the state reached from the empty registry by the handshake of
"AB" on `sampleConnection` has the live names "AB" alone. -/
theorem registry_names_unique_witness :
    Server.Reachable (fun _ => true)
        ((Server.AcceptClient (fun _ => true) {} true (some sampleConnection)).getD
          (false, {})).2 ∧
      liveNames ((Server.AcceptClient (fun _ => true) {} true (some sampleConnection)).getD
          (false, {})).2.m_clientThreads = [[65, 66]] ∧
      (liveNames ((Server.AcceptClient (fun _ => true) {} true (some sampleConnection)).getD
          (false, {})).2.m_clientThreads).Nodup :=
  have hr : Server.Reachable (fun _ => true)
      ((Server.AcceptClient (fun _ => true) {} true (some sampleConnection)).getD
        (false, {})).2 :=
    Server.Reachable.step {} _ (Server.Reachable.init {} rfl)
      (Server.Step.connect {} true (some sampleConnection) _ (by decide))
  ⟨hr, by decide, registry_names_unique _ _ hr⟩

/-- C10 (broadcast inclusion): for every registry state and every
`BroadcastMessage` record with a non-empty sender and a non-empty text (what
the decoder accepts), whose fields fit a 32-bit byte count and whose buffer is
allocated, the broadcast handler called for the session of slot `A` returns
true, leaves the record, and changes the registry in one way only: every slot
that is not completed and is not `A` has had `SendData` called once on its
client with the layout table of the record, whatever that call or the calls
for the slots before it returned; slot `A` and the completed slots are as they
were. -/
theorem broadcast_inclusion (alloc : Nat → Bool) (sv : Server) (msg : ClientMessage) (A : Nat)
    (hcmd : msg.command = ClientCommand.BroadcastMessage)
    (hfrom : msg.from_ ≠ []) (hmsg : msg.msg ≠ [])
    (hfit : 12 + wsize msg.from_ + wsize msg.msg + wsize msg.pmTo < U32_MOD)
    (halloc : alloc msg.dataSize = true) :
    ∃ h, sv.ProcessBroadcastSend alloc msg (some (ClientRef.slot A)) = some h ∧
      h.ret = true ∧ h.msg = msg ∧
      h.sv.accepted = sv.accepted ∧ h.sv.clock = sv.clock ∧
      ∀ i, h.sv.m_clientThreads[i]? =
        (sv.m_clientThreads[i]?).map (fun cl =>
          if i ≠ A ∧ cl.completed = false then
            { cl with client := (cl.client.SendData (wireLayout msg)).2 }
          else cl) := by
  have hne : msg.command ≠ ClientCommand.Error := by rw [hcmd]; decide
  have hnp : ¬ msg.command = ClientCommand.PrivateMessage := by rw [hcmd]; decide
  have hser := Serialize_accepts alloc msg hne hfrom (fun h => absurd h hnp)
    (fun _ => hmsg) hfit halloc
  unfold Server.ProcessBroadcastSend
  rw [hser]
  simp only [Option.map_some']
  refine ⟨_, rfl, rfl, rfl, rfl, rfl, fun i => ?_⟩
  simp only
  rw [← wireLayout_length msg, List.take_left, broadcastLoop_getElem?]
  congr 1
  funext cl
  simp only [Nat.zero_add, ne_eq, Option.some.injEq, ClientRef.slot.injEq]
  by_cases hA : A = i
  · subst hA
    simp
  · have hA2 : ¬ i = A := fun h => hA h.symm
    simp only [hA, hA2, not_false_eq_true, true_and]

/-- C10, witness: in `sampleServer` the broadcast of "h" by the session of slot 0
("A") leaves slot 0 and the completed slot 2 as they were, and calls `SendData`
once on slot 1, whose send fails. -/
theorem broadcast_inclusion_witness :
    ∃ h, sampleServer.ProcessBroadcastSend (fun _ => true) sampleBroadcast
        (some (ClientRef.slot 0)) = some h ∧
      h.ret = true ∧
      h.sv.m_clientThreads[0]? = sampleServer.m_clientThreads[0]? ∧
      h.sv.m_clientThreads[2]? = sampleServer.m_clientThreads[2]? ∧
      h.sv.m_clientThreads[1]? = some { completed := false, client := { m_name := [66] } } := by
  obtain ⟨h, h1, h2, _, _, _, h6⟩ :=
    broadcast_inclusion (fun _ => true) sampleServer sampleBroadcast 0 rfl (by decide)
      (by decide) (by decide) rfl
  refine ⟨h, h1, h2, ?_, ?_, ?_⟩
  · rw [h6 0]; decide
  · rw [h6 2]; decide
  · rw [h6 1]; decide

/-! ## Lemmas about the handlers of the router -/

theorem setSlotClient_getElem? (c : ServerClient) (ind : Nat) (threads : List ClientThread)
    (i : Nat) :
    (setSlotClient c ind threads)[i]? =
      (threads[i]?).map (fun cl => if i = ind then { cl with client := c } else cl) := by
  induction threads generalizing ind i with
  | nil => cases ind <;> simp [setSlotClient]
  | cons cl rest ih =>
    cases ind with
    | zero =>
      cases i with
      | zero => simp [setSlotClient]
      | succ n => simp [setSlotClient]
    | succ m =>
      cases i with
      | zero => simp [setSlotClient]
      | succ n =>
        simp only [setSlotClient, List.getElem?_cons_succ, ih m n, Nat.succ.injEq, add_left_inj]

theorem SendData_getElem? (sv : Server) (A : Nat) (wire : List Byte) (i : Nat) :
    (sv.SendData (ClientRef.slot A) wire).2.m_clientThreads[i]? =
      (sv.m_clientThreads[i]?).map (fun cl =>
        if i = A then { cl with client := (cl.client.SendData wire).2 } else cl) := by
  simp only [Server.SendData, Server.setClient, Server.client, setSlotClient_getElem?]
  cases h : sv.m_clientThreads[i]? with
  | none => rfl
  | some cl =>
    simp only [Option.map_some', Option.some.injEq]
    by_cases hi : i = A
    · subst hi
      have : sv.m_clientThreads.getD i {} = cl := by
        rw [List.getD_eq_getElem?_getD, h]; rfl
      simp only [if_true, this]
    · simp only [hi, if_false]

theorem findSlot_none (p : ClientThread → Bool) (start : Nat) (threads : List ClientThread)
    (h : ∀ cl ∈ threads, p cl = false) : findSlot p start threads = none := by
  induction threads generalizing start with
  | nil => rfl
  | cons cl rest ih =>
    simp only [findSlot, h cl (List.mem_cons_self _ _), Bool.false_eq_true, if_false]
    exact ih _ (fun c hc => h c (List.mem_cons_of_mem _ hc))

theorem findSlot_first (p : ClientThread → Bool) (start : Nat) (threads : List ClientThread)
    (ind : Nat) (cl : ClientThread) (hcl : threads[ind]? = some cl) (hp : p cl = true)
    (hfirst : ∀ j c, j < ind → threads[j]? = some c → p c = false) :
    findSlot p start threads = some (start + ind) := by
  induction threads generalizing start ind with
  | nil => simp at hcl
  | cons c rest ih =>
    cases ind with
    | zero =>
      simp only [List.getElem?_cons_zero, Option.some.injEq] at hcl
      subst hcl
      simp [findSlot, hp]
    | succ n =>
      have h0 := hfirst 0 c (by omega) (by simp)
      simp only [findSlot, h0, Bool.false_eq_true, if_false]
      rw [ih (start + 1) n (by simpa using hcl)
        (fun j c' hj hc' => hfirst (j + 1) c' (by omega) (by simpa using hc'))]
      congr 1
      omega

theorem MakeServerMessage_eq (sv : Server) (msg : ClientMessage) (str : WString) :
    sv.MakeServerMessage msg str = (serverMessage sv.time.1 str, sv.time.2) := rfl

theorem wsize_L_Server : wsize (L "Server") = 14 := by decide

theorem Serialize_serverMessage (alloc : Nat → Bool) (t : U64) (str : WString)
    (hstr : str ≠ []) (hfit : 28 + wsize str < U32_MOD)
    (halloc : alloc (serverMessage t str).dataSize = true) :
    (serverMessage t str).Serialize alloc = some
      { data := some (wireLayout (serverMessage t str) ++
          List.replicate ((serverMessage t str).dataSize - wireSize (serverMessage t str)) 0),
        size := wireSize (serverMessage t str) } := by
  have hc : (serverMessage t str).command = ClientCommand.ServerMsg := rfl
  have hf : (serverMessage t str).from_ = L "Server" := rfl
  apply Serialize_accepts alloc _ (by rw [hc]; decide) (by rw [hf]; decide)
    (fun h => absurd h (by rw [hc]; decide)) (fun _ => hstr) _ halloc
  have : wsize (serverMessage t str).from_ = 14 := wsize_L_Server
  have h2 : wsize (serverMessage t str).pmTo = 2 := rfl
  have h3 : (serverMessage t str).msg = str := rfl
  rw [this, h2, h3]
  omega

/-- The tail shared by the handlers that answer one client: serialize the
record and send its first `size` chars to `client`. -/
theorem serialize_send_eq (alloc : Nat → Bool) (sv : Server) (m : ClientMessage)
    (client : ClientRef)
    (hser : m.Serialize alloc = some
      { data := some (wireLayout m ++ List.replicate (m.dataSize - wireSize m) 0),
        size := wireSize m }) :
    ((m.Serialize alloc).map fun s =>
      match s.data with
      | none => ({ ret := false, msg := m, sv := sv } : Handled)
      | some data =>
        { ret := (sv.SendData client (data.take s.size)).1, msg := m,
          sv := (sv.SendData client (data.take s.size)).2 }) =
      some { ret := (sv.SendData client (wireLayout m)).1, msg := m,
             sv := (sv.SendData client (wireLayout m)).2 } := by
  rw [hser]
  simp only [Option.map_some']
  rw [← wireLayout_length m, List.take_left]

/-! ## Claims about the handlers of the router and the connect handshake -/

theorem findSlot_pred_iff (name : WString) (cl : ClientThread) :
    (cl.client.m_name == name && !cl.completed) = true ↔ liveNamed name cl := by
  unfold liveNamed
  cases cl.completed <;> simp

theorem time_threads (sv : Server) : sv.time.2.m_clientThreads = sv.m_clientThreads := by
  unfold Server.time; split <;> rfl

theorem time_accepted (sv : Server) : sv.time.2.accepted = sv.accepted := by
  unfold Server.time; split <;> rfl

theorem time_clock (sv : Server) : sv.time.2.clock = sv.clock.tail := by
  unfold Server.time; split <;> simp_all

theorem SendData_slot_accepted (sv : Server) (A : Nat) (wire : List Byte) :
    (sv.SendData (ClientRef.slot A) wire).2.accepted = sv.accepted := rfl

theorem SendData_slot_clock (sv : Server) (A : Nat) (wire : List Byte) :
    (sv.SendData (ClientRef.slot A) wire).2.clock = sv.clock := rfl

/-- C11 (private routing): for every registry state and every `PrivateMessage`
record from the session of slot `A` with a non-empty sender, receiver and text,
whose fields fit a 32-bit byte count and whose buffers are allocated: if slot
`ind` is the first live slot named `pmTo`, the handler leaves the record, calls
`SendData` once, on the client of slot `ind` with the layout table of the
record, returns what that call returns and leaves every other slot as it was;
if no live slot is named `pmTo`, the handler makes the `ServerMsg` from
"Server" with the text "There is no user with name " followed by `pmTo`, calls
`SendData` once, on the client of slot `A` with the layout table of that reply,
and leaves every other slot as it was. -/
theorem private_routing (alloc : Nat → Bool) (sv : Server) (msg : ClientMessage) (A : Nat)
    (hcmd : msg.command = ClientCommand.PrivateMessage)
    (hfrom : msg.from_ ≠ []) (hpm : msg.pmTo ≠ []) (hmsg : msg.msg ≠ [])
    (hfit : 12 + wsize msg.from_ + wsize msg.msg + wsize msg.pmTo < U32_MOD)
    (halloc : alloc msg.dataSize = true) :
    (∀ (ind : Nat) (cl : ClientThread), sv.m_clientThreads[ind]? = some cl → liveNamed msg.pmTo cl →
      (∀ (j : Nat) (c : ClientThread), j < ind → sv.m_clientThreads[j]? = some c → ¬ liveNamed msg.pmTo c) →
      ∃ h, sv.ProcessPrivateSend alloc msg (ClientRef.slot A) = some h ∧
        h.ret = (cl.client.SendData (wireLayout msg)).1 ∧ h.msg = msg ∧
        h.sv.accepted = sv.accepted ∧ h.sv.clock = sv.clock ∧
        ∀ i, h.sv.m_clientThreads[i]? = (sv.m_clientThreads[i]?).map (fun c =>
          if i = ind then { c with client := (c.client.SendData (wireLayout msg)).2 }
          else c)) ∧
    ((∀ c ∈ sv.m_clientThreads, ¬ liveNamed msg.pmTo c) →
      28 + wsize (L "There is no user with name " ++ msg.pmTo) < U32_MOD →
      alloc (serverMessage sv.time.1
        (L "There is no user with name " ++ msg.pmTo)).dataSize = true →
      ∃ h, sv.ProcessPrivateSend alloc msg (ClientRef.slot A) = some h ∧
        h.msg = serverMessage sv.time.1 (L "There is no user with name " ++ msg.pmTo) ∧
        h.ret = ((sv.client (ClientRef.slot A)).SendData (wireLayout h.msg)).1 ∧
        h.sv.accepted = sv.accepted ∧ h.sv.clock = sv.clock.tail ∧
        ∀ i, h.sv.m_clientThreads[i]? = (sv.m_clientThreads[i]?).map (fun c =>
          if i = A then { c with client := (c.client.SendData (wireLayout h.msg)).2 }
          else c)) := by
  have hne : msg.command ≠ ClientCommand.Error := by rw [hcmd]; decide
  have hser := Serialize_accepts alloc msg hne hfrom (fun _ => hpm) (fun _ => hmsg) hfit halloc
  constructor
  · intro ind cl hcl hlive hfirst
    have hf := findSlot_first (fun cl => cl.client.m_name == msg.pmTo && !cl.completed) 0
      sv.m_clientThreads ind cl hcl ((findSlot_pred_iff _ _).mpr hlive)
      (fun j c hj hc => by
        have := hfirst j c hj hc
        rw [← findSlot_pred_iff] at this
        simpa using this)
    rw [Nat.zero_add] at hf
    unfold Server.ProcessPrivateSend
    rw [hser]
    simp only [Option.some_bind, hf]
    rw [← wireLayout_length msg, List.take_left]
    refine ⟨_, rfl, ?_, rfl, rfl, rfl, fun i => SendData_getElem? sv ind _ i⟩
    simp only [Server.SendData, Server.client, ServerClient.SendData]
    have : sv.m_clientThreads.getD ind {} = cl := by
      rw [List.getD_eq_getElem?_getD, hcl]; rfl
    rw [this]
  · intro hnone hfit2 halloc2
    have hf := findSlot_none (fun cl => cl.client.m_name == msg.pmTo && !cl.completed) 0
      sv.m_clientThreads (fun c hc => by
        have := hnone c hc
        rw [← findSlot_pred_iff] at this
        simpa using this)
    have hstr : L "There is no user with name " ++ msg.pmTo ≠ [] := by
      intro h
      exact hpm (List.append_eq_nil.mp h).2
    have hser2 := Serialize_serverMessage alloc sv.time.1 _ hstr hfit2 halloc2
    unfold Server.ProcessPrivateSend
    rw [hser]
    simp only [Option.some_bind, hf, MakeServerMessage_eq]
    rw [serialize_send_eq alloc _ _ _ hser2]
    refine ⟨_, rfl, rfl, ?_, ?_, ?_, fun i => ?_⟩
    · simp only [Server.SendData, Server.client, time_threads]
    · exact time_accepted sv
    · exact time_clock sv
    · simp only
      rw [SendData_getElem?, time_threads]

/-- C11, witness: in `sampleServer` the private message "h" from "A" to "B" is
handed to `SendData` on slot 1 alone (whose send fails, so the handler returns
false); the same message to "C", a name held by a completed slot only, is
answered to slot 0 with "There is no user with name C". -/
theorem private_routing_witness :
    (∃ h, sampleServer.ProcessPrivateSend (fun _ => true) samplePrivate (ClientRef.slot 0) =
        some h ∧ h.ret = false ∧ h.msg = samplePrivate ∧
        h.sv.m_clientThreads[0]? = sampleServer.m_clientThreads[0]? ∧
        h.sv.m_clientThreads[1]? =
          some { completed := false, client := { m_name := [66] } } ∧
        h.sv.m_clientThreads[2]? = sampleServer.m_clientThreads[2]?) ∧
    (∃ h, sampleServer.ProcessPrivateSend (fun _ => true) samplePrivateToC
        (ClientRef.slot 0) = some h ∧
        h.msg = serverMessage 0 (L "There is no user with name C") ∧ h.ret = true ∧
        h.sv.m_clientThreads[1]? = sampleServer.m_clientThreads[1]? ∧
        h.sv.m_clientThreads[2]? = sampleServer.m_clientThreads[2]?) := by
  constructor
  · obtain ⟨h, h1, h2, h3, _, _, h6⟩ :=
      (private_routing (fun _ => true) sampleServer samplePrivate 0 rfl (by decide)
        (by decide) (by decide) (by decide) rfl).1 1
        { completed := false,
          client := { m_name := [66], m_socket := { sendPlan := [SendEvent.error] } } }
        rfl (by decide) (fun j c hj hc => by
          have hj0 : j = 0 := by omega
          subst hj0
          have hc0 : c = { completed := false, client := { m_name := [65] } } := by
            simpa [sampleServer] using hc.symm
          rw [hc0]; decide)
    refine ⟨h, h1, ?_, h3, ?_, ?_, ?_⟩
    · rw [h2]; decide
    · rw [h6 0]; decide
    · rw [h6 1]; decide
    · rw [h6 2]; decide
  · obtain ⟨h, h1, h2, h3, _, _, h6⟩ :=
      (private_routing (fun _ => true) sampleServer samplePrivateToC 0 rfl
        (by decide) (by decide) (by decide) (by decide) rfl).2 (by decide) (by decide) rfl
    refine ⟨h, h1, h2, ?_, ?_, ?_⟩
    · rw [h3, h2]; decide
    · rw [h6 1]; rfl
    · rw [h6 2]; rfl

theorem listNames_eq (threads : List ClientThread) :
    listNames threads = ((liveNames threads).map (fun n => n ++ [10])).flatten := by
  induction threads with
  | nil => rfl
  | cons cl rest ih =>
    simp only [listNames, liveNames, ih]
    split <;> simp

theorem flatten_dropLast_eq_intercalate (names : List WString) (h : names ≠ []) :
    ((names.map (fun n => n ++ [10])).flatten).dropLast = List.intercalate [10] names := by
  induction names with
  | nil => exact absurd rfl h
  | cons n rest ih =>
    cases rest with
    | nil => simp [List.intercalate]
    | cons m rest2 =>
      have ih2 := ih (by simp)
      have hne : ((List.map (fun n => n ++ [10]) (m :: rest2)).flatten) ≠ [] := by simp
      rw [List.map_cons, List.flatten_cons, List.dropLast_append_of_ne_nil _ hne, ih2]
      simp [List.intercalate, List.intersperse]

/-- The text of the user list for a registry with a live slot. -/
theorem userList_text (threads : List ClientThread) (h : liveNames threads ≠ []) :
    (if (listNames threads).isEmpty then L "there are no active users"
      else (listNames threads).dropLast) = List.intercalate [10] (liveNames threads) := by
  have hne : listNames threads ≠ [] := by
    rw [listNames_eq]
    cases hl : liveNames threads with
    | nil => exact absurd hl h
    | cons n rest => simp
  rw [isEmpty_false_of_ne_nil _ hne]
  simp only [Bool.false_eq_true, if_false]
  rw [listNames_eq, flatten_dropLast_eq_intercalate _ h]

theorem ProcessClientsListRequest_eq (alloc : Nat → Bool) (sv : Server) (msg : ClientMessage)
    (client : ClientRef) (hlive : liveNames sv.m_clientThreads ≠ [])
    (hfit : 28 + wsize (L "Current active users:\n" ++
      List.intercalate [10] (liveNames sv.m_clientThreads)) < U32_MOD)
    (halloc : alloc (serverMessage sv.time.1 (L "Current active users:\n" ++
      List.intercalate [10] (liveNames sv.m_clientThreads))).dataSize = true) :
    ∃ h, sv.ProcessClientsListRequest alloc msg client = some h ∧
      h.msg = serverMessage sv.time.1 (L "Current active users:\n" ++
        List.intercalate [10] (liveNames sv.m_clientThreads)) ∧
      h.ret = (sv.time.2.SendData client (wireLayout h.msg)).1 ∧
      h.sv = (sv.time.2.SendData client (wireLayout h.msg)).2 := by
  have hstr : L "Current active users:\n" ++
      List.intercalate [10] (liveNames sv.m_clientThreads) ≠ [] := by
    intro h
    exact absurd (List.append_eq_nil.mp h).1 (by decide)
  have hser := Serialize_serverMessage alloc sv.time.1 _ hstr hfit halloc
  unfold Server.ProcessClientsListRequest
  simp only [userList_text _ hlive, MakeServerMessage_eq]
  rw [serialize_send_eq alloc _ _ _ hser]
  exact ⟨_, rfl, rfl, rfl, rfl⟩

/-- C16 (user list format): for every registry state with at least one live
slot and every record handed to the `ListClients` handler for the session of
slot `A`, when the reply fits a 32-bit byte count and its buffer is allocated,
the handler makes the `ServerMsg` from "Server" whose text is
"Current active users:\n" followed by the names of the live slots in slot order
joined by single newlines, calls `SendData` once, on the client of slot `A`
with the layout table of that reply, returns what that call returns and leaves
every other slot as it was. -/
theorem user_list_format (alloc : Nat → Bool) (sv : Server) (msg : ClientMessage) (A : Nat)
    (hlive : liveNames sv.m_clientThreads ≠ [])
    (hfit : 28 + wsize (L "Current active users:\n" ++
      List.intercalate [10] (liveNames sv.m_clientThreads)) < U32_MOD)
    (halloc : alloc (serverMessage sv.time.1 (L "Current active users:\n" ++
      List.intercalate [10] (liveNames sv.m_clientThreads))).dataSize = true) :
    ∃ h, sv.ProcessClientsListRequest alloc msg (ClientRef.slot A) = some h ∧
      h.msg = serverMessage sv.time.1 (L "Current active users:\n" ++
        List.intercalate [10] (liveNames sv.m_clientThreads)) ∧
      h.ret = ((sv.client (ClientRef.slot A)).SendData (wireLayout h.msg)).1 ∧
      h.sv.accepted = sv.accepted ∧ h.sv.clock = sv.clock.tail ∧
      ∀ i, h.sv.m_clientThreads[i]? = (sv.m_clientThreads[i]?).map (fun c =>
        if i = A then { c with client := (c.client.SendData (wireLayout h.msg)).2 }
        else c) := by
  obtain ⟨h, h1, h2, h3, h4⟩ := ProcessClientsListRequest_eq alloc sv msg (ClientRef.slot A)
    hlive hfit halloc
  refine ⟨h, h1, h2, ?_, ?_, ?_, fun i => ?_⟩
  · rw [h3]
    simp only [Server.SendData, Server.client, time_threads]
  · rw [h4]
    exact time_accepted sv
  · rw [h4]
    exact time_clock sv
  · rw [h4, SendData_getElem?, time_threads]

/-- C16, witness: with "Alice" the only live session, the `ListClients` request
of "Alice" is answered with the text "Current active users:\nAlice", sent to
the slot of "Alice". -/
theorem user_list_format_witness :
    ∃ h, sampleAlice.ProcessClientsListRequest (fun _ => true) sampleListClients
        (ClientRef.slot 0) = some h ∧
      h.msg = serverMessage 0 (L "Current active users:\nAlice") ∧ h.ret = true ∧
      h.sv.m_clientThreads[0]? = some { completed := false, client :=
        { m_name := L "Alice", m_socket := { sent := frameWrites (wireLayout h.msg) } } } := by
  obtain ⟨h, h1, h2, h3, _, _, h6⟩ :=
    user_list_format (fun _ => true) sampleAlice sampleListClients 0 (by decide) (by decide)
      rfl
  refine ⟨h, h1, h2, ?_, ?_⟩
  · rw [h3, h2]; decide
  · rw [h6 0, h2]; decide

theorem ProcessNameAlreadyExists_slot (alloc : Nat → Bool) (sv : Server) (msg : ClientMessage)
    (A : Nat)
    (hfit : 28 + wsize (L "ErrorNameAlreadyExists " ++ msg.msg ++ [32] ++
      (sv.client (ClientRef.slot A)).m_name) < U32_MOD)
    (halloc : alloc (serverMessage sv.time.1 (L "ErrorNameAlreadyExists " ++ msg.msg ++ [32] ++
      (sv.client (ClientRef.slot A)).m_name)).dataSize = true) :
    ∃ h, sv.ProcessNameAlreadyExists alloc msg (ClientRef.slot A) = some h ∧
      h.msg = serverMessage sv.time.1 (L "ErrorNameAlreadyExists " ++ msg.msg ++ [32] ++
        (sv.client (ClientRef.slot A)).m_name) ∧
      h.ret = ((sv.client (ClientRef.slot A)).SendData (wireLayout h.msg)).1 ∧
      h.sv.accepted = sv.accepted ∧ h.sv.clock = sv.clock.tail ∧
      ∀ i, h.sv.m_clientThreads[i]? = (sv.m_clientThreads[i]?).map (fun c =>
        if i = A then { c with client := (c.client.SendData (wireLayout h.msg)).2 }
        else c) := by
  have hstr : L "ErrorNameAlreadyExists " ++ msg.msg ++ [32] ++
      (sv.client (ClientRef.slot A)).m_name ≠ [] := by
    intro h
    simp only [List.append_assoc] at h
    exact absurd (List.append_eq_nil.mp h).1 (by decide)
  have hser := Serialize_serverMessage alloc sv.time.1 _ hstr hfit halloc
  unfold Server.ProcessNameAlreadyExists
  simp only [MakeServerMessage_eq]
  rw [serialize_send_eq alloc _ _ _ hser]
  refine ⟨_, rfl, rfl, ?_, ?_, ?_, fun i => ?_⟩
  · simp only [Server.SendData, Server.client, time_threads]
  · exact time_accepted sv
  · exact time_clock sv
  · simp only
    rw [SendData_getElem?, time_threads]

/-- C15 (rejected rename): for every registry state and every record handed to
the rename handler for the session of slot `A` whose `msg` is the name of a
live slot, when the reply fits a 32-bit byte count and its buffer is allocated,
the handler makes the `ServerMsg` from "Server" whose text is
"ErrorNameAlreadyExists " followed by `msg`, one space and the name of slot
`A`, calls `SendData` once, on the client of slot `A` with the layout table of
that reply, returns what that call returns, leaves every other slot as it was,
and leaves the name and the completed flag of every slot, `A` included, as
they were. -/
theorem rename_rejected (alloc : Nat → Bool) (sv : Server) (msg : ClientMessage) (A : Nat)
    (hX : msg.msg ∈ liveNames sv.m_clientThreads)
    (hfit : 28 + wsize (L "ErrorNameAlreadyExists " ++ msg.msg ++ [32] ++
      (sv.client (ClientRef.slot A)).m_name) < U32_MOD)
    (halloc : alloc (serverMessage sv.time.1 (L "ErrorNameAlreadyExists " ++ msg.msg ++ [32] ++
      (sv.client (ClientRef.slot A)).m_name)).dataSize = true) :
    ∃ h, sv.ProcessNameChange alloc msg (ClientRef.slot A) = some h ∧
      h.msg = serverMessage sv.time.1 (L "ErrorNameAlreadyExists " ++ msg.msg ++ [32] ++
        (sv.client (ClientRef.slot A)).m_name) ∧
      h.ret = ((sv.client (ClientRef.slot A)).SendData (wireLayout h.msg)).1 ∧
      h.sv.accepted = sv.accepted ∧
      (∀ i, h.sv.m_clientThreads[i]? = (sv.m_clientThreads[i]?).map (fun c =>
        if i = A then { c with client := (c.client.SendData (wireLayout h.msg)).2 }
        else c)) ∧
      (∀ i : Nat, (h.sv.m_clientThreads[i]?).map (fun c => (c.completed, c.client.m_name)) =
        (sv.m_clientThreads[i]?).map (fun c => (c.completed, c.client.m_name))) := by
  obtain ⟨h, h1, h2, h3, h4, _, h6⟩ := ProcessNameAlreadyExists_slot alloc sv msg A hfit halloc
  have hex := (IsClientNameExists_iff sv msg.msg).mpr hX
  refine ⟨h, ?_, h2, h3, h4, h6, fun i => ?_⟩
  · unfold Server.ProcessNameChange
    rw [hex]
    simpa using h1
  · rw [h6 i]
    cases sv.m_clientThreads[i]? with
    | none => rfl
    | some c =>
      simp only [Option.map_some', Option.some.injEq]
      split <;> rfl

/-- C15, witness: in `sampleServer` the request of slot 0 ("A") to take the
name "B", held by the live slot 1, is answered to slot 0 alone with
"ErrorNameAlreadyExists B A", and the live names stay "A" and "B". -/
theorem rename_rejected_witness :
    ∃ h, sampleServer.ProcessNameChange (fun _ => true) sampleRenameToB (ClientRef.slot 0) =
        some h ∧
      h.msg = serverMessage 0 (L "ErrorNameAlreadyExists B A") ∧ h.ret = true ∧
      h.sv.m_clientThreads[0]? = some { completed := false, client :=
        { m_name := [65], m_socket := { sent := frameWrites (wireLayout h.msg) } } } ∧
      h.sv.m_clientThreads[1]? = sampleServer.m_clientThreads[1]? ∧
      h.sv.m_clientThreads[2]? = sampleServer.m_clientThreads[2]? := by
  obtain ⟨h, h1, h2, h3, _, h5, _⟩ :=
    rename_rejected (fun _ => true) sampleServer sampleRenameToB 0 (by decide) (by decide) rfl
  refine ⟨h, h1, h2, ?_, ?_, ?_, ?_⟩
  · rw [h3, h2]; decide
  · rw [h5 0, h2]; decide
  · rw [h5 1]; rfl
  · rw [h5 2]; rfl

theorem ProcessNameAlreadyExists_eq (alloc : Nat → Bool) (sv : Server) (msg : ClientMessage)
    (client : ClientRef)
    (hfit : 28 + wsize (L "ErrorNameAlreadyExists " ++ msg.msg ++ [32] ++
      (sv.client client).m_name) < U32_MOD)
    (halloc : alloc (serverMessage sv.time.1 (L "ErrorNameAlreadyExists " ++ msg.msg ++ [32] ++
      (sv.client client).m_name)).dataSize = true) :
    sv.ProcessNameAlreadyExists alloc msg client = some
      { ret := (sv.time.2.SendData client (wireLayout (serverMessage sv.time.1
          (L "ErrorNameAlreadyExists " ++ msg.msg ++ [32] ++ (sv.client client).m_name)))).1,
        msg := serverMessage sv.time.1
          (L "ErrorNameAlreadyExists " ++ msg.msg ++ [32] ++ (sv.client client).m_name),
        sv := (sv.time.2.SendData client (wireLayout (serverMessage sv.time.1
          (L "ErrorNameAlreadyExists " ++ msg.msg ++ [32] ++ (sv.client client).m_name)))).2 } := by
  have hstr : L "ErrorNameAlreadyExists " ++ msg.msg ++ [32] ++ (sv.client client).m_name ≠ [] := by
    intro h
    simp only [List.append_assoc] at h
    exact absurd (List.append_eq_nil.mp h).1 (by decide)
  have hser := Serialize_serverMessage alloc sv.time.1 _ hstr hfit halloc
  unfold Server.ProcessNameAlreadyExists
  simp only [MakeServerMessage_eq]
  rw [serialize_send_eq alloc _ _ _ hser]

/-- Duplicate name on connect, for a connect record the decoder accepts: for
every registry state and every new connection on which `ReceiveData` returns a
non-empty body that decodes to a `ClientConnect` record whose `from` is the
name of a live slot, when the reply fits a 32-bit byte count and its buffer is
allocated, `AcceptClient` leaves the registry exactly as it was (the session is
not installed and no slot is sent anything), and what it did to the new
connection is this: the frame was received, and `SendData` was called once with
the layout table of the `ServerMsg` from "Server" whose text is
"ErrorNameAlreadyExists " followed by the attempted name, one space, and the
attempted name again. -/
theorem duplicate_name_on_connect (alloc : Nat → Bool) (sv : Server) (sock : Socket)
    (msg : ClientMessage)
    (hrecv : ((sv.holdAccepted sock).ReceiveData alloc ClientRef.accepted).1 = true)
    (hbody : ((sv.holdAccepted sock).ReceiveData alloc ClientRef.accepted).2.1 ≠ [])
    (hdec : ClientMessage.Unserialize {}
      ((sv.holdAccepted sock).ReceiveData alloc ClientRef.accepted).2.1 = some msg)
    (hcmd : msg.command = ClientCommand.ClientConnect)
    (hdup : msg.from_ ∈ liveNames sv.m_clientThreads)
    (hfit : 28 + wsize (L "ErrorNameAlreadyExists " ++ msg.from_ ++ [32] ++ msg.from_) < U32_MOD)
    (halloc : alloc (serverMessage sv.time.1
      (L "ErrorNameAlreadyExists " ++ msg.from_ ++ [32] ++ msg.from_)).dataSize = true) :
    ∃ r, sv.AcceptClient alloc true (some sock) = some r ∧
      r.2.m_clientThreads = sv.m_clientThreads ∧
      r.2.accepted = (ServerClient.SendData
        { m_name := msg.from_, m_socket := (RecvData alloc sock).2 }
        (wireLayout (serverMessage sv.time.1
          (L "ErrorNameAlreadyExists " ++ msg.from_ ++ [32] ++ msg.from_)))).2 := by
  unfold Server.holdAccepted at hrecv hbody hdec
  have hsv : (Server.ReceiveData alloc { sv with accepted := { m_name := [], m_socket := sock } }
      ClientRef.accepted).2.2 =
      { sv with accepted := { m_name := [], m_socket := (RecvData alloc sock).2 } } := by
    simp only [Server.ReceiveData, Server.client]
    split
    · rfl
    · split <;> rfl
  have hlen : ¬ (Server.ReceiveData alloc
      { sv with accepted := { m_name := [], m_socket := sock } }
      ClientRef.accepted).2.1.length = 0 := by
    intro h
    exact hbody (List.length_eq_zero.mp h)
  have hex : Server.IsClientNameExists
      { sv with accepted := { m_name := msg.from_, m_socket := (RecvData alloc sock).2 } }
      msg.from_ = true := (IsClientNameExists_iff _ _).mpr hdup
  have ht : (Server.time
      { sv with accepted := { m_name := msg.from_, m_socket := (RecvData alloc sock).2 } }).1 =
      sv.time.1 := by
    cases hc : sv.clock <;> simp [Server.time, hc]
  have hc2 : ¬ (msg.command ≠ ClientCommand.ClientConnect) := fun h => h hcmd
  have hp := ProcessNameAlreadyExists_eq alloc
    { sv with accepted := { m_name := msg.from_, m_socket := (RecvData alloc sock).2 } }
    { msg with msg := msg.from_ } ClientRef.accepted
    (by simp only [Server.client]; exact hfit)
    (by simp only [Server.client, ht]; exact halloc)
  simp only [Server.client, ht] at hp
  unfold Server.AcceptClient Server.ProcessClientConnect
  simp only [Bool.not_true, Bool.false_eq_true, if_false, hrecv, hlen, or_self, hdec,
    Option.some_bind, hc2, hsv, Server.setClient, Server.client, hex,
    hp, Option.map_some']
  refine ⟨_, rfl, ?_, ?_⟩
  · simp only [Server.SendData, Server.setClient, time_threads]
  · simp only [Server.SendData, Server.setClient, Server.client, time_accepted]

set_option maxRecDepth 100000 in
/-- Duplicate name on connect, witness: with "AB" live, the handshake on
`sampleConnection`, whose first record is the `ClientConnect` of "AB", leaves
the registry as it was and sends the joiner one frame, the `ServerMsg`
"ErrorNameAlreadyExists AB AB". -/
theorem duplicate_name_on_connect_witness :
    ∃ r, sampleServerAB.AcceptClient (fun _ => true) true (some sampleConnection) = some r ∧
      r.2.m_clientThreads = sampleServerAB.m_clientThreads ∧
      r.2.accepted.m_name = [65, 66] ∧
      r.2.accepted.m_socket.sent =
        frameWrites (wireLayout (serverMessage 0 (L "ErrorNameAlreadyExists AB AB"))) := by
  obtain ⟨r, h1, h2, h3⟩ :=
    duplicate_name_on_connect (fun _ => true) sampleServerAB sampleConnection
      { from_ := [65, 66], timeStamp := 5, command := ClientCommand.ClientConnect }
      (by decide) (by decide) (by decide) rfl (by decide) (by decide) rfl
  refine ⟨r, h1, h2, ?_, ?_⟩
  · rw [h3]; rfl
  · rw [h3]; decide

set_option maxRecDepth 100000 in
/-- C13 (duplicate name on connect), the failing run: the session "AB" renames
itself to "A", so that "A" is the name of a live session; a user who chose the
name "A" connects, and the connect record the client serialises has 16 chars.
The server receives the frame, the decoder rejects the 16 chars
(`size <= MIN_MSG_SIZE`) and leaves the command `Error`, and
`ProcessClientConnect` returns before the test of the name: the session is not
installed and the registry is as it was, but the joiner is sent nothing, where
the claim has it sent the `ServerMsg` "ErrorNameAlreadyExists A A". -/
theorem one_unit_duplicate_name_unanswered :
    (sampleConnectA.Serialize (fun _ => true)).map (fun s => (s.size, s.data.map (List.take 16))) =
      some (16, some (wireLayout sampleConnectA)) ∧
    (ClientMessage.Unserialize {} (wireLayout sampleConnectA)).map (fun r => r.command) =
      some ClientCommand.Error ∧
    (sampleServerAB.ProcessNameChange (fun _ => true) sampleRenameABtoA (ClientRef.slot 0)).bind
        (fun h => (h.sv.AcceptClient (fun _ => true) true (some sampleConnectionA)).map
          (fun r => (liveNames h.sv.m_clientThreads, liveNames r.2.m_clientThreads))) =
      some ([[65]], [[65]]) ∧
    (sampleServerAB.ProcessNameChange (fun _ => true) sampleRenameABtoA (ClientRef.slot 0)).bind
        (fun h => (h.sv.AcceptClient (fun _ => true) true (some sampleConnectionA)).map
          (fun r => decide (r.2.m_clientThreads = h.sv.m_clientThreads))) = some true ∧
    (sampleServerAB.ProcessNameChange (fun _ => true) sampleRenameABtoA (ClientRef.slot 0)).bind
        (fun h => (h.sv.AcceptClient (fun _ => true) true (some sampleConnectionA)).map
          (fun r => r.2.accepted.m_socket)) = some {} := by
  refine ⟨by decide, by decide, by decide, by decide, by decide⟩

theorem liveNames_setSlotClient_live (c : ServerClient) (A : Nat) (threads : List ClientThread)
    (cA : ClientThread) (hA : threads[A]? = some cA) (hl : cA.completed = false) :
    ∃ pre post, liveNames threads = pre ++ cA.client.m_name :: post ∧
      liveNames (setSlotClient c A threads) = pre ++ c.m_name :: post := by
  induction threads generalizing A with
  | nil => simp at hA
  | cons cl rest ih =>
    cases A with
    | zero =>
      simp only [List.getElem?_cons_zero, Option.some.injEq] at hA
      subst hA
      exact ⟨[], liveNames rest, by simp [liveNames, hl], by simp [setSlotClient, liveNames, hl]⟩
    | succ n =>
      obtain ⟨pre, post, h1, h2⟩ := ih n (by simpa using hA)
      by_cases hc : cl.completed = false
      · exact ⟨cl.client.m_name :: pre, post, by simp [liveNames, hc, h1],
          by simp [setSlotClient, liveNames, hc, h2]⟩
      · exact ⟨pre, post, by simp [liveNames, hc, h1], by simp [setSlotClient, liveNames, hc, h2]⟩

theorem getD_of_getElem? (threads : List ClientThread) (A : Nat) (cA : ClientThread)
    (hA : threads[A]? = some cA) : threads.getD A {} = cA := by
  rw [List.getD_eq_getElem?_getD, hA]; rfl

theorem ProcessBroadcastSend_all (alloc : Nat → Bool) (sv : Server) (m : ClientMessage)
    (client : Option ClientRef)
    (hser : m.Serialize alloc = some
      { data := some (wireLayout m ++ List.replicate (m.dataSize - wireSize m) 0),
        size := wireSize m }) :
    ∃ h, sv.ProcessBroadcastSend alloc m client = some h ∧ h.ret = true ∧ h.msg = m ∧
      h.sv.accepted = sv.accepted ∧ h.sv.clock = sv.clock ∧
      h.sv.m_clientThreads = broadcastLoop (wireLayout m) client 0 sv.m_clientThreads := by
  unfold Server.ProcessBroadcastSend
  rw [hser]
  simp only [Option.map_some']
  rw [← wireLayout_length m, List.take_left]
  exact ⟨_, rfl, rfl, rfl, rfl, rfl, rfl⟩

/-- C14 (successful rename): for every registry state whose live names are
pairwise distinct, and every record handed to the rename handler for the live
session of slot `A` whose `msg` is not the name of a live slot, when the notice
fits a 32-bit byte count and its buffer is allocated, the handler returns true,
makes the `ServerMsg` from "Server" whose text is the old name of `A` followed
by " changed his name to " and `msg`, and changes the registry in this way
only: slot `A` holds the name `msg`, and every live slot, `A` included, has had
`SendData` called once on its client with the layout table of the notice. The
live names afterwards contain `msg` and not the old name, and a `ListClients`
request handled afterwards for any slot `B` is answered with the text
"Current active users:\n" followed by these live names joined by newlines. -/
theorem rename_succeeds (alloc : Nat → Bool) (sv : Server) (msg : ClientMessage) (A : Nat)
    (cA : ClientThread)
    (hA : sv.m_clientThreads[A]? = some cA) (hlive : cA.completed = false)
    (hX : msg.msg ∉ liveNames sv.m_clientThreads)
    (hnd : (liveNames sv.m_clientThreads).Nodup)
    (hfit : 28 + wsize (cA.client.m_name ++ L " changed his name to " ++ msg.msg) < U32_MOD)
    (halloc : alloc (serverMessage sv.time.1
      (cA.client.m_name ++ L " changed his name to " ++ msg.msg)).dataSize = true) :
    ∃ h, sv.ProcessNameChange alloc msg (ClientRef.slot A) = some h ∧ h.ret = true ∧
      h.msg = serverMessage sv.time.1
        (cA.client.m_name ++ L " changed his name to " ++ msg.msg) ∧
      h.sv.accepted = sv.accepted ∧
      (∀ i : Nat, h.sv.m_clientThreads[i]? = (sv.m_clientThreads[i]?).map
        (fun (c : ClientThread) =>
        if c.completed = false then
          { c with client := (ServerClient.SendData
              { c.client with m_name := if i = A then msg.msg else c.client.m_name }
              (wireLayout h.msg)).2 }
        else c)) ∧
      msg.msg ∈ liveNames h.sv.m_clientThreads ∧
      cA.client.m_name ∉ liveNames h.sv.m_clientThreads ∧
      ∀ (msg2 : ClientMessage) (B : Nat),
        28 + wsize (L "Current active users:\n" ++
          List.intercalate [10] (liveNames h.sv.m_clientThreads)) < U32_MOD →
        alloc (serverMessage h.sv.time.1 (L "Current active users:\n" ++
          List.intercalate [10] (liveNames h.sv.m_clientThreads))).dataSize = true →
        ∃ h2, h.sv.ProcessClientsListRequest alloc msg2 (ClientRef.slot B) = some h2 ∧
          h2.msg = serverMessage h.sv.time.1 (L "Current active users:\n" ++
            List.intercalate [10] (liveNames h.sv.m_clientThreads)) := by
  have hex : sv.IsClientNameExists msg.msg = false := by
    cases h : sv.IsClientNameExists msg.msg
    · rfl
    · exact absurd ((IsClientNameExists_iff sv _).mp h) hX
  have hcl : (sv.client (ClientRef.slot A)) = cA.client := by
    simp only [Server.client, getD_of_getElem? _ _ _ hA]
  have hcl2 : ((sv.setClient (ClientRef.slot A) { cA.client with m_name := msg.msg }).client
      (ClientRef.slot A)).m_name = msg.msg := by
    simp only [Server.client, Server.setClient, List.getD_eq_getElem?_getD,
      setSlotClient_getElem?, hA, Option.map_some', if_true, Option.getD_some]
  have ht : (sv.setClient (ClientRef.slot A) { cA.client with m_name := msg.msg }).time.1 =
      sv.time.1 := by
    cases hc : sv.clock <;> simp [Server.time, Server.setClient, hc]
  have hstr : cA.client.m_name ++ L " changed his name to " ++ msg.msg ≠ [] := by
    intro h
    simp only [List.append_assoc] at h
    exact absurd (List.append_eq_nil.mp (List.append_eq_nil.mp h).2).1 (by decide)
  have hser := Serialize_serverMessage alloc sv.time.1 _ hstr hfit halloc
  obtain ⟨pre, post, hl1, hl2⟩ := liveNames_setSlotClient_live
    { cA.client with m_name := msg.msg } A sv.m_clientThreads cA hA hlive
  have hold : cA.client.m_name ∈ liveNames sv.m_clientThreads := by
    rw [hl1]; simp
  have hne : cA.client.m_name ≠ msg.msg := fun h => hX (h ▸ hold)
  rw [hl1] at hnd
  have hnames : liveNames (broadcastLoop (wireLayout (serverMessage sv.time.1
      (cA.client.m_name ++ L " changed his name to " ++ msg.msg))) none 0
      (setSlotClient { cA.client with m_name := msg.msg } A sv.m_clientThreads)) =
      pre ++ msg.msg :: post := by
    rw [liveNames_broadcastLoop, hl2]
  obtain ⟨h, hb1, hb2, hb3, hb4, _, hb6⟩ := ProcessBroadcastSend_all alloc
    (sv.setClient (ClientRef.slot A) { cA.client with m_name := msg.msg }).time.2 _ none hser
  rw [time_threads] at hb6
  rw [time_accepted] at hb4
  simp only [Server.setClient] at hb4 hb6
  have hres : sv.ProcessNameChange alloc msg (ClientRef.slot A) = some h := by
    unfold Server.ProcessNameChange
    simp only [hex, Bool.not_false, if_true, hcl, hcl2, MakeServerMessage_eq, ht]
    exact hb1
  rw [← hb6] at hnames
  refine ⟨h, hres, hb2, hb3, hb4, fun i => ?_, ?_, ?_, fun msg2 B hfit2 halloc2 => ?_⟩
  · rw [hb6, hb3, broadcastLoop_getElem?, setSlotClient_getElem?]
    cases hci : sv.m_clientThreads[i]? with
    | none => rfl
    | some c =>
      simp only [Option.map_some', Option.some.injEq, ne_eq, not_false_eq_true, true_and,
        reduceCtorEq]
      by_cases hi : i = A
      · have hc : c = cA := by
          rw [hi, hA] at hci
          exact (Option.some.inj hci).symm
        simp only [hi, if_true, hc]
        split <;> rfl
      · simp only [hi, if_false]
  · rw [hnames]; simp
  · rw [hnames]
    intro hmem
    have hnd2 := List.nodup_append.mp hnd
    rcases List.mem_append.mp hmem with h | h
    · exact hnd2.2.2 h (List.mem_cons_self _ _)
    · rcases List.mem_cons.mp h with h | h
      · exact hne h
      · exact (List.nodup_cons.mp hnd2.2.1).1 h
  · have hl : liveNames h.sv.m_clientThreads ≠ [] := by
      rw [hnames]; simp
    obtain ⟨h2, e1, e2, _⟩ := ProcessClientsListRequest_eq alloc _ msg2 (ClientRef.slot B) hl
      hfit2 halloc2
    exact ⟨h2, e1, e2⟩

/-- C14, witness: in `sampleServer` the request of slot 0 ("A") to take the
name "D" succeeds: "A changed his name to D" is handed to `SendData` on the live
slots 0 and 1, the completed slot 2 is as it was, and the live names are then
"D" and "B". -/
theorem rename_succeeds_witness :
    ∃ h, sampleServer.ProcessNameChange (fun _ => true) sampleRenameToD (ClientRef.slot 0) =
        some h ∧ h.ret = true ∧
      h.msg = serverMessage 0 (L "A changed his name to D") ∧
      h.sv.m_clientThreads[0]? = some { completed := false, client :=
        { m_name := [68], m_socket := { sent := frameWrites (wireLayout h.msg) } } } ∧
      h.sv.m_clientThreads[1]? = some { completed := false, client := { m_name := [66] } } ∧
      h.sv.m_clientThreads[2]? = sampleServer.m_clientThreads[2]? ∧
      liveNames h.sv.m_clientThreads = [[68], [66]] := by
  obtain ⟨h, h1, h2, h3, _, h5, _, _, _⟩ :=
    rename_succeeds (fun _ => true) sampleServer sampleRenameToD 0
      { completed := false, client := { m_name := [65] } } rfl rfl (by decide) (by decide)
      (by decide) rfl
  have e0 := h5 0
  have e1 := h5 1
  have e2 := h5 2
  rw [h3] at e0 e1 e2
  refine ⟨h, h1, h2, h3, ?_, ?_, ?_, ?_⟩
  · rw [e0, h3]; decide
  · rw [e1]; decide
  · rw [e2]; decide
  · have hl : h.sv.m_clientThreads = [
        { completed := false, client := { m_name := [68], m_socket :=
            { sent := frameWrites (wireLayout (serverMessage 0 (L "A changed his name to D"))) } } },
        { completed := false, client := { m_name := [66] } },
        { completed := true, client := { m_name := [67] } }] := by
      apply List.ext_getElem?
      intro i
      rw [h5 i, h3]
      match i with
      | 0 => decide
      | 1 => decide
      | 2 => decide
      | (n + 3) => rfl
    rw [hl]; decide

theorem time_fst_congr (a b : Server) (h : a.clock = b.clock) : a.time.1 = b.time.1 := by
  unfold Server.time
  rw [h]
  cases b.clock <;> rfl

theorem userList_text_gen (threads : List ClientThread) :
    (if (listNames threads).isEmpty then L "there are no active users"
      else (listNames threads).dropLast) = userListText threads := by
  unfold userListText
  by_cases h : liveNames threads = []
  · have : listNames threads = [] := by rw [listNames_eq, h]; rfl
    rw [this, if_pos h]; rfl
  · rw [userList_text _ h, if_neg h]

theorem ProcessClientsListRequest_gen (alloc : Nat → Bool) (sv : Server) (msg : ClientMessage)
    (client : ClientRef)
    (hfit : 28 + wsize (L "Current active users:\n" ++ userListText sv.m_clientThreads) <
      U32_MOD)
    (halloc : alloc (serverMessage sv.time.1
      (L "Current active users:\n" ++ userListText sv.m_clientThreads)).dataSize = true) :
    ∃ h, sv.ProcessClientsListRequest alloc msg client = some h ∧
      h.msg = serverMessage sv.time.1
        (L "Current active users:\n" ++ userListText sv.m_clientThreads) ∧
      h.ret = (sv.time.2.SendData client (wireLayout h.msg)).1 ∧
      h.sv = (sv.time.2.SendData client (wireLayout h.msg)).2 := by
  have hstr : L "Current active users:\n" ++ userListText sv.m_clientThreads ≠ [] := by
    intro h
    exact absurd (List.append_eq_nil.mp h).1 (by decide)
  have hser := Serialize_serverMessage alloc sv.time.1 _ hstr hfit halloc
  unfold Server.ProcessClientsListRequest
  simp only [userList_text_gen, MakeServerMessage_eq]
  rw [serialize_send_eq alloc _ _ _ hser]
  exact ⟨_, rfl, rfl, rfl, rfl⟩

/-- C12 (joiner's user list), as the code has it: for every registry state and
every new connection on which `ReceiveData` returns a non-empty body that
decodes to a `ClientConnect` record whose `from` is not the name of a live
slot, when the join notice and the user list fit a 32-bit byte count and their
buffers are allocated, the one thing `AcceptClient` sends to the joiner is the
`ServerMsg` whose text is "Current active users:\n" followed by the names of
the slots that were live before the handshake, joined by newlines (or by
"there are no active users" when none was live): the list is made from the
registry as it is before the joiner is installed, and the joiner's name is not
among the names listed. -/
theorem joiner_user_list (alloc : Nat → Bool) (sv : Server) (sock : Socket)
    (msg : ClientMessage)
    (hrecv : ((sv.holdAccepted sock).ReceiveData alloc ClientRef.accepted).1 = true)
    (hbody : ((sv.holdAccepted sock).ReceiveData alloc ClientRef.accepted).2.1 ≠ [])
    (hdec : ClientMessage.Unserialize {}
      ((sv.holdAccepted sock).ReceiveData alloc ClientRef.accepted).2.1 = some msg)
    (hcmd : msg.command = ClientCommand.ClientConnect)
    (hnew : msg.from_ ∉ liveNames sv.m_clientThreads)
    (hfit1 : 28 + wsize (msg.from_ ++ L " joined to the chat.") < U32_MOD)
    (halloc1 : alloc (serverMessage sv.time.1
      (msg.from_ ++ L " joined to the chat.")).dataSize = true)
    (hfit2 : 28 + wsize (L "Current active users:\n" ++ userListText sv.m_clientThreads) <
      U32_MOD)
    (halloc2 : alloc (serverMessage sv.time.2.time.1
      (L "Current active users:\n" ++ userListText sv.m_clientThreads)).dataSize = true) :
    ∃ r, sv.AcceptClient alloc true (some sock) = some r ∧
      r.2.accepted = (ServerClient.SendData
        { m_name := msg.from_, m_socket := (RecvData alloc sock).2 }
        (wireLayout (serverMessage sv.time.2.time.1
          (L "Current active users:\n" ++ userListText sv.m_clientThreads)))).2 ∧
      msg.from_ ∉ liveNames sv.m_clientThreads := by
  unfold Server.holdAccepted at hrecv hbody hdec
  have hsv : (Server.ReceiveData alloc { sv with accepted := { m_name := [], m_socket := sock } }
      ClientRef.accepted).2.2 =
      { sv with accepted := { m_name := [], m_socket := (RecvData alloc sock).2 } } := by
    simp only [Server.ReceiveData, Server.client]
    split
    · rfl
    · split <;> rfl
  have hlen : ¬ (Server.ReceiveData alloc
      { sv with accepted := { m_name := [], m_socket := sock } }
      ClientRef.accepted).2.1.length = 0 := by
    intro h
    exact hbody (List.length_eq_zero.mp h)
  have hex : Server.IsClientNameExists
      { sv with accepted := { m_name := msg.from_, m_socket := (RecvData alloc sock).2 } }
      msg.from_ = false := by
    cases h : Server.IsClientNameExists
      { sv with accepted := { m_name := msg.from_, m_socket := (RecvData alloc sock).2 } }
      msg.from_
    · rfl
    · exact absurd ((IsClientNameExists_iff _ _).mp h) hnew
  have hc2 : ¬ (msg.command ≠ ClientCommand.ClientConnect) := fun h => h hcmd
  generalize hsv1 : ({ sv with accepted :=
    { m_name := msg.from_, m_socket := (RecvData alloc sock).2 } } : Server) = sv1 at hex
  have ht1 : sv1.time.1 = sv.time.1 := time_fst_congr _ _ (by rw [← hsv1])
  have ht2 : sv1.time.2.time.1 = sv.time.2.time.1 :=
    time_fst_congr _ _ (by rw [time_clock, time_clock, ← hsv1])
  have hth1 : sv1.m_clientThreads = sv.m_clientThreads := by rw [← hsv1]
  have hacc1 : sv1.accepted = { m_name := msg.from_, m_socket := (RecvData alloc sock).2 } := by
    rw [← hsv1]
  have hstr : msg.from_ ++ L " joined to the chat." ≠ [] := by
    intro h
    exact absurd (List.append_eq_nil.mp h).2 (by decide)
  have hser := Serialize_serverMessage alloc sv.time.1 _ hstr hfit1 halloc1
  obtain ⟨h, hb1, hb2, hb3, hb4, hb5, hb6⟩ := ProcessBroadcastSend_all alloc sv1.time.2 _
    (some ClientRef.accepted) hser
  have hlv : liveNames h.sv.m_clientThreads = liveNames sv.m_clientThreads := by
    rw [hb6, liveNames_broadcastLoop, time_threads, hth1]
  have hult : userListText h.sv.m_clientThreads = userListText sv.m_clientThreads := by
    unfold userListText; rw [hlv]
  have hht : h.sv.time.1 = sv.time.2.time.1 := by
    rw [← ht2]
    exact time_fst_congr _ _ hb5
  obtain ⟨h2, hl1, hl2, hl3, hl4⟩ := ProcessClientsListRequest_gen alloc h.sv h.msg
    ClientRef.accepted (by rw [hult]; exact hfit2) (by rw [hult, hht]; exact halloc2)
  rw [hult, hht] at hl2
  have hacc : h2.sv.accepted = (ServerClient.SendData
        { m_name := msg.from_, m_socket := (RecvData alloc sock).2 }
        (wireLayout (serverMessage sv.time.2.time.1
          (L "Current active users:\n" ++ userListText sv.m_clientThreads)))).2 := by
    rw [hl4, hl2]
    simp only [Server.SendData, Server.setClient, Server.client, time_accepted, hb4, hacc1]
  unfold Server.AcceptClient Server.ProcessClientConnect
  simp only [Bool.not_true, Bool.false_eq_true, if_false, hrecv, hlen, or_self, hdec,
    Option.some_bind, hc2, hsv, Server.setClient, Server.client, hsv1, hex, Bool.not_false,
    if_true, MakeServerMessage_eq, hacc1, ht1, hb1, hb2, hl1, Option.map_some']
  refine ⟨_, rfl, ?_, hnew⟩
  split
  · simp only [Server.AddClient]
    split <;> exact hacc
  · exact hacc

set_option maxRecDepth 100000 in
/-- C12, witness: "Bob" joins on `sampleBobConnection` while "Alice" is the only
live session; the one frame sent to him is the `ServerMsg`
"Current active users:\nAlice". -/
theorem joiner_user_list_witness :
    ∃ r, sampleAlice.AcceptClient (fun _ => true) true (some sampleBobConnection) = some r ∧
      r.2.accepted.m_name = L "Bob" ∧
      r.2.accepted.m_socket.sent =
        frameWrites (wireLayout (serverMessage 0 (L "Current active users:\nAlice"))) := by
  obtain ⟨r, h1, h2, _⟩ :=
    joiner_user_list (fun _ => true) sampleAlice sampleBobConnection sampleBobConnect
      (by decide) (by decide) (by decide) rfl (by decide) (by decide) rfl (by decide) rfl
  refine ⟨r, h1, ?_, ?_⟩
  · rw [h2]; rfl
  · rw [h2]; decide

set_option maxRecDepth 100000 in
/-- C12, counterexample: "Bob" completes the connect handshake on
`sampleBobConnection` while "Alice" is the only live session. "Bob" is
installed (the live names are then "Alice" and "Bob", and the new slot holds
the connection), "Alice" is sent the join notice, and the one frame sent to
"Bob" is the user list with the text "Current active users:\nAlice", which
does not contain the name "Bob". -/
theorem joiner_list_omits_joiner :
    (sampleAlice.AcceptClient (fun _ => true) true (some sampleBobConnection)).map
        (fun r => (liveNames r.2.m_clientThreads,
          r.2.m_clientThreads.map (fun c => c.client.m_socket.sent),
          r.2.accepted.m_socket.sent)) =
      some ([L "Alice", L "Bob"],
        [frameWrites (wireLayout (serverMessage 0 (L "Bob joined to the chat."))),
          frameWrites (wireLayout (serverMessage 0 (L "Current active users:\nAlice")))],
        frameWrites (wireLayout (serverMessage 0 (L "Current active users:\nAlice")))) ∧
    ¬ (L "Bob" <:+: L "Current active users:\nAlice") := by
  constructor
  · decide
  · decide

/-! ## The client: lemmas and claims about the input stream, the parser and the input loop -/

theorem extract_word_space (wide : WChar → Bool) (pre word tail : WString) (sp : WChar)
    (str : WString) (hpre : ∀ c ∈ pre, isspace wide c = true) (hw : word ≠ [])
    (hword : ∀ c ∈ word, isspace wide c = false) (hsp : isspace wide sp = true) :
    IStream.extract wide { rest := pre ++ word ++ sp :: tail } str =
      (word, { rest := sp :: tail }) := by
  obtain ⟨a, w, rfl⟩ := List.exists_cons_of_ne_nil hw
  have ha : isspace wide a = false := hword a (List.mem_cons_self _ _)
  have hnot : ∀ c ∈ a :: w, (!isspace wide c) = true := by
    intro c hc; rw [hword c hc]; rfl
  have h1 : List.dropWhile (isspace wide) (pre ++ (a :: w) ++ sp :: tail) =
      (a :: w) ++ sp :: tail := by
    rw [List.append_assoc, List.dropWhile_append_of_pos hpre, List.cons_append,
      List.dropWhile_cons_of_neg (by rw [ha]; decide)]
  have h2 : List.takeWhile (fun c => !isspace wide c) ((a :: w) ++ sp :: tail) = a :: w := by
    rw [List.takeWhile_append_of_pos hnot, List.takeWhile_cons_of_neg (by rw [hsp]; decide),
      List.append_nil]
  have h3 : List.dropWhile (fun c => !isspace wide c) ((a :: w) ++ sp :: tail) = sp :: tail := by
    rw [List.dropWhile_append_of_pos hnot, List.dropWhile_cons_of_neg (by rw [hsp]; decide)]
  unfold IStream.extract
  simp only [IStream.good, Bool.not_false, Bool.and_self, Bool.not_true, Bool.false_eq_true,
    if_false, h1, h2, h3]
  rfl

theorem getline_to_end (line str : WString) (hn : ∀ c ∈ line, c ≠ 10) :
    (IStream.getline { rest := line } str).1 = line := by
  have hall : ∀ c ∈ line, (c != 10) = true := by
    intro c hc; simpa using hn c hc
  have h1 : List.takeWhile (fun c => c != 10) line = line := by
    have := @List.takeWhile_append_of_pos _ _ line [] hall
    simpa using this
  have h2 : List.dropWhile (fun c => c != 10) line = [] := by
    have := @List.dropWhile_append_of_pos _ _ line [] hall
    simpa using this
  unfold IStream.getline
  simp only [IStream.good, Bool.not_false, Bool.and_self, Bool.not_true, Bool.false_eq_true,
    if_false, h1, h2]

theorem isspace_slash_pm (wide : WChar → Bool) : ∀ c ∈ L "/pm", isspace wide c = false := by
  intro c hc
  have : c = 47 ∨ c = 112 ∨ c = 109 := by
    simpa [L, toWChar] using hc
  rcases this with h | h | h <;> subst h <;> rfl

theorem isspace_space (wide : WChar → Bool) : isspace wide 32 = true := rfl

/-- C17 (private-message input): for every classification of the code units
above ASCII, every input line made of "/pm", a non-empty run of whitespace
`ws`, a non-empty whitespace-free token `T`, one space, and a non-empty
remainder `R` without a newline, `ParseInputLine` returns true and leaves the
record with command `PrivateMessage`, `pmTo = T`, `msg = R` and the time stamp
of the call; `from` is as it was. -/
theorem pm_input_parsed (wide : WChar → Bool) (t : U64) (msg : ClientMessage)
    (ws T R : WString)
    (hws : ws ≠ []) (hwsp : ws.all (isspace wide) = true)
    (hT : T ≠ []) (hTsp : T.all (fun c => !isspace wide c) = true)
    (hR : R ≠ []) (hRnl : R.all (fun c => c != 10) = true) :
    ParseInputLine wide t msg (L "/pm" ++ ws ++ T ++ [32] ++ R) =
      (true, { msg with command := ClientCommand.PrivateMessage, pmTo := T, msg := R,
                        timeStamp := t }) := by
  have hws2 : ∀ c ∈ ws, isspace wide c = true := List.all_eq_true.mp hwsp
  have hT2 : ∀ c ∈ T, isspace wide c = false := by
    intro c hc
    have := List.all_eq_true.mp hTsp c hc
    simpa using this
  have hR2 : ∀ c ∈ R, c ≠ 10 := by
    intro c hc
    have := List.all_eq_true.mp hRnl c hc
    simpa using this
  obtain ⟨sp, ws1, rfl⟩ := List.exists_cons_of_ne_nil hws
  have hsp : isspace wide sp = true := hws2 sp (List.mem_cons_self _ _)
  have e1 : L "/pm" ++ sp :: ws1 ++ T ++ [32] ++ R =
      [] ++ L "/pm" ++ sp :: (ws1 ++ T ++ [32] ++ R) := by simp
  have hx1 := extract_word_space wide [] (L "/pm") (ws1 ++ T ++ [32] ++ R) sp []
    (fun c hc => absurd hc (List.not_mem_nil c)) (by decide) (isspace_slash_pm wide) hsp
  have e2 : sp :: (ws1 ++ T ++ [32] ++ R) = (sp :: ws1) ++ T ++ 32 :: R := by simp
  have hx2 := extract_word_space wide (sp :: ws1) T R 32 [] hws2 hT hT2 (isspace_space wide)
  have hg := getline_to_end R [] hR2
  have hTe : T.isEmpty = false := isEmpty_false_of_ne_nil _ hT
  have hRe : R.isEmpty = false := isEmpty_false_of_ne_nil _ hR
  have hhead : (L "/pm" ++ sp :: ws1 ++ T ++ [32] ++ R).head? = some 47 := rfl
  have hne : (L "/pm" ++ sp :: ws1 ++ T ++ [32] ++ R).isEmpty = false := rfl
  have hcmd : GetCommandId (L "/pm") = ClientCommand.PrivateMessage := by decide
  unfold ParseInputLine
  rw [hne]
  simp only [Bool.false_eq_true, if_false, hhead, if_true]
  rw [e1, hx1]
  simp only [hcmd]
  unfold ParseInputLineArgs
  have n1 : ¬ ClientCommand.PrivateMessage = ClientCommand.Error := by decide
  have n2 : ¬ ClientCommand.PrivateMessage = ClientCommand.Help := by decide
  have n3 : ¬ ClientCommand.PrivateMessage = ClientCommand.ListClients := by decide
  have n4 : ¬ ClientCommand.PrivateMessage = ClientCommand.ChangeName := by decide
  have n5 : ClientCommand.PrivateMessage ≠ ClientCommand.BroadcastMessage := by decide
  simp only [e2, hx2, IStream.ignore, IStream.good, n1, n2, n3, n4, n5, if_true, if_false,
    true_and, hTe, Bool.false_eq_true, ne_eq, not_false_eq_true, Bool.not_false, Bool.and_self,
    Bool.not_true, hg, hRe]

/-- C17, witness: the line "/pm Bob hello" is parsed into the private message
"hello" for "Bob". -/
theorem pm_input_parsed_witness :
    ParseInputLine (fun _ => false) 3 {} (L "/pm Bob hello") =
      (true, { command := ClientCommand.PrivateMessage, pmTo := L "Bob", msg := L "hello",
               timeStamp := 3 }) :=
  pm_input_parsed (fun _ => false) 3 {} [32] (L "Bob") (L "hello") (by decide)
    rfl (by decide) rfl (by decide) rfl

theorem helpText_ne_nil : helpText ≠ [] := by decide

theorem ParseInputLineArgs_ok (wide : WChar → Bool) (t : U64) (msg : ClientMessage)
    (iss : IStream) (r : ClientMessage) (h : ParseInputLineArgs wide t msg iss = (true, r)) :
    r.command = msg.command ∧ (r.command = ClientCommand.PrivateMessage → r.pmTo ≠ []) ∧
      (r.command ≠ ClientCommand.ListClients → r.msg ≠ []) := by
  unfold ParseInputLineArgs at h
  simp only at h
  by_cases hH : msg.command = ClientCommand.Help
  · rw [if_pos hH] at h
    simp only [Prod.mk.injEq, true_and] at h
    subst h
    refine ⟨rfl, fun hc => ?_, fun _ => helpText_ne_nil⟩
    simp only at hc
    rw [hH] at hc
    exact absurd hc (by decide)
  rw [if_neg hH] at h
  generalize (if msg.command = ClientCommand.PrivateMessage then iss.extract wide msg.pmTo
    else (msg.pmTo, iss)) = pm at h
  generalize (if msg.command ≠ ClientCommand.BroadcastMessage then pm.2.ignore else pm.2) =
    iss2 at h
  by_cases hE : msg.command = ClientCommand.PrivateMessage ∧ pm.1.isEmpty = true
  · rw [if_pos hE] at h
    simp at h
  rw [if_neg hE] at h
  have hpm : ∀ x : ClientMessage, x.command = msg.command → x.pmTo = pm.1 →
      x.command = ClientCommand.PrivateMessage → x.pmTo ≠ [] := by
    intro x hxc hxp hc he
    rw [hxp] at he
    exact hE ⟨hxc ▸ hc, by rw [he]; rfl⟩
  by_cases hL : msg.command = ClientCommand.ListClients
  · rw [if_pos hL] at h
    simp only [Prod.mk.injEq, true_and] at h
    subst h
    exact ⟨rfl, hpm _ rfl rfl, fun hc => absurd hL hc⟩
  rw [if_neg hL] at h
  by_cases hC : msg.command = ClientCommand.ChangeName
  · rw [if_pos hC] at h
    split at h
    · simp at h
    · rename_i hm
      simp only [Prod.mk.injEq, true_and] at h
      subst h
      refine ⟨rfl, hpm _ rfl rfl, fun _ he => ?_⟩
      simp only at he hm
      rw [he] at hm
      exact hm rfl
  rw [if_neg hC] at h
  split at h
  · simp at h
  · rename_i hm
    simp only [Prod.mk.injEq, true_and] at h
    subst h
    refine ⟨rfl, hpm _ rfl rfl, fun _ he => ?_⟩
    simp only at he hm
    rw [he] at hm
    exact hm rfl

theorem GetCommandId_range (s : WString) :
    GetCommandId s = ClientCommand.PrivateMessage ∨ GetCommandId s = ClientCommand.ChangeName ∨
      GetCommandId s = ClientCommand.ListClients ∨ GetCommandId s = ClientCommand.Help ∨
      GetCommandId s = ClientCommand.Error := by
  unfold GetCommandId
  split
  · exact Or.inl rfl
  · split
    · exact Or.inr (Or.inl rfl)
    · split
      · exact Or.inr (Or.inr (Or.inl rfl))
      · split
        · exact Or.inr (Or.inr (Or.inr (Or.inl rfl)))
        · exact Or.inr (Or.inr (Or.inr (Or.inr rfl)))

/-- What a successful `ParseInputLine` leaves in the record. -/
theorem ParseInputLine_ok (wide : WChar → Bool) (t : U64) (msg : ClientMessage) (str : WString)
    (r : ClientMessage) (h : ParseInputLine wide t msg str = (true, r)) :
    (r.command = ClientCommand.BroadcastMessage ∨ r.command = ClientCommand.PrivateMessage ∨
      r.command = ClientCommand.ChangeName ∨ r.command = ClientCommand.ListClients ∨
      r.command = ClientCommand.Help) ∧
    (r.command = ClientCommand.PrivateMessage → r.pmTo ≠ []) ∧
    (r.command ≠ ClientCommand.ListClients → r.msg ≠ []) := by
  unfold ParseInputLine at h
  split at h
  · simp at h
  · simp only at h
    split at h
    · split at h
      · simp at h
      · rename_i hne
        obtain ⟨h1, h2, h3⟩ := ParseInputLineArgs_ok wide t _ _ r h
        refine ⟨?_, h2, h3⟩
        simp only at h1 hne
        rw [h1]
        rcases GetCommandId_range (IStream.extract wide { rest := str } []).1 with
          e | e | e | e | e
        · exact Or.inr (Or.inl e)
        · exact Or.inr (Or.inr (Or.inl e))
        · exact Or.inr (Or.inr (Or.inr (Or.inl e)))
        · exact Or.inr (Or.inr (Or.inr (Or.inr e)))
        · exact absurd e hne
    · obtain ⟨h1, h2, h3⟩ := ParseInputLineArgs_ok wide t _ _ r h
      exact ⟨Or.inl h1, h2, h3⟩

/-- C18 (parsed input is always sendable): for every pass of the input loop
with the exit flag clear and a line other than "/exit": when `ParseInputLine`
fails on the line, the pass ends with `continue` and the client is as it was
apart from the local record, so nothing is sent; when it succeeds with a
command other than `Help`, the command is `BroadcastMessage`, `PrivateMessage`,
`ChangeName` or `ListClients`, `pmTo` is non-empty for `PrivateMessage`, `msg`
is non-empty for every command but `ListClients`, and, the name of the client
being non-empty, the fields fitting a 32-bit byte count and the buffer being
allocated, `Serialize` returns the layout table of the record with
`from = m_name` and the pass calls `SendData` once on the socket with it. -/
theorem parsed_input_sendable (wide : WChar → Bool) (alloc : Nat → Bool) (t : U64) (c : Client)
    (str : WString) (ok : Bool) (r : ClientMessage)
    (hexit : c.m_exit = false) (hstr : str ≠ L "/exit")
    (hp : ParseInputLine wide t c.msg str = (ok, r)) :
    (ok = false →
      ClientRoutineStep wide alloc t c str = some (Flow.again, { c with msg := r })) ∧
    (ok = true → r.command ≠ ClientCommand.Help → c.m_name ≠ [] →
      12 + wsize c.m_name + wsize r.msg + wsize r.pmTo < U32_MOD →
      alloc (c.outgoing r).dataSize = true →
      (r.command = ClientCommand.BroadcastMessage ∨ r.command = ClientCommand.PrivateMessage ∨
        r.command = ClientCommand.ChangeName ∨ r.command = ClientCommand.ListClients) ∧
      (r.command = ClientCommand.PrivateMessage → r.pmTo ≠ []) ∧
      (r.command ≠ ClientCommand.ListClients → r.msg ≠ []) ∧
      (c.outgoing r).Serialize alloc = some
        { data := some (wireLayout (c.outgoing r) ++
            List.replicate ((c.outgoing r).dataSize - wireSize (c.outgoing r)) 0),
          size := wireSize (c.outgoing r) } ∧
      ∃ c', ClientRoutineStep wide alloc t c str =
          some (if (SendData c.m_socket (wireLayout (c.outgoing r))).1 then Flow.again
            else Flow.returnFalse, c') ∧
        c'.m_socket = (SendData c.m_socket (wireLayout (c.outgoing r))).2) := by
  constructor
  · intro hok
    subst hok
    unfold ClientRoutineStep
    simp only [hexit, Bool.false_eq_true, if_false, hstr, hp, Bool.not_false, if_true]
  · intro hok hhelp hname hfit halloc
    subst hok
    obtain ⟨h1, h2, h3⟩ := ParseInputLine_ok wide t c.msg str r hp
    have hcmd : r.command = ClientCommand.BroadcastMessage ∨
        r.command = ClientCommand.PrivateMessage ∨
        r.command = ClientCommand.ChangeName ∨ r.command = ClientCommand.ListClients := by
      rcases h1 with e | e | e | e | e
      · exact Or.inl e
      · exact Or.inr (Or.inl e)
      · exact Or.inr (Or.inr (Or.inl e))
      · exact Or.inr (Or.inr (Or.inr e))
      · exact absurd e hhelp
    have hne : (c.outgoing r).command ≠ ClientCommand.Error := by
      show r.command ≠ ClientCommand.Error
      rcases hcmd with e | e | e | e <;> rw [e] <;> decide
    have hser := Serialize_accepts alloc (c.outgoing r) hne hname h2
      (fun hc => h3 (fun hl => hc (Or.inr hl))) hfit halloc
    refine ⟨hcmd, h2, h3, hser, ?_⟩
    have hser2 : ClientMessage.Serialize alloc { r with from_ := c.m_name } = some
        { data := some (wireLayout (c.outgoing r) ++
            List.replicate ((c.outgoing r).dataSize - wireSize (c.outgoing r)) 0),
          size := wireSize (c.outgoing r) } := hser
    unfold ClientRoutineStep
    simp only [hexit, Bool.false_eq_true, if_false, hstr, hp, Bool.not_true, hhelp, hser2,
      Option.map_some']
    rw [← wireLayout_length (c.outgoing r), List.take_left]
    cases hs : (SendData c.m_socket (wireLayout (c.outgoing r))).1
    · exact ⟨_, rfl, rfl⟩
    · refine ⟨_, rfl, ?_⟩
      unfold Client.adoptName
      split <;> rfl

/-- C18, witness: for "Alice" the line "/pm Bob", which leaves the text empty,
ends the pass with `continue` and nothing sent; the line "/pm Bob hello" is
sent as one frame, the private message "hello" from "Alice" to "Bob". -/
theorem parsed_input_sendable_witness :
    ClientRoutineStep (fun _ => false) (fun _ => true) 3 sampleClient (L "/pm Bob") =
      some (Flow.again, { sampleClient with
        msg := { command := ClientCommand.PrivateMessage, pmTo := L "Bob", timeStamp := 3 } }) ∧
    ∃ c', ClientRoutineStep (fun _ => false) (fun _ => true) 3 sampleClient
        (L "/pm Bob hello") = some (Flow.again, c') ∧
      c'.m_socket.sent = frameWrites (wireLayout { samplePmBob with from_ := L "Alice" }) := by
  constructor
  · exact (parsed_input_sendable (fun _ => false) (fun _ => true) 3 sampleClient (L "/pm Bob")
      false _ rfl (by decide) (by decide)).1 rfl
  · obtain ⟨_, _, _, _, c', h1, h2⟩ :=
      (parsed_input_sendable (fun _ => false) (fun _ => true) 3 sampleClient
        (L "/pm Bob hello") true samplePmBob rfl (by decide) (by decide)).2 rfl (by decide)
        (by decide) (by decide) rfl
    refine ⟨c', ?_, ?_⟩
    · have hs : (SendData sampleClient.m_socket
          (wireLayout (sampleClient.outgoing samplePmBob))).1 = true := by decide
      rw [h1, if_pos hs]
    · rw [h2]; decide

theorem extract_word_end (wide : WChar → Bool) (pre word : WString) (str : WString)
    (hpre : ∀ c ∈ pre, isspace wide c = true) (hw : word ≠ [])
    (hword : ∀ c ∈ word, isspace wide c = false) :
    IStream.extract wide { rest := pre ++ word } str =
      (word, { rest := [], eofbit := true }) := by
  obtain ⟨a, w, rfl⟩ := List.exists_cons_of_ne_nil hw
  have ha : isspace wide a = false := hword a (List.mem_cons_self _ _)
  have hnot : ∀ c ∈ a :: w, (!isspace wide c) = true := by
    intro c hc; rw [hword c hc]; rfl
  have h1 : List.dropWhile (isspace wide) (pre ++ (a :: w)) = a :: w := by
    rw [List.dropWhile_append_of_pos hpre, List.dropWhile_cons_of_neg (by rw [ha]; decide)]
  have h2 : List.takeWhile (fun c => !isspace wide c) (a :: w) = a :: w := by
    have := @List.takeWhile_append_of_pos _ _ (a :: w) [] hnot
    simpa using this
  have h3 : List.dropWhile (fun c => !isspace wide c) (a :: w) = [] := by
    have := @List.dropWhile_append_of_pos _ _ (a :: w) [] hnot
    simpa using this
  unfold IStream.extract
  simp only [IStream.good, Bool.not_false, Bool.and_self, Bool.not_true, Bool.false_eq_true,
    if_false, h1, h2, h3]
  rfl

theorem extract_nospace (wide : WChar → Bool) (s : IStream) :
    ∀ c ∈ (IStream.extract wide s []).1, isspace wide c = false := by
  unfold IStream.extract
  split
  · intro c hc; exact absurd hc (List.not_mem_nil c)
  · simp only
    split
    · intro c hc; exact absurd hc (List.not_mem_nil c)
    · intro c hc
      have := List.mem_takeWhile_imp hc
      simpa using this

theorem InitClientName_some (wide : WChar → Bool) (lines : List WString) (name : WString)
    (h : InitClientName wide lines = some name) :
    name.all (isalnum wide) = true ∧
      ∃ pre post, lines = pre ++ name :: post ∧ ∀ l ∈ pre, l.all (isalnum wide) = false := by
  induction lines with
  | nil => simp [InitClientName] at h
  | cons line rest ih =>
    unfold InitClientName at h
    by_cases hl : line.all (isalnum wide) = true
    · rw [if_pos hl] at h
      simp only [Option.some.injEq] at h
      subst h
      exact ⟨hl, [], rest, rfl, fun l hl0 => absurd hl0 (List.not_mem_nil l)⟩
    · rw [if_neg hl] at h
      obtain ⟨h1, pre, post, h2, h3⟩ := ih h
      refine ⟨h1, line :: pre, post, by rw [h2]; rfl, ?_⟩
      intro l hmem
      rcases List.mem_cons.mp hmem with e | e
      · rw [e]; simpa using hl
      · exact h3 l e

theorem isspace_slash_setname (wide : WChar → Bool) :
    ∀ c ∈ L "/setname", isspace wide c = false := by
  intro c hc
  have : c = 47 ∨ c = 115 ∨ c = 101 ∨ c = 116 ∨ c = 110 ∨ c = 97 ∨ c = 109 ∨ c = 101 := by
    simpa [L, toWChar] using hc
  rcases this with h | h | h | h | h | h | h | h <;> subst h <;> rfl

theorem ParseInputLine_setname (wide : WChar → Bool) (t : U64) (msg : ClientMessage)
    (ws T : WString) (hws : ws ≠ []) (hwsp : ∀ c ∈ ws, isspace wide c = true)
    (hT : T ≠ []) (hTsp : ∀ c ∈ T, isspace wide c = false) :
    ParseInputLine wide t msg (L "/setname" ++ ws ++ T) =
      (true, { msg with command := ClientCommand.ChangeName, pmTo := [], msg := T,
                        timeStamp := t }) := by
  obtain ⟨sp, ws1, rfl⟩ := List.exists_cons_of_ne_nil hws
  have hsp : isspace wide sp = true := hwsp sp (List.mem_cons_self _ _)
  have e1 : L "/setname" ++ sp :: ws1 ++ T = [] ++ L "/setname" ++ sp :: (ws1 ++ T) := by simp
  have hx1 := extract_word_space wide [] (L "/setname") (ws1 ++ T) sp []
    (fun c hc => absurd hc (List.not_mem_nil c)) (by decide) (isspace_slash_setname wide) hsp
  have e2 : sp :: (ws1 ++ T) = (sp :: ws1) ++ T := by simp
  have hx2 := extract_word_end wide (sp :: ws1) T [] hwsp hT hTsp
  have hTe : T.isEmpty = false := isEmpty_false_of_ne_nil _ hT
  have hhead : (L "/setname" ++ sp :: ws1 ++ T).head? = some 47 := rfl
  have hne : (L "/setname" ++ sp :: ws1 ++ T).isEmpty = false := rfl
  have hcmd : GetCommandId (L "/setname") = ClientCommand.ChangeName := by decide
  have n1 : ¬ ClientCommand.ChangeName = ClientCommand.Error := by decide
  have n2 : ¬ ClientCommand.ChangeName = ClientCommand.Help := by decide
  have n3 : ¬ ClientCommand.ChangeName = ClientCommand.ListClients := by decide
  have n4 : ¬ ClientCommand.ChangeName = ClientCommand.PrivateMessage := by decide
  unfold ParseInputLine
  rw [hne]
  simp only [Bool.false_eq_true, if_false, hhead, if_true]
  rw [e1, hx1]
  simp only [hcmd]
  unfold ParseInputLineArgs
  simp only [e2, hx2, n1, n2, n3, n4, if_true, if_false, false_and, hTe, Bool.false_eq_true]

theorem ParseInputLineArgs_setname (wide : WChar → Bool) (t : U64) (msg : ClientMessage)
    (iss : IStream) (r : ClientMessage) (hmsg : msg.msg = [])
    (h : ParseInputLineArgs wide t msg iss = (true, r))
    (hc : r.command = ClientCommand.ChangeName) :
    ∀ c ∈ r.msg, isspace wide c = false := by
  have hcm : msg.command = ClientCommand.ChangeName :=
    (ParseInputLineArgs_ok wide t msg iss r h).1 ▸ hc
  have n2 : ¬ ClientCommand.ChangeName = ClientCommand.Help := by decide
  have n3 : ¬ ClientCommand.ChangeName = ClientCommand.ListClients := by decide
  have n4 : ¬ ClientCommand.ChangeName = ClientCommand.PrivateMessage := by decide
  unfold ParseInputLineArgs at h
  simp only [hcm, n2, n3, n4, if_true, if_false, false_and, hmsg] at h
  split at h
  · simp at h
  · simp only [Prod.mk.injEq, true_and] at h
    subst h
    exact extract_nospace wide iss

theorem ParseInputLine_setname_token (wide : WChar → Bool) (t : U64) (msg : ClientMessage)
    (str : WString) (r : ClientMessage) (h : ParseInputLine wide t msg str = (true, r))
    (hc : r.command = ClientCommand.ChangeName) :
    r.msg ≠ [] ∧ ∀ c ∈ r.msg, isspace wide c = false := by
  refine ⟨(ParseInputLine_ok wide t msg str r h).2.2 (by rw [hc]; decide), ?_⟩
  unfold ParseInputLine at h
  split at h
  · simp at h
  · simp only at h
    split at h
    · split at h
      · simp at h
      · exact ParseInputLineArgs_setname wide t _ _ r rfl h hc
    · exact ParseInputLineArgs_setname wide t _ _ r rfl h hc

theorem ClientRoutineStep_setname (wide : WChar → Bool) (alloc : Nat → Bool) (t : U64)
    (c : Client) (ws T : WString) (hexit : c.m_exit = false) (hname : c.m_name ≠ [])
    (hws : ws ≠ []) (hwsp : ∀ x ∈ ws, isspace wide x = true)
    (hT : T ≠ []) (hTsp : ∀ x ∈ T, isspace wide x = false)
    (hfit : 12 + wsize c.m_name + wsize T + 2 < U32_MOD)
    (halloc : alloc (c.renameRecord t T).dataSize = true) :
    ∃ c', ClientRoutineStep wide alloc t c (L "/setname" ++ ws ++ T) =
        some (if (SendData c.m_socket (wireLayout (c.renameRecord t T))).1 then Flow.again
          else Flow.returnFalse, c') ∧
      c'.m_socket = (SendData c.m_socket (wireLayout (c.renameRecord t T))).2 ∧
      ((SendData c.m_socket (wireLayout (c.renameRecord t T))).1 = true → c'.m_name = T) := by
  have hstr : L "/setname" ++ ws ++ T ≠ L "/exit" := by
    intro h
    have h2 := congrArg (fun l => l[1]?) h
    have e : (L "/setname" ++ ws ++ T)[1]? = some 115 := by
      rw [List.append_assoc, List.getElem?_append_left (by decide)]
      decide
    simp only [e] at h2
    exact absurd h2 (by decide)
  have hp := ParseInputLine_setname wide t c.msg ws T hws hwsp hT hTsp
  have hne : (c.renameRecord t T).command ≠ ClientCommand.Error := by
    show ClientCommand.ChangeName ≠ ClientCommand.Error
    decide
  have hser := Serialize_accepts alloc (c.renameRecord t T) hne hname
    (fun h => absurd h (by show ¬ ClientCommand.ChangeName = _; decide)) (fun _ => hT)
    (by show 12 + wsize c.m_name + wsize T + wsize [] < U32_MOD; exact hfit) halloc
  have hser2 : ClientMessage.Serialize alloc
      { ({ c.msg with command := ClientCommand.ChangeName, pmTo := [], msg := T,
                      timeStamp := t } : ClientMessage) with from_ := c.m_name } = some
      { data := some (wireLayout (c.renameRecord t T) ++
          List.replicate ((c.renameRecord t T).dataSize - wireSize (c.renameRecord t T)) 0),
        size := wireSize (c.renameRecord t T) } := hser
  have n2 : ¬ ClientCommand.ChangeName = ClientCommand.Help := by decide
  unfold ClientRoutineStep
  simp only [hexit, Bool.false_eq_true, if_false, hstr, hp, Bool.not_true, n2, hser2,
    Option.map_some']
  rw [← wireLayout_length (c.renameRecord t T), List.take_left]
  cases hs : (SendData c.m_socket (wireLayout (c.renameRecord t T))).1
  · exact ⟨_, rfl, rfl, fun h => absurd h (by decide)⟩
  · exact ⟨_, rfl, rfl, fun _ => rfl⟩

/-- What the client checks of a name: for every classification of the code
units above ASCII, (1) the name adopted at the initial prompt is the first line
entered all of whose code units `::isalnum` accepts, every line before it
holding a unit it rejects; (2) whenever `ParseInputLine` succeeds with
`ChangeName`, the new name in `msg` is non-empty and free of whitespace; (3) for
every line made of "/setname", whitespace and a non-empty whitespace-free token
`T`, alphanumeric or not, the pass of the input loop calls `SendData` once with
the layout table of the `ChangeName` record whose `msg` is `T`, and `T` is the
name of the client after a successful send. -/
theorem client_name_restriction (wide : WChar → Bool) :
    (∀ (lines : List WString) (name : WString), InitClientName wide lines = some name →
      name.all (isalnum wide) = true ∧
        ∃ pre post, lines = pre ++ name :: post ∧ ∀ l ∈ pre, l.all (isalnum wide) = false) ∧
    (∀ (t : U64) (msg : ClientMessage) (str : WString) (r : ClientMessage),
      ParseInputLine wide t msg str = (true, r) → r.command = ClientCommand.ChangeName →
      r.msg ≠ [] ∧ ∀ x ∈ r.msg, isspace wide x = false) ∧
    (∀ (alloc : Nat → Bool) (t : U64) (c : Client) (ws T : WString),
      c.m_exit = false → c.m_name ≠ [] →
      ws ≠ [] → (∀ x ∈ ws, isspace wide x = true) →
      T ≠ [] → (∀ x ∈ T, isspace wide x = false) →
      12 + wsize c.m_name + wsize T + 2 < U32_MOD →
      alloc (c.renameRecord t T).dataSize = true →
      ∃ c', ClientRoutineStep wide alloc t c (L "/setname" ++ ws ++ T) =
          some (if (SendData c.m_socket (wireLayout (c.renameRecord t T))).1 then Flow.again
            else Flow.returnFalse, c') ∧
        c'.m_socket = (SendData c.m_socket (wireLayout (c.renameRecord t T))).2 ∧
        ((SendData c.m_socket (wireLayout (c.renameRecord t T))).1 = true → c'.m_name = T)) :=
  ⟨InitClientName_some wide, ParseInputLine_setname_token wide,
    fun alloc t c ws T h1 h2 h3 h4 h5 h6 h7 h8 =>
      ClientRoutineStep_setname wide alloc t c ws T h1 h2 h3 h4 h5 h6 h7 h8⟩

/-- C20 (client-side name restriction), the failing inputs: for "Alice" the line
"/setname a-b", whose token holds the character '-' that `::isalnum` rejects,
is sent as a `ChangeName` record with `msg = "a-b"` and "a-b" becomes the name
of the client, although the name prompt of `InitClient` refuses the same name
and repeats; and at that prompt the empty line is adopted as the name. -/
theorem non_alphanumeric_name_accepted :
    InitClientName (fun _ => false) [[]] = some [] ∧
    (L "a-b").all (isalnum (fun _ => false)) = false ∧
    InitClientName (fun _ => false) [L "a-b"] = none ∧
    (ClientRoutineStep (fun _ => false) (fun _ => true) 3 sampleClient (L "/setname a-b")).map
        (fun r => (r.1, r.2.m_name, r.2.m_socket.sent)) =
      some (Flow.again, L "a-b", frameWrites (wireLayout (sampleClient.renameRecord 3 (L "a-b")))) := by
  refine ⟨by decide, by decide, by decide, by decide⟩

/-! ## The readers-writer coordinator: lemmas and claims -/

theorem threads_set (roles : List Role) (t : Nat) (old new b : Role)
    (h : roles[t]? = some old) :
    threads b (roles.set t new) + (if old = b then 1 else 0) =
      threads b roles + (if new = b then 1 else 0) := by
  unfold threads
  obtain ⟨hlt, hget⟩ := List.getElem?_eq_some.mp h
  rw [List.count_set _ _ _ _ hlt, hget]
  have hpos : old = b → 0 < List.count b roles := by
    intro e
    apply List.count_pos_iff.mpr
    rw [← e, ← hget]
    exact List.getElem_mem _
  by_cases e : old = b
  · have := hpos e
    simp only [e, beq_self_eq_true, if_true]
    by_cases e2 : new = b
    · simp only [e2, beq_self_eq_true, if_true]; omega
    · simp only [beq_iff_eq, e2, if_false]; omega
  · by_cases e2 : new = b
    · simp only [beq_iff_eq, e, e2, if_false, if_true]; omega
    · simp only [beq_iff_eq, e, e2, if_false]; omega

theorem threads_lt_length (roles : List Role) (t : Nat) (old b : Role)
    (h : roles[t]? = some old) (hne : old ≠ b) : threads b roles < roles.length := by
  unfold threads
  obtain ⟨hlt, hget⟩ := List.getElem?_eq_some.mp h
  have hle := @List.count_le_length _ _ b roles
  by_contra hcon
  have heq : List.count b roles = roles.length := by omega
  have hall := List.count_eq_length.mp heq
  have : b = roles[t] := hall _ (List.getElem_mem _)
  exact hne (by rw [← hget, ← this])

theorem role_of_threads_zero (roles : List Role) (t : Nat) (r : Role)
    (h : roles[t]? = some r) : threads r roles ≠ 0 := by
  unfold threads
  obtain ⟨hlt, hget⟩ := List.getElem?_eq_some.mp h
  have : 0 < List.count r roles := by
    apply List.count_pos_iff.mpr
    rw [← hget]
    exact List.getElem_mem _
  omega

theorem threads_grant_canRead (roles : List Role) (w : Nat) (b : Role) :
    threads b (grant Signalled.canRead w roles) =
      if b = Role.pendingReader then 0
      else if b = Role.reader then threads Role.reader roles + threads Role.pendingReader roles
      else threads b roles := by
  unfold threads grant
  induction roles with
  | nil => simp
  | cons r rest ih =>
    simp only [List.map_cons, List.count_cons, ih]
    cases r <;> cases b <;> simp <;> omega

theorem WRITER_lt : WRITER < U32_MOD := by decide

theorem RWInv_lockRead (n : Nat) (hn : n < WRITER) (m : RWAccessManager) (roles : List Role)
    (t : Nat) (ht : roles[t]? = some Role.idle) (h : RWInv n (m, roles)) :
    RWInv n (m.LockRead.2,
      roles.set t (if m.LockRead.1 then Role.pendingReader else Role.reader)) := by
  obtain ⟨hlen, hpw, hpr, hdis⟩ := h
  simp only at hlen hpw hpr hdis
  have hW := WRITER_lt
  have b1 := threads_lt_length roles t Role.idle Role.pendingReader ht (by decide)
  have b2 := threads_lt_length roles t Role.idle Role.reader ht (by decide)
  unfold RWAccessManager.LockRead
  by_cases hc : m.m_nCurrUsers = WRITER ∨ m.m_nPendingWriters ≠ 0
  · simp only [hc, if_true]
    have c1 := threads_set roles t Role.idle Role.pendingReader Role.pendingWriter ht
    have c2 := threads_set roles t Role.idle Role.pendingReader Role.pendingReader ht
    have c3 := threads_set roles t Role.idle Role.pendingReader Role.writer ht
    have c4 := threads_set roles t Role.idle Role.pendingReader Role.reader ht
    simp only [reduceCtorEq, if_false, if_true, Nat.add_zero] at c1 c2 c3 c4
    refine ⟨by simp only [List.length_set]; exact hlen, ?_, ?_, ?_⟩
    · simp only; rw [c1]; exact hpw
    · simp only; rw [c2, ← hpr]
      apply Nat.mod_eq_of_lt
      omega
    · simp only; rw [c3, c4]; exact hdis
  · simp only [hc, if_false, Bool.false_eq_true]
    have hnw : m.m_nCurrUsers ≠ WRITER := fun e => hc (Or.inl e)
    have c1 := threads_set roles t Role.idle Role.reader Role.pendingWriter ht
    have c2 := threads_set roles t Role.idle Role.reader Role.pendingReader ht
    have c3 := threads_set roles t Role.idle Role.reader Role.writer ht
    have c4 := threads_set roles t Role.idle Role.reader Role.reader ht
    simp only [reduceCtorEq, if_false, if_true, Nat.add_zero] at c1 c2 c3 c4
    refine ⟨by simp only [List.length_set]; exact hlen, ?_, ?_, ?_⟩
    · simp only; rw [c1]; exact hpw
    · simp only; rw [c2]; exact hpr
    · simp only
      rcases hdis with ⟨e, _, _⟩ | ⟨e, hw⟩
      · exact absurd e hnw
      · right
        rw [c3, c4, e]
        exact ⟨Nat.mod_eq_of_lt (by omega), hw⟩

theorem RWInv_lockWrite (n : Nat) (hn : n < WRITER) (m : RWAccessManager) (roles : List Role)
    (t : Nat) (ht : roles[t]? = some Role.idle) (h : RWInv n (m, roles)) :
    RWInv n (m.LockWrite.2,
      roles.set t (if m.LockWrite.1 then Role.pendingWriter else Role.writer)) := by
  obtain ⟨hlen, hpw, hpr, hdis⟩ := h
  simp only at hlen hpw hpr hdis
  have hW := WRITER_lt
  have b1 := threads_lt_length roles t Role.idle Role.pendingWriter ht (by decide)
  unfold RWAccessManager.LockWrite
  by_cases hc : m.m_nCurrUsers ≠ 0
  · simp only [if_pos hc, if_true]
    have c1 := threads_set roles t Role.idle Role.pendingWriter Role.pendingWriter ht
    have c2 := threads_set roles t Role.idle Role.pendingWriter Role.pendingReader ht
    have c3 := threads_set roles t Role.idle Role.pendingWriter Role.writer ht
    have c4 := threads_set roles t Role.idle Role.pendingWriter Role.reader ht
    simp only [reduceCtorEq, if_false, if_true, Nat.add_zero] at c1 c2 c3 c4
    refine ⟨by simp only [List.length_set]; exact hlen, ?_, ?_, ?_⟩
    · simp only; rw [c1, ← hpw]
      apply Nat.mod_eq_of_lt
      omega
    · simp only; rw [c2]; exact hpr
    · simp only; rw [c3, c4]; exact hdis
  · simp only [if_neg hc, Bool.false_eq_true, if_false]
    have h0 : m.m_nCurrUsers = 0 := by
      by_contra e; exact hc e
    have c1 := threads_set roles t Role.idle Role.writer Role.pendingWriter ht
    have c2 := threads_set roles t Role.idle Role.writer Role.pendingReader ht
    have c3 := threads_set roles t Role.idle Role.writer Role.writer ht
    have c4 := threads_set roles t Role.idle Role.writer Role.reader ht
    simp only [reduceCtorEq, if_false, if_true, Nat.add_zero] at c1 c2 c3 c4
    refine ⟨by simp only [List.length_set]; exact hlen, ?_, ?_, ?_⟩
    · simp only; rw [c1]; exact hpw
    · simp only; rw [c2]; exact hpr
    · simp only
      left
      rcases hdis with ⟨e, _, _⟩ | ⟨e, hw⟩
      · rw [h0] at e
        exact absurd e (by decide)
      · rw [c3, c4, hw, ← e, h0]
        simp

/-- `Unlock` in terms of the value `cur` it gives `m_nCurrUsers` before it
looks at the pending counters. -/
theorem Unlock_eq (m : RWAccessManager) :
    m.Unlock =
      if (if m.m_nCurrUsers = WRITER then 0 else m.m_nCurrUsers - 1) = 0 then
        if m.m_nPendingWriters ≠ 0 then
          (Signalled.canWrite,
            { m with m_nCurrUsers := WRITER, m_nPendingWriters := m.m_nPendingWriters - 1,
                     m_canWriteEvent := m.m_canWriteEvent.Signal false })
        else if m.m_nPendingReaders ≠ 0 then
          (Signalled.canRead,
            { m with m_nCurrUsers := m.m_nPendingReaders, m_nPendingReaders := 0,
                     m_canReadEvent := m.m_canReadEvent.Signal true })
        else (Signalled.nothing, { m with m_nCurrUsers := 0 })
      else (Signalled.nothing, { m with m_nCurrUsers := m.m_nCurrUsers - 1 }) := by
  unfold RWAccessManager.Unlock
  by_cases h1 : m.m_nCurrUsers = WRITER
  · simp only [h1, if_true]
  · by_cases h2 : m.m_nCurrUsers = 0
    · cases m with
      | mk a b c d e =>
        simp only at h1 h2
        subst h2
        have hz : ¬ (0 = WRITER) := h1
        simp [hz]
    · simp only [h1, if_false, ne_eq, h2, not_false_eq_true, if_true]
      by_cases h3 : m.m_nCurrUsers - 1 = 0
      · simp only [h3, if_true]
      · simp only [h3, if_false]

theorem RWInv_unlock (n : Nat) (hn : n < WRITER) (m : RWAccessManager) (roles : List Role)
    (t w : Nat) (ht : roles[t]? = some Role.reader ∨ roles[t]? = some Role.writer)
    (hw : m.Unlock.1 = Signalled.canWrite → roles[w]? = some Role.pendingWriter)
    (h : RWInv n (m, roles)) :
    RWInv n (m.Unlock.2, grant m.Unlock.1 w (roles.set t Role.idle)) := by
  obtain ⟨hlen, hpw, hpr, hdis⟩ := h
  simp only at hlen hpw hpr hdis
  have hW := WRITER_lt
  -- the state of the roles once `t` has let go
  have key : ∃ old, roles[t]? = some old ∧ (old = Role.reader ∨ old = Role.writer) ∧
      (if m.m_nCurrUsers = WRITER then 0 else m.m_nCurrUsers - 1) =
        threads Role.reader (roles.set t Role.idle) ∧
      threads Role.writer (roles.set t Role.idle) = 0 := by
    rcases ht with ht | ht
    · have hr := role_of_threads_zero roles t _ ht
      have c3 := threads_set roles t Role.reader Role.idle Role.writer ht
      have c4 := threads_set roles t Role.reader Role.idle Role.reader ht
      have b := threads_lt_length roles t Role.reader Role.writer ht (by decide)
      simp only [reduceCtorEq, if_false, if_true, Nat.add_zero] at c3 c4
      rcases hdis with ⟨_, _, e⟩ | ⟨e, hwz⟩
      · exact absurd e hr
      · have hle := @List.count_le_length _ _ Role.reader roles
        have hnw : m.m_nCurrUsers ≠ WRITER := by
          rw [e]; unfold threads; omega
        refine ⟨_, ht, Or.inl rfl, ?_, by rw [c3]; exact hwz⟩
        rw [if_neg hnw, e]
        omega
    · have hr := role_of_threads_zero roles t _ ht
      have c3 := threads_set roles t Role.writer Role.idle Role.writer ht
      have c4 := threads_set roles t Role.writer Role.idle Role.reader ht
      simp only [reduceCtorEq, if_false, if_true, Nat.add_zero] at c3 c4
      rcases hdis with ⟨e, e1, e2⟩ | ⟨_, hwz⟩
      · refine ⟨_, ht, Or.inr rfl, ?_, by omega⟩
        rw [if_pos e, c4, e2]
      · exact absurd hwz hr
  obtain ⟨old, hold, holdk, hcur, hwr⟩ := key
  have hne1 : old ≠ Role.pendingWriter := by rcases holdk with e | e <;> rw [e] <;> decide
  have hne2 : old ≠ Role.pendingReader := by rcases holdk with e | e <;> rw [e] <;> decide
  have c1 := threads_set roles t old Role.idle Role.pendingWriter hold
  have c2 := threads_set roles t old Role.idle Role.pendingReader hold
  simp only [hne1, hne2, reduceCtorEq, if_false, Nat.add_zero] at c1 c2
  have hlen1 : (roles.set t Role.idle).length = n := by simp only [List.length_set]; exact hlen
  have hrd_le := @List.count_le_length _ _ Role.reader (roles.set t Role.idle)
  have hpr_le := @List.count_le_length _ _ Role.pendingReader (roles.set t Role.idle)
  rw [Unlock_eq] at hw ⊢
  by_cases h0 : (if m.m_nCurrUsers = WRITER then 0 else m.m_nCurrUsers - 1) = 0
  · rw [if_pos h0] at hw ⊢
    have hr0 : threads Role.reader (roles.set t Role.idle) = 0 := by rw [← hcur]; exact h0
    by_cases hpw0 : m.m_nPendingWriters ≠ 0
    · rw [if_pos hpw0] at hw ⊢
      have hwp := hw rfl
      have hwt : w ≠ t := by
        intro e
        rw [e, hold] at hwp
        exact hne1 (Option.some.inj hwp)
      have hwp1 : (roles.set t Role.idle)[w]? = some Role.pendingWriter := by
        rw [List.getElem?_set_ne (fun e => hwt e.symm)]; exact hwp
      have d1 := threads_set _ w Role.pendingWriter Role.writer Role.pendingWriter hwp1
      have d2 := threads_set _ w Role.pendingWriter Role.writer Role.pendingReader hwp1
      have d3 := threads_set _ w Role.pendingWriter Role.writer Role.writer hwp1
      have d4 := threads_set _ w Role.pendingWriter Role.writer Role.reader hwp1
      simp only [reduceCtorEq, if_false, if_true, Nat.add_zero] at d1 d2 d3 d4
      refine ⟨by simp only [grant, List.length_set]; exact hlen, ?_, ?_, ?_⟩
      · simp only [grant]; omega
      · simp only [grant]; omega
      · simp only [grant]
        left
        exact ⟨trivial, by omega, by omega⟩
    · rw [if_neg hpw0] at hw ⊢
      have hpwz : m.m_nPendingWriters = 0 := by
        by_contra e; exact hpw0 e
      by_cases hpr0 : m.m_nPendingReaders ≠ 0
      · rw [if_pos hpr0]
        have g1 := threads_grant_canRead (roles.set t Role.idle) w Role.pendingWriter
        have g2 := threads_grant_canRead (roles.set t Role.idle) w Role.pendingReader
        have g3 := threads_grant_canRead (roles.set t Role.idle) w Role.writer
        have g4 := threads_grant_canRead (roles.set t Role.idle) w Role.reader
        simp only [reduceCtorEq, if_false, if_true] at g1 g2 g3 g4
        refine ⟨by simp only [grant, List.length_map, List.length_set]; exact hlen, ?_, ?_, ?_⟩
        · simp only; omega
        · simp only; omega
        · simp only
          right
          exact ⟨by omega, by omega⟩
      · rw [if_neg hpr0]
        refine ⟨by simp only [grant, List.length_set]; exact hlen, ?_, ?_, ?_⟩
        · simp only [grant]; omega
        · simp only [grant]; omega
        · simp only [grant]
          right
          exact ⟨by omega, by omega⟩
  · rw [if_neg h0] at hw ⊢
    have hnw : m.m_nCurrUsers ≠ WRITER := by
      intro e; rw [if_pos e] at h0; exact h0 rfl
    rw [if_neg hnw] at hcur
    refine ⟨by simp only [grant, List.length_set]; exact hlen, ?_, ?_, ?_⟩
    · simp only [grant]; omega
    · simp only [grant]; omega
    · simp only [grant]
      right
      exact ⟨hcur, hwr⟩

theorem RWInv_reachable (n : Nat) (hn : n < WRITER) (s : RWAccessManager × List Role)
    (h : RWReachable n s) : RWInv n s := by
  induction h with
  | init =>
    refine ⟨by simp, ?_, ?_, Or.inr ⟨?_, ?_⟩⟩ <;>
      simp [threads, List.count_replicate]
  | step s s' _ hstep ih =>
    cases hstep with
    | lockRead m roles t ht => exact RWInv_lockRead n hn m roles t ht ih
    | lockWrite m roles t ht => exact RWInv_lockWrite n hn m roles t ht ih
    | unlock m roles t w ht hw => exact RWInv_unlock n hn m roles t w ht hw ih

/-- C22 (mutual exclusion of the readers-writer coordinator): with the locked
bodies of `LockRead`, `LockWrite` and `Unlock` as atomic steps of `n` threads
(`n` below `2^32 - 1`) from the coordinator as constructed, `LockRead` and
`LockWrite` called by threads that hold nothing and `Unlock` by a thread that
holds the lock, in every reachable state either `m_nCurrUsers` is `-1`
(`0xFFFFFFFF`), exactly one thread holds or has been granted the lock as writer
and none as reader, or `m_nCurrUsers` is not `-1`, it is the number of threads
that hold or have been granted the lock as readers, and none does as writer;
the pending counters are the numbers of pending writers and readers. -/
theorem rw_mutual_exclusion (n : Nat) (s : RWAccessManager × List Role) (hn : n < WRITER)
    (h : RWReachable n s) :
    ((s.1.m_nCurrUsers = WRITER ∧ threads Role.writer s.2 = 1 ∧ threads Role.reader s.2 = 0) ∨
      (s.1.m_nCurrUsers ≠ WRITER ∧ threads Role.reader s.2 = s.1.m_nCurrUsers ∧
        threads Role.writer s.2 = 0)) ∧
    s.1.m_nPendingWriters = threads Role.pendingWriter s.2 ∧
    s.1.m_nPendingReaders = threads Role.pendingReader s.2 := by
  obtain ⟨hlen, hpw, hpr, hdis⟩ := RWInv_reachable n hn s h
  refine ⟨?_, hpw, hpr⟩
  rcases hdis with h1 | ⟨e, hw⟩
  · exact Or.inl h1
  · right
    have hle := @List.count_le_length _ _ Role.reader s.2
    refine ⟨?_, e.symm, hw⟩
    rw [e]; unfold threads; omega

/-- C22, witness: `sampleRW` is reached by three threads, and in it
`m_nCurrUsers = 1` with thread 1 the one reader and no writer. -/
theorem rw_mutual_exclusion_witness :
    RWReachable 3 sampleRW ∧ sampleRW.1.m_nCurrUsers = 1 ∧
      threads Role.reader sampleRW.2 = 1 ∧ threads Role.writer sampleRW.2 = 0 := by
  have h0 := @RWReachable.init 3
  have h1 := RWReachable.step _ _ h0 (RWStep.lockWrite {} (List.replicate 3 Role.idle) 0 rfl)
  have h2 := RWReachable.step _ _ h1 (RWStep.lockRead _ _ 1 rfl)
  have h3 : RWReachable 3 sampleRW :=
    RWReachable.step _ _ h2 (RWStep.unlock _ _ 0 0 (Or.inr rfl) (by decide))
  have h4 := rw_mutual_exclusion 3 sampleRW (by decide) h3
  refine ⟨h3, by decide, ?_, ?_⟩
  · rcases h4.1 with ⟨e, _, _⟩ | ⟨_, e, _⟩
    · exact absurd e (by decide)
    · rw [e]; decide
  · rcases h4.1 with ⟨e, _, _⟩ | ⟨_, _, e⟩
    · exact absurd e (by decide)
    · exact e

theorem run_append (m : RWAccessManager) (a b : List RWOp) :
    m.run (a ++ b) = (m.run a).run b := by
  induction a generalizing m with
  | nil => rfl
  | cons op rest ih => exact ih (m.apply op)

theorem LockRead_queued (s : RWAccessManager) (h : s.m_nPendingWriters ≠ 0) :
    s.LockRead = (true, { s with m_nPendingReaders := (s.m_nPendingReaders + 1) % U32_MOD }) := by
  unfold RWAccessManager.LockRead
  rw [if_pos (Or.inr h)]

theorem run_readers_and_unlocks (ops : List RWOp) (s : RWAccessManager) (c : Nat)
    (hcur : s.m_nCurrUsers = c) (hcw : c < WRITER) (hpw : s.m_nPendingWriters = 1)
    (hops : ∀ op ∈ ops, op ≠ RWOp.lockWrite) (hcount : ops.count RWOp.unlock < c) :
    (s.run ops).m_nCurrUsers = c - ops.count RWOp.unlock ∧
      (s.run ops).m_nPendingWriters = 1 := by
  induction ops generalizing s c with
  | nil => exact ⟨by simpa using hcur, hpw⟩
  | cons op rest ih =>
    have hrest : ∀ o ∈ rest, o ≠ RWOp.lockWrite := fun o ho => hops o (List.mem_cons_of_mem _ ho)
    cases op with
    | lockWrite => exact absurd rfl (hops _ (List.mem_cons_self _ _))
    | lockRead =>
      simp only [List.count_cons, reduceCtorEq, beq_iff_eq, if_false, Nat.add_zero] at hcount ⊢
      have hq := LockRead_queued s (by rw [hpw]; decide)
      have e : s.apply RWOp.lockRead =
          { s with m_nPendingReaders := (s.m_nPendingReaders + 1) % U32_MOD } := by
        unfold RWAccessManager.apply; rw [hq]
      unfold RWAccessManager.run
      rw [e]
      exact ih _ c hcur hcw hpw hrest hcount
    | unlock =>
      simp only [List.count_cons, beq_self_eq_true, if_true] at hcount ⊢
      have hnw : s.m_nCurrUsers ≠ WRITER := by omega
      have hne : ¬ (if s.m_nCurrUsers = WRITER then 0 else s.m_nCurrUsers - 1) = 0 := by
        rw [if_neg hnw]; omega
      have e : s.apply RWOp.unlock = { s with m_nCurrUsers := s.m_nCurrUsers - 1 } := by
        unfold RWAccessManager.apply
        rw [Unlock_eq, if_neg hne]
      unfold RWAccessManager.run
      rw [e]
      have := ih { s with m_nCurrUsers := s.m_nCurrUsers - 1 } (c - 1) (by simp only; omega)
        (by omega) hpw hrest (by omega)
      refine ⟨?_, this.2⟩
      rw [this.1]; omega

/-- C23 (writer priority): for every coordinator with `r` readers (`r` at
least 1 and below `2^32 - 1`) and no pending writer, `LockWrite` queues the
writer (`m_nPendingWriters = 1`); then, over every sequence of `LockRead` and
`Unlock` calls with `r - 1` unlocks in it, every `LockRead` of the sequence
queues its caller, leaving `m_nCurrUsers` as it was and adding one to
`m_nPendingReaders`; the sequence ends with `m_nCurrUsers = 1` and the writer
still pending, and the next `Unlock`, the `r`-th, signals the can-write event,
sets `m_nCurrUsers = -1` and `m_nPendingWriters = 0` and leaves
`m_nPendingReaders` as it was, so that no queued reader is admitted; a
`LockRead` after it queues as well. -/
theorem writer_priority (m : RWAccessManager) (r : Nat) (ops : List RWOp)
    (hr : 1 ≤ r) (hrw : r < WRITER) (hcur : m.m_nCurrUsers = r)
    (hpw : m.m_nPendingWriters = 0)
    (hops : ∀ op ∈ ops, op ≠ RWOp.lockWrite) (hcount : ops.count RWOp.unlock = r - 1) :
    m.LockWrite.1 = true ∧ m.LockWrite.2.m_nPendingWriters = 1 ∧
    m.LockWrite.2.m_nCurrUsers = r ∧
    (∀ pre post, ops = pre ++ RWOp.lockRead :: post →
      (m.LockWrite.2.run pre).LockRead.1 = true ∧
      (m.LockWrite.2.run pre).LockRead.2.m_nCurrUsers = (m.LockWrite.2.run pre).m_nCurrUsers ∧
      (m.LockWrite.2.run pre).LockRead.2.m_nPendingReaders =
        ((m.LockWrite.2.run pre).m_nPendingReaders + 1) % U32_MOD) ∧
    (m.LockWrite.2.run ops).m_nCurrUsers = 1 ∧
    (m.LockWrite.2.run ops).m_nPendingWriters = 1 ∧
    (m.LockWrite.2.run ops).Unlock.1 = Signalled.canWrite ∧
    (m.LockWrite.2.run ops).Unlock.2.m_nCurrUsers = WRITER ∧
    (m.LockWrite.2.run ops).Unlock.2.m_nPendingWriters = 0 ∧
    (m.LockWrite.2.run ops).Unlock.2.m_nPendingReaders =
      (m.LockWrite.2.run ops).m_nPendingReaders ∧
    (m.LockWrite.2.run ops).Unlock.2.LockRead.1 = true := by
  have hne : m.m_nCurrUsers ≠ 0 := by omega
  have hlw : m.LockWrite = (true, { m with m_nPendingWriters := 1 }) := by
    unfold RWAccessManager.LockWrite
    rw [if_pos hne, hpw]
    rfl
  have h1 : m.LockWrite.2.m_nCurrUsers = r := by rw [hlw]; exact hcur
  have h2 : m.LockWrite.2.m_nPendingWriters = 1 := by rw [hlw]
  have hend := run_readers_and_unlocks ops m.LockWrite.2 r h1 hrw h2 hops (by omega)
  have hc1 : (m.LockWrite.2.run ops).m_nCurrUsers = 1 := by rw [hend.1, hcount]; omega
  have hu : (m.LockWrite.2.run ops).Unlock = (Signalled.canWrite,
      { m.LockWrite.2.run ops with
        m_nCurrUsers := WRITER,
        m_nPendingWriters := (m.LockWrite.2.run ops).m_nPendingWriters - 1,
        m_canWriteEvent := (m.LockWrite.2.run ops).m_canWriteEvent.Signal false }) := by
    rw [Unlock_eq, hc1, hend.2]
    rfl
  refine ⟨by rw [hlw], h2, h1, ?_, hc1, hend.2, by rw [hu], by rw [hu], ?_, by rw [hu], ?_⟩
  · intro pre post hsplit
    have hpre : ∀ op ∈ pre, op ≠ RWOp.lockWrite := by
      intro op hop
      exact hops op (by rw [hsplit]; exact List.mem_append_left _ hop)
    have hcp : pre.count RWOp.unlock < r := by
      have : ops.count RWOp.unlock = pre.count RWOp.unlock +
          (RWOp.lockRead :: post).count RWOp.unlock := by
        rw [hsplit, List.count_append]
      omega
    have hp := run_readers_and_unlocks pre m.LockWrite.2 r h1 hrw h2 hpre hcp
    have hq := LockRead_queued (m.LockWrite.2.run pre) (by rw [hp.2]; decide)
    rw [hq]
    exact ⟨rfl, rfl, rfl⟩
  · rw [hu]
    simp only
    rw [hend.2]
  · rw [hu]
    unfold RWAccessManager.LockRead
    rw [if_pos (Or.inl rfl)]

/-- C23, witness: with two readers and a writer queued behind them, the calls
`LockRead`, `Unlock`, `LockRead` leave one reader and two pending readers, and
the second `Unlock` gives the lock to the writer with both readers still
pending. -/
theorem writer_priority_witness :
    (sampleTwoReaders.LockWrite.2.run [RWOp.lockRead, RWOp.unlock, RWOp.lockRead]).m_nCurrUsers
        = 1 ∧
    (sampleTwoReaders.LockWrite.2.run
        [RWOp.lockRead, RWOp.unlock, RWOp.lockRead]).Unlock.2.m_nCurrUsers = WRITER ∧
    (sampleTwoReaders.LockWrite.2.run
        [RWOp.lockRead, RWOp.unlock, RWOp.lockRead]).Unlock.2.m_nPendingWriters = 0 ∧
    (sampleTwoReaders.LockWrite.2.run
        [RWOp.lockRead, RWOp.unlock, RWOp.lockRead]).Unlock.2.m_nPendingReaders = 2 := by
  have h := writer_priority sampleTwoReaders 2 [RWOp.lockRead, RWOp.unlock, RWOp.lockRead]
    (by decide) (by decide) rfl rfl (by decide) (by decide)
  exact ⟨h.2.2.2.2.1, h.2.2.2.2.2.2.2.1, h.2.2.2.2.2.2.2.2.1, by decide⟩

/-- The lock calls of `ProcessClientsListRequest` on a coordinator with `n`
readers, `n` at least 2, and nothing pending: one reader too many is released. -/
theorem ProcessClientsListRequestLocks_readers (m : RWAccessManager) (n : Nat)
    (hn : 2 ≤ n) (hnw : n + 1 < WRITER) (hcur : m.m_nCurrUsers = n)
    (hpw : m.m_nPendingWriters = 0) :
    m.LockRead.1 = false ∧
      ProcessClientsListRequestLocks m = { m with m_nCurrUsers := n - 1 } := by
  have hW := WRITER_lt
  have hc : ¬ (m.m_nCurrUsers = WRITER ∨ m.m_nPendingWriters ≠ 0) := by
    rw [hcur, hpw]; intro h; rcases h with h | h
    · omega
    · exact h rfl
  have h1 : m.LockRead = (false, { m with m_nCurrUsers := n + 1 }) := by
    unfold RWAccessManager.LockRead
    rw [if_neg hc, hcur, Nat.mod_eq_of_lt (by omega)]
  have h2 : ({ m with m_nCurrUsers := n + 1 } : RWAccessManager).Unlock =
      (Signalled.nothing, { m with m_nCurrUsers := n }) := by
    rw [Unlock_eq]
    simp only
    rw [if_neg (by omega : ¬ n + 1 = WRITER), if_neg (by omega)]
    rfl
  have h3 : ({ m with m_nCurrUsers := n } : RWAccessManager).Unlock =
      (Signalled.nothing, { m with m_nCurrUsers := n - 1 }) := by
    rw [Unlock_eq]
    simp only
    rw [if_neg (by omega : ¬ n = WRITER), if_neg (by omega)]
  refine ⟨by rw [h1], ?_⟩
  unfold ProcessClientsListRequestLocks
  rw [h1]
  simp only
  rw [h2]
  simp only
  rw [h3]

/-- The lock calls of `ProcessClientsListRequest`, witness: of three readers
two are left. -/
theorem ProcessClientsListRequestLocks_readers_witness :
    ProcessClientsListRequestLocks { m_nCurrUsers := 3 } = { m_nCurrUsers := 2 } :=
  (ProcessClientsListRequestLocks_readers { m_nCurrUsers := 3 } 3 (by decide) (by decide)
    rfl rfl).2

/-- C25 (lock balance of the `ListClients` handler), the failing state: on a
coordinator where another thread holds the read lock (`m_nCurrUsers = 1`,
nothing pending) the read lock of the handler is granted at once, and after
the three coordinator calls of the handler `m_nCurrUsers` is 0: the second
`Unlock`, made by the destructor of `rwlk` after `rwlk.Unlock()`, has released
the lock of the other thread. -/
theorem list_request_unlocks_twice :
    sampleOneReader.LockRead.1 = false ∧
      sampleOneReader.LockRead.2.m_nCurrUsers = 2 ∧
      sampleOneReader.LockRead.2.Unlock.2.m_nCurrUsers = 1 ∧
      (ProcessClientsListRequestLocks sampleOneReader).m_nCurrUsers = 0 ∧
      ProcessClientsListRequestLocks sampleOneReader ≠ sampleOneReader := by
  decide

/-- C30 (admitted readers all proceed), the failing run: a writer holds the
lock, two readers are counted as pending by `LockRead` and have not entered
`Event::Wait` yet, and the writer unlocks. `Unlock` admits both
(`m_nCurrUsers = 2`, `m_nPendingReaders = 0`) and signals the can-read event
with the broadcast flag; with no waiter registered the signal only sets the
state of the event. The first reader to enter `Wait` finds the state set,
clears it and returns; the second finds it clear, registers as a waiter on an
object whose `nSignaled` is 0, and its wake-up is not enabled. -/
theorem second_admitted_reader_blocks :
    (RWAccessManager.run {} [RWOp.lockWrite, RWOp.lockRead, RWOp.lockRead]).Unlock.1 =
        Signalled.canRead ∧
      sampleAdmitted.m_nCurrUsers = 2 ∧ sampleAdmitted.m_nPendingReaders = 0 ∧
      sampleAdmitted.m_canReadEvent.nWaits = 0 ∧
      sampleAdmitted.m_canReadEvent.WaitEnter.1 = none ∧
      sampleAdmitted.m_canReadEvent.WaitEnter.2.WaitEnter.1 = some 0 ∧
      sampleAdmitted.m_canReadEvent.WaitEnter.2.WaitEnter.2.nWaits = 1 ∧
      sampleAdmitted.m_canReadEvent.WaitEnter.2.WaitEnter.2.canWake 0 = false := by
  decide

/-! ## The session worker: lemmas and claims -/

theorem retireSlot_getElem? (ind : Nat) (threads : List ClientThread) (i : Nat) :
    (retireSlot ind threads)[i]? =
      (threads[i]?).map (fun c => if i = ind then
        { completed := true,
          client := { c.client with m_socket := c.client.m_socket.Reset } } else c) := by
  induction threads generalizing ind i with
  | nil => cases ind <;> simp [retireSlot]
  | cons cl rest ih =>
    cases ind with
    | zero =>
      cases i with
      | zero => simp [retireSlot]
      | succ k => simp [retireSlot]
    | succ j =>
      cases i with
      | zero => simp [retireSlot]
      | succ k =>
        simp only [retireSlot, List.getElem?_cons_succ, ih j k, Nat.succ.injEq, add_left_inj]

theorem ReceiveData_getElem? (alloc : Nat → Bool) (sv : Server) (ind : Nat) (i : Nat) :
    (sv.ReceiveData alloc (ClientRef.slot ind)).2.2.m_clientThreads[i]? =
      (sv.m_clientThreads[i]?).map (fun c => if i = ind then
        { c with client :=
          { c.client with m_socket := (RecvData alloc c.client.m_socket).2 } } else c) := by
  have h : (sv.ReceiveData alloc (ClientRef.slot ind)).2.2 =
      sv.setClient (ClientRef.slot ind) { sv.client (ClientRef.slot ind) with
        m_socket := (RecvData alloc (sv.client (ClientRef.slot ind)).m_socket).2 } := by
    simp only [Server.ReceiveData]
    split
    · rfl
    · split <;> rfl
  rw [h]
  simp only [Server.setClient, Server.client, setSlotClient_getElem?]
  cases hi : sv.m_clientThreads[i]? with
  | none => rfl
  | some c =>
    simp only [Option.map_some', Option.some.injEq]
    by_cases e : i = ind
    · subst e
      simp only [if_true, getD_of_getElem? _ _ _ hi]
    · simp only [e, if_false]

theorem ReceiveData_other (alloc : Nat → Bool) (sv : Server) (ind : Nat) :
    (sv.ReceiveData alloc (ClientRef.slot ind)).2.2.accepted = sv.accepted ∧
      (sv.ReceiveData alloc (ClientRef.slot ind)).2.2.clock = sv.clock := by
  simp only [Server.ReceiveData]
  split
  · exact ⟨rfl, rfl⟩
  · split <;> exact ⟨rfl, rfl⟩

/-- The dispatch of a record whose command the worker does not route. -/
theorem ProcessReceivedClientData_unrouted (alloc : Nat → Bool) (sv : Server)
    (msg : ClientMessage) (client : ClientRef)
    (h1 : msg.command ≠ ClientCommand.BroadcastMessage)
    (h2 : msg.command ≠ ClientCommand.PrivateMessage)
    (h3 : msg.command ≠ ClientCommand.ChangeName)
    (h4 : msg.command ≠ ClientCommand.ListClients) :
    sv.ProcessReceivedClientData alloc msg client = some { ret := false, msg := msg, sv := sv } := by
  unfold Server.ProcessReceivedClientData
  rw [if_neg h1, if_neg h2, if_neg h3, if_neg h4]

/-- The loop of the worker ends at its next test once `error` is set. -/
theorem ClientFunctionLoop_error (alloc : Nat → Bool) (ind : Nat) (exits resets : List Bool)
    (w : Worker) (sv : Server) (he : w.error = true) :
    Server.ClientFunctionLoop alloc ind exits resets w sv = some (w, sv) := by
  cases exits with
  | nil => rfl
  | cons e rest =>
    unfold Server.ClientFunctionLoop
    rw [if_pos (Or.inr he)]

/-- The exit of the worker of slot `ind`: the leave notice goes to every other
live slot and slot `ind` is retired. -/
theorem ClientFunctionExit_slots (alloc : Nat → Bool) (sv : Server) (ind : Nat)
    (clMsg : ClientMessage)
    (hfit : 28 + wsize ((sv.client (ClientRef.slot ind)).m_name ++ L " leaves the chat.") <
      U32_MOD)
    (halloc : alloc (serverMessage sv.time.1
      ((sv.client (ClientRef.slot ind)).m_name ++ L " leaves the chat.")).dataSize = true) :
    ∃ sv', sv.ClientFunctionExit alloc ind clMsg = some sv' ∧ sv'.accepted = sv.accepted ∧
      ∀ i : Nat, sv'.m_clientThreads[i]? = (sv.m_clientThreads[i]?).map
        (fun (c : ClientThread) =>
          if i = ind then
            { completed := true,
              client := { c.client with m_socket := c.client.m_socket.Reset } }
          else if c.completed = false then
            { c with client := (c.client.SendData (wireLayout (serverMessage sv.time.1
              ((sv.client (ClientRef.slot ind)).m_name ++ L " leaves the chat.")))).2 }
          else c) := by
  have hstr : (sv.client (ClientRef.slot ind)).m_name ++ L " leaves the chat." ≠ [] := by
    intro h
    exact absurd (List.append_eq_nil.mp h).2 (by decide)
  have hser := Serialize_serverMessage alloc sv.time.1 _ hstr hfit halloc
  obtain ⟨h, hb1, _, _, hb4, _, hb6⟩ := ProcessBroadcastSend_all alloc sv.time.2 _
    (some (ClientRef.slot ind)) hser
  unfold Server.ClientFunctionExit
  simp only [MakeServerMessage_eq, hb1, Option.map_some']
  refine ⟨_, rfl, ?_, fun i => ?_⟩
  · simp only [hb4, time_accepted]
  · simp only
    rw [retireSlot_getElem?, hb6, broadcastLoop_getElem?, time_threads]
    cases sv.m_clientThreads[i]? with
    | none => rfl
    | some c =>
      simp only [Option.map_some', Option.some.injEq, Nat.zero_add, ne_eq,
        ClientRef.slot.injEq]
      by_cases e : i = ind
      · simp [e]
      · have e2 : ¬ ind = i := fun h => e h.symm
        simp only [e, e2, not_false_eq_true, true_and, if_false]

theorem ReceiveData_name (alloc : Nat → Bool) (sv : Server) (ind : Nat) :
    ((sv.ReceiveData alloc (ClientRef.slot ind)).2.2.client (ClientRef.slot ind)).m_name =
      (sv.client (ClientRef.slot ind)).m_name := by
  simp only [Server.client, List.getD_eq_getElem?_getD, ReceiveData_getElem?]
  cases sv.m_clientThreads[ind]? with
  | none => rfl
  | some c => simp

/-- C24 (protocol fault in a session worker): for every registry state and
every pass of the loop of the worker of slot `ind`, entered with `error` clear,
in which `ReceiveData` returns a non-empty body that decodes to a record whose
command is `Error`, `ClientConnect`, `ServerMsg` or `Help`, the pass leaves the
server as the receive left it (the dispatch sends nothing) and sets `error`;
the loop ends, and, the leave
notice fitting a 32-bit byte count and its buffer being allocated,
`ClientFunction` ends with `error` set and the registry changed in this way
only: every live slot other than `ind` has had `SendData` called once on its
client with the layout table of the `ServerMsg` "<name> leaves the chat.", and
slot `ind`, which is sent nothing, has received the frame, has its socket
closed and is marked completed; the completed flag of no other slot changes. -/
theorem protocol_fault_in_worker (alloc : Nat → Bool) (sv : Server) (ind : Nat)
    (exits resets : List Bool) (w : Worker) (msg : ClientMessage) (hw : w.error = false)
    (hrecv : (sv.ReceiveData alloc (ClientRef.slot ind)).1 = true)
    (hbody : (sv.ReceiveData alloc (ClientRef.slot ind)).2.1 ≠ [])
    (hdec : w.clMsg.Unserialize (sv.ReceiveData alloc (ClientRef.slot ind)).2.1 = some msg)
    (hcmd : msg.command = ClientCommand.Error ∨ msg.command = ClientCommand.ClientConnect ∨
      msg.command = ClientCommand.ServerMsg ∨ msg.command = ClientCommand.Help)
    (hfit : 28 + wsize ((sv.client (ClientRef.slot ind)).m_name ++ L " leaves the chat.") <
      U32_MOD)
    (halloc : alloc (serverMessage sv.time.1
      ((sv.client (ClientRef.slot ind)).m_name ++ L " leaves the chat.")).dataSize = true) :
    sv.ClientFunctionPass alloc (resets.headD false) ind w =
      some (Flow.again, { clMsg := msg, error := true },
        (sv.ReceiveData alloc (ClientRef.slot ind)).2.2) ∧
    ∃ sv', sv.ClientFunctionFrom alloc ind (false :: exits) resets w = some (true, sv') ∧
      sv'.accepted = sv.accepted ∧
      (∀ i : Nat, sv'.m_clientThreads[i]? = (sv.m_clientThreads[i]?).map
        (fun (c : ClientThread) =>
          if i = ind then
            { completed := true,
              client := { m_name := c.client.m_name,
                          m_socket := (RecvData alloc c.client.m_socket).2.Reset } }
          else if c.completed = false then
            { c with client := (c.client.SendData (wireLayout (serverMessage sv.time.1
              ((sv.client (ClientRef.slot ind)).m_name ++ L " leaves the chat.")))).2 }
          else c)) ∧
      ∀ i : Nat, i ≠ ind → (sv'.m_clientThreads[i]?).map (fun c => c.completed) =
        (sv.m_clientThreads[i]?).map (fun c => c.completed) := by
  have h1 : msg.command ≠ ClientCommand.BroadcastMessage := by
    rcases hcmd with e | e | e | e <;> rw [e] <;> decide
  have h2 : msg.command ≠ ClientCommand.PrivateMessage := by
    rcases hcmd with e | e | e | e <;> rw [e] <;> decide
  have h3 : msg.command ≠ ClientCommand.ChangeName := by
    rcases hcmd with e | e | e | e <;> rw [e] <;> decide
  have h4 : msg.command ≠ ClientCommand.ListClients := by
    rcases hcmd with e | e | e | e <;> rw [e] <;> decide
  have hlen : ¬ (sv.ReceiveData alloc (ClientRef.slot ind)).2.1.length = 0 := by
    intro h
    exact hbody (List.length_eq_zero.mp h)
  have hpass : sv.ClientFunctionPass alloc (resets.headD false) ind w =
      some (Flow.again, { clMsg := msg, error := true },
        (sv.ReceiveData alloc (ClientRef.slot ind)).2.2) := by
    unfold Server.ClientFunctionPass
    simp only [hrecv, if_true, hlen, if_false, hdec, Option.some_bind,
      ProcessReceivedClientData_unrouted alloc _ msg _ h1 h2 h3 h4, Option.map_some',
      Bool.not_false]
  have hloop : Server.ClientFunctionLoop alloc ind (false :: exits) resets w sv =
      some ({ clMsg := msg, error := true }, (sv.ReceiveData alloc (ClientRef.slot ind)).2.2) := by
    unfold Server.ClientFunctionLoop
    simp only [Bool.false_eq_true, false_or, hw, if_false, hpass, Option.some_bind]
    exact ClientFunctionLoop_error alloc ind exits resets.tail _ _ rfl
  have hname := ReceiveData_name alloc sv ind
  have hclock := (ReceiveData_other alloc sv ind).2
  have hacc := (ReceiveData_other alloc sv ind).1
  have htime := time_fst_congr _ _ hclock
  obtain ⟨sv', e1, e2, e3⟩ := ClientFunctionExit_slots alloc
    (sv.ReceiveData alloc (ClientRef.slot ind)).2.2 ind msg
    (by rw [hname]; exact hfit) (by rw [hname, htime]; exact halloc)
  rw [hname, htime] at e3
  have hslots : ∀ i : Nat, sv'.m_clientThreads[i]? = (sv.m_clientThreads[i]?).map
      (fun (c : ClientThread) =>
        if i = ind then
          { completed := true,
            client := { m_name := c.client.m_name,
                        m_socket := (RecvData alloc c.client.m_socket).2.Reset } }
        else if c.completed = false then
          { c with client := (c.client.SendData (wireLayout (serverMessage sv.time.1
            ((sv.client (ClientRef.slot ind)).m_name ++ L " leaves the chat.")))).2 }
        else c) := by
    intro i
    rw [e3 i, ReceiveData_getElem?]
    cases sv.m_clientThreads[i]? with
    | none => rfl
    | some c =>
      simp only [Option.map_some', Option.some.injEq]
      by_cases e : i = ind
      · simp only [e, if_true]
      · simp only [e, if_false]
  refine ⟨hpass, sv', ?_, by rw [e2, hacc], hslots, fun i hi => ?_⟩
  · unfold Server.ClientFunctionFrom
    simp only [hloop, Option.some_bind, e1, Option.map_some']
  · rw [hslots i]
    cases sv.m_clientThreads[i]? with
    | none => rfl
    | some c =>
      simp only [Option.map_some', Option.some.injEq, hi, if_false]
      split <;> rfl

set_option maxRecDepth 100000 in
/-- C24, witness: in `sampleFaultServer` the worker of slot 0 ("A") receives a
`ClientConnect` record, which it does not route: it ends with `error` set,
slot 0 is completed with its socket closed and nothing sent on it, slot 1 ("B")
has been sent "A leaves the chat.", and the completed slot 2 is as it was. -/
theorem protocol_fault_in_worker_witness :
    ∃ sv', sampleFaultServer.ClientFunction (fun _ => true) 0 [false] [] = some (true, sv') ∧
      sv'.m_clientThreads[0]? = some { completed := true, client :=
        { m_name := [65], m_socket := { closed := true } } } ∧
      sv'.m_clientThreads[1]? = some { completed := false, client :=
        { m_name := [66], m_socket :=
          { sent := frameWrites (wireLayout (serverMessage 0 (L "A leaves the chat."))) } } } ∧
      sv'.m_clientThreads[2]? = sampleFaultServer.m_clientThreads[2]? := by
  obtain ⟨_, sv', h1, _, h3, _⟩ :=
    protocol_fault_in_worker (fun _ => true) sampleFaultServer 0 [] [] {}
      { from_ := [65, 66], timeStamp := 5, command := ClientCommand.ClientConnect }
      rfl (by decide) (by decide) (by decide) (Or.inr (Or.inl rfl)) (by decide) rfl
  refine ⟨sv', h1, ?_, ?_, ?_⟩
  · rw [h3 0]; decide
  · rw [h3 1]; decide
  · rw [h3 2]; decide

set_option maxRecDepth 100000 in
/-- C26 (failure isolation for private messages), the failing run: in
`samplePmServer` the worker of slot 0 ("A") receives the private message "h"
for the live session "B", whose socket fails on the send. The private handler
returns false, the pass of the worker of "A" sets `error`, and `ClientFunction`
for "A" ends with `error` set and slot 0 completed: the session of "A" is
terminated by the failure of the socket of "B", while "B" stays live. -/
theorem failed_private_send_ends_sender :
    ((samplePmServer.ReceiveData (fun _ => true) (ClientRef.slot 0)).2.2.ProcessPrivateSend
        (fun _ => true) samplePrivate (ClientRef.slot 0)).map (fun h => h.ret) = some false ∧
    (samplePmServer.ClientFunctionPass (fun _ => true) false 0 {}).map
        (fun r => (r.1, r.2.1.clMsg, r.2.1.error)) = some (Flow.again, samplePrivate, true) ∧
    (samplePmServer.ClientFunction (fun _ => true) 0 [false, false] []).map
        (fun r => (r.1, r.2.m_clientThreads.map (fun c => c.completed))) =
      some (true, [true, false, true]) := by
  refine ⟨by decide, by decide, by decide⟩

theorem findSlot_exists (p : ClientThread → Bool) (start : Nat) (threads : List ClientThread)
    (h : ∃ cl ∈ threads, p cl = true) : ∃ ind, findSlot p start threads = some ind := by
  induction threads generalizing start with
  | nil =>
    obtain ⟨cl, hcl, _⟩ := h
    exact absurd hcl (List.not_mem_nil cl)
  | cons c rest ih =>
    unfold findSlot
    by_cases hp : p c = true
    · exact ⟨start, by rw [if_pos hp]⟩
    · rw [if_neg hp]
      obtain ⟨cl, hcl, hpc⟩ := h
      rcases List.mem_cons.mp hcl with e | e
      · rw [e] at hpc; exact absurd hpc hp
      · exact ih (start + 1) ⟨cl, e, hpc⟩

theorem mem_liveNames (name : WString) (threads : List ClientThread)
    (h : name ∈ liveNames threads) : ∃ cl ∈ threads, liveNamed name cl := by
  induction threads with
  | nil => exact absurd h (List.not_mem_nil name)
  | cons c rest ih =>
    unfold liveNames at h
    by_cases hc : c.completed = false
    · rw [if_pos hc] at h
      rcases List.mem_cons.mp h with e | e
      · exact ⟨c, List.mem_cons_self _ _, hc, e.symm⟩
      · obtain ⟨cl, h1, h2⟩ := ih e
        exact ⟨cl, List.mem_cons_of_mem _ h1, h2⟩
    · rw [if_neg hc] at h
      obtain ⟨cl, h1, h2⟩ := ih h
      exact ⟨cl, List.mem_cons_of_mem _ h1, h2⟩

/-- The private handler for a record whose receiver is found: one `SendData`
with the layout table of the record, on the slot found. -/
theorem ProcessPrivateSend_found (alloc : Nat → Bool) (sv : Server) (msg : ClientMessage)
    (receivedFrom : ClientRef) (ind : Nat)
    (hser : msg.Serialize alloc = some
      { data := some (wireLayout msg ++ List.replicate (msg.dataSize - wireSize msg) 0),
        size := wireSize msg })
    (hf : findSlot (fun cl => cl.client.m_name == msg.pmTo && !cl.completed) 0
      sv.m_clientThreads = some ind) :
    sv.ProcessPrivateSend alloc msg receivedFrom = some
      { ret := (sv.SendData (ClientRef.slot ind) (wireLayout msg)).1, msg := msg,
        sv := (sv.SendData (ClientRef.slot ind) (wireLayout msg)).2 } := by
  unfold Server.ProcessPrivateSend
  rw [hser]
  simp only [Option.some_bind, hf]
  rw [← wireLayout_length msg, List.take_left]

/-- C28 (sender authenticity), as the code has it: for every registry state,
every slot `A` and every `BroadcastMessage` record, or `PrivateMessage` record
for a live name, handed to the dispatch of the worker of `A` (non-empty `from`,
`pmTo` and `msg` without NUL where the command carries them, fields fitting a
32-bit byte count, buffer allocated), the record is left as it was, every slot
is either untouched or has had `SendData` called once on its client with the
layout table of the record as received, and whoever decodes that table gets the
`from`, the command and the `msg` the received record carried; the name of
slot `A` plays no part. -/
theorem relayed_from_is_received (alloc : Nat → Bool) (sv : Server) (msg : ClientMessage)
    (A : Nat)
    (hcmd : msg.command = ClientCommand.BroadcastMessage ∨
      (msg.command = ClientCommand.PrivateMessage ∧ msg.pmTo ∈ liveNames sv.m_clientThreads))
    (hfrom : msg.from_ ≠ []) (nfrom : ∀ c ∈ msg.from_, c ≠ 0)
    (hpm : msg.command = ClientCommand.PrivateMessage → msg.pmTo ≠ [])
    (npm : msg.command = ClientCommand.PrivateMessage → ∀ c ∈ msg.pmTo, c ≠ 0)
    (hmsg : msg.msg ≠ [])
    (hfit : 12 + wsize msg.from_ + wsize msg.msg + wsize msg.pmTo < U32_MOD)
    (halloc : alloc msg.dataSize = true) :
    ∃ h, sv.ProcessReceivedClientData alloc msg (ClientRef.slot A) = some h ∧ h.msg = msg ∧
      (∀ (i : Nat) (c : ClientThread), sv.m_clientThreads[i]? = some c →
        h.sv.m_clientThreads[i]? = some c ∨
        h.sv.m_clientThreads[i]? =
          some { c with client := (c.client.SendData (wireLayout msg)).2 }) ∧
      ∀ r0 : ClientMessage, ∃ r, r0.Unserialize (wireLayout msg) = some r ∧
        r.from_ = msg.from_ ∧ r.command = msg.command ∧ r.msg = msg.msg := by
  have hne : msg.command ≠ ClientCommand.Error := by
    rcases hcmd with e | ⟨e, _⟩ <;> rw [e] <;> decide
  have hisc : IsCommand msg.command = true := by
    rcases hcmd with e | ⟨e, _⟩ <;> rw [e] <;> decide
  have hcar : carriesMsg msg := by
    unfold carriesMsg
    rcases hcmd with e | ⟨e, _⟩ <;> rw [e] <;> decide
  have hser := Serialize_accepts alloc msg hne hfrom hpm (fun _ => hmsg) hfit halloc
  have hlong : 16 < wireSize msg := by
    unfold wireSize
    rw [if_pos hcar]
    have h1 := wsize_of_ne_nil _ hfrom
    have h2 := wsize_of_ne_nil _ hmsg
    omega
  have hdec : ∀ r0 : ClientMessage, ∃ r, r0.Unserialize (wireLayout msg) = some r ∧
      r.from_ = msg.from_ ∧ r.command = msg.command ∧ r.msg = msg.msg := by
    intro r0
    refine ⟨_, Unserialize_wireLayout msg r0 hisc hfrom hpm (fun _ => hmsg) nfrom npm hlong,
      rfl, rfl, ?_⟩
    simp only [if_pos hcar]
  rcases hcmd with e | ⟨e, hlive⟩
  · obtain ⟨h, hb1, _, hb3, _, _, hb6⟩ := ProcessBroadcastSend_all alloc sv msg
      (some (ClientRef.slot A)) hser
    refine ⟨h, ?_, hb3, fun i c hc => ?_, hdec⟩
    · unfold Server.ProcessReceivedClientData
      rw [if_pos e]
      exact hb1
    · rw [hb6, broadcastLoop_getElem?, hc]
      simp only [Option.map_some', Option.some.injEq]
      split
      · exact Or.inr rfl
      · exact Or.inl rfl
  · have hnb : ¬ msg.command = ClientCommand.BroadcastMessage := by rw [e]; decide
    obtain ⟨cl, hcl, hln⟩ := mem_liveNames _ _ hlive
    obtain ⟨ind, hf⟩ := findSlot_exists
      (fun cl => cl.client.m_name == msg.pmTo && !cl.completed) 0 sv.m_clientThreads
      ⟨cl, hcl, (findSlot_pred_iff _ _).mpr hln⟩
    refine ⟨{ ret := (sv.SendData (ClientRef.slot ind) (wireLayout msg)).1, msg := msg,
              sv := (sv.SendData (ClientRef.slot ind) (wireLayout msg)).2 }, ?_, rfl,
      fun i c hc => ?_, hdec⟩
    · unfold Server.ProcessReceivedClientData
      rw [if_neg hnb, if_pos e]
      exact ProcessPrivateSend_found alloc sv msg _ ind hser hf
    · simp only
      rw [SendData_getElem?, hc]
      simp only [Option.map_some', Option.some.injEq]
      split
      · exact Or.inr rfl
      · exact Or.inl rfl

set_option maxRecDepth 100000 in
/-- C28, witness: in `sampleSpoofServer` the broadcast `sampleSpoof`, handed to
the dispatch for slot 0, is relayed as received, and decoding the table gives
the sender name "XY" it carried. -/
theorem relayed_from_is_received_witness :
    ∃ h, sampleSpoofServer.ProcessReceivedClientData (fun _ => true) sampleSpoof
        (ClientRef.slot 0) = some h ∧ h.msg = sampleSpoof ∧
      ∃ r, ClientMessage.Unserialize {} (wireLayout sampleSpoof) = some r ∧
        r.from_ = [88, 89] := by
  obtain ⟨h, h1, h2, _, h4⟩ :=
    relayed_from_is_received (fun _ => true) sampleSpoofServer sampleSpoof 0 (Or.inl rfl)
      (by decide)
      (by intro c hc; simp only [sampleSpoof, List.mem_cons, List.mem_singleton,
            List.not_mem_nil, or_false] at hc; rcases hc with e | e <;> rw [e] <;> decide)
      (fun h => absurd h (by decide)) (fun h => absurd h (by decide)) (by decide) (by decide)
      rfl
  obtain ⟨r, hr1, hr2, _, _⟩ := h4 {}
  exact ⟨h, h1, h2, r, hr1, hr2⟩

set_option maxRecDepth 100000 in
/-- C28, counterexample: in `sampleSpoofServer` the session registered as "AB"
(slot 0) sends a broadcast whose `from` is "XY". The worker of slot 0 relays
it: the one frame sent to "CD" (slot 1) is the layout table of the record as
received, and it decodes to a broadcast from "XY", not from "AB". -/
theorem relayed_from_is_not_session_name :
    (sampleSpoofServer.ClientFunctionPass (fun _ => true) false 0 {}).map
        (fun r => (r.1, r.2.1.error)) = some (Flow.again, false) ∧
    (sampleSpoofServer.ClientFunctionPass (fun _ => true) false 0 {}).map
        (fun r => r.2.2.m_clientThreads.map (fun c => c.client.m_socket.sent)) =
      some [[], frameWrites (wireLayout sampleSpoof)] ∧
    (ClientMessage.Unserialize {} (wireLayout sampleSpoof)).map (fun r => (r.command, r.from_)) =
      some (ClientCommand.BroadcastMessage, [88, 89]) ∧
    (sampleSpoofServer.client (ClientRef.slot 0)).m_name = [65, 66] := by
  refine ⟨by decide, by decide, by decide, by decide⟩

/-! ## The decoder and the prior contents of its target -/

theorem DecodeAgrees_setError (a0 b0 a b : ClientMessage) :
    DecodeAgrees a0 b0 (some a.setError) (some b.setError) :=
  ⟨rfl, fun h => absurd rfl h⟩

theorem UnserializeBody_agrees (a0 b0 a b : ClientMessage) (data : List Byte) (pMsg pEnd : Nat)
    (hc : a.command = b.command) (hts : a.timeStamp = b.timeStamp) (hf : a.from_ = b.from_)
    (hpa : a.pmTo = a0.pmTo) (hpb : b.pmTo = b0.pmTo) (hcar : carriesMsg a) :
    DecodeAgrees a0 b0 (a.UnserializeBody data pMsg pEnd) (b.UnserializeBody data pMsg pEnd) := by
  have hcarb : carriesMsg b := by unfold carriesMsg at hcar ⊢; rw [← hc]; exact hcar
  unfold ClientMessage.UnserializeBody
  rw [← hc]
  by_cases hpm : a.command = ClientCommand.PrivateMessage
  · rw [if_pos hpm, if_pos hpm]
    cases readCStr data pMsg with
    | none => exact trivial
    | some pmTo =>
      simp only [Option.some_bind]
      split
      · exact DecodeAgrees_setError _ _ _ _
      · split
        · exact DecodeAgrees_setError _ _ _ _
        · cases readRange data (pMsg + 2 * (pmTo.length + 1)) (pEnd - 2) with
          | none => exact trivial
          | some msg =>
            simp only [Option.some_bind]
            split
            · exact DecodeAgrees_setError _ _ _ _
            · refine ⟨rfl, fun _ => ⟨hts, hf, ?_, ?_⟩⟩
              · simp only [hpm, if_true]
              · have : carriesMsg { a with pmTo := pmTo, msg := msg } := hcar
                simp only [this, if_true]
  · rw [if_neg hpm, if_neg hpm]
    cases readRange data pMsg (pEnd - 2) with
    | none => exact trivial
    | some msg =>
      simp only [Option.some_bind]
      split
      · exact DecodeAgrees_setError _ _ _ _
      · refine ⟨rfl, fun _ => ⟨hts, hf, ?_, ?_⟩⟩
        · simp only [hpm, if_false]
          exact ⟨hpa, hpb⟩
        · have : carriesMsg { a with msg := msg } := hcar
          simp only [this, if_true]

/-- C29 (decode and the prior contents of the target), as the code has it: for
every buffer and every two records `a` and `b`, the decodes of the buffer into
`a` and into `b` both return or both leave the buffer; they end with the same
command, and when it is not `Error` with the same time stamp and `from`, with
the same `pmTo` when the command is `PrivateMessage`, and with the same `msg`
when the command carries a text; a field the command does not carry keeps the
value it had in `a`, respectively `b`, before the call. -/
theorem decode_agrees_on_carried_fields (a b : ClientMessage) (data : List Byte) :
    DecodeAgrees a b (a.Unserialize data) (b.Unserialize data) := by
  unfold ClientMessage.Unserialize
  simp only [MIN_MSG_SIZE, MESSAGE_OFFSET, COMMAND_OFFSET]
  by_cases c0 : data.length ≤ 8 + 4 + 2 * 2
  · rw [if_pos c0, if_pos c0]
    exact DecodeAgrees_setError _ _ _ _
  rw [if_neg c0, if_neg c0]
  cases readU64 data 0 with
  | none => exact trivial
  | some ts =>
    simp only [Option.some_bind]
    cases readCommand data 8 with
    | none => exact trivial
    | some cmd =>
      simp only [Option.some_bind]
      split
      · exact DecodeAgrees_setError _ _ _ _
      split
      · exact DecodeAgrees_setError _ _ _ _
      cases readWChar data (8 + 4 + (data.length - (8 + 4)) / 2 * 2 - 2) with
      | none => exact trivial
      | some last =>
        simp only [Option.some_bind]
        split
        · exact DecodeAgrees_setError _ _ _ _
        cases readCStr data (8 + 4) with
        | none => exact trivial
        | some from_ =>
          simp only [Option.some_bind]
          split
          · exact DecodeAgrees_setError _ _ _ _
          split
          · rename_i hlc
            refine ⟨rfl, fun _ => ⟨rfl, rfl, ?_, ?_⟩⟩
            · have hnp : ¬ cmd = ClientCommand.PrivateMessage := by
                rcases hlc with e | e <;> rw [e] <;> decide
              simp only [hnp, if_false, and_self]
            · have hnc : ¬ carriesMsg { a with timeStamp := ts, command := cmd, from_ := from_ } := by
                unfold carriesMsg
                simp only [not_not]
                rcases hlc with e | e
                · exact Or.inr e
                · exact Or.inl e
              simp only [hnc, if_false, and_self]
          · rename_i hlc
            split
            · exact DecodeAgrees_setError _ _ _ _
            · apply UnserializeBody_agrees a b
                { a with timeStamp := ts, command := cmd, from_ := from_ }
                { b with timeStamp := ts, command := cmd, from_ := from_ }
                data _ _ rfl rfl rfl rfl rfl
              unfold carriesMsg
              intro h
              apply hlc
              rcases h with e | e
              · exact Or.inr e
              · exact Or.inl e

set_option maxRecDepth 100000 in
/-- C29, counterexample: the body of the `ListClients` record of "AB" decoded
into an empty record has empty `pmTo` and `msg`; decoded into the record that
held the private message "h" for "B" it keeps `pmTo = "B"` and `msg = "h"`. -/
theorem decode_keeps_prior_fields :
    ClientMessage.Unserialize {} sampleListBody =
      some { from_ := [65, 66], command := ClientCommand.ListClients, timeStamp := 5 } ∧
    samplePrivate.Unserialize sampleListBody =
      some { from_ := [65, 66], command := ClientCommand.ListClients, timeStamp := 5,
             pmTo := [66], msg := [104] } ∧
    ClientMessage.Unserialize {} sampleListBody ≠ samplePrivate.Unserialize sampleListBody := by
  refine ⟨by decide, by decide, by decide⟩

/-! ## The receive task of the client: lemmas and claims -/

theorem isspace_of_graphic (wide : WChar → Bool) (s : WString)
    (h : s.all (fun c => decide (32 < c.val ∧ c.val < 128)) = true) :
    ∀ c ∈ s, isspace wide c = false := by
  intro c hc
  have := List.all_eq_true.mp h c hc
  simp only [decide_eq_true_eq] at this
  unfold isspace
  rw [if_pos this.2]
  simp only [Bool.or_eq_false_iff, Bool.and_eq_false_imp, decide_eq_true_eq,
    decide_eq_false_iff_not, beq_eq_false_iff_ne, ne_eq]
  omega

/-- The handling of the reply "ErrorNameAlreadyExists a b". -/
theorem ReceiveThreadRecord_marker (wide : WChar → Bool) (m_name : WString) (error : Bool)
    (msg : ClientMessage) (a b : WString)
    (hcmd : msg.command = ClientCommand.ServerMsg)
    (hmsg : msg.msg = L "ErrorNameAlreadyExists " ++ a ++ [32] ++ b)
    (ha : a ≠ []) (hasp : ∀ c ∈ a, isspace wide c = false)
    (hb : b ≠ []) (hbsp : ∀ c ∈ b, isspace wide c = false) :
    ReceiveThreadRecord wide m_name error msg =
      ({ msg with msg := L "User with name '" ++ a ++ L "' already exists" }, b, error) := by
  have e0 : L "ErrorNameAlreadyExists " = L "ErrorNameAlreadyExists" ++ [32] := by decide
  have e1 : msg.msg = [] ++ L "ErrorNameAlreadyExists" ++ 32 :: (a ++ 32 :: b) := by
    rw [hmsg, e0]; simp
  have htake : msg.msg.take 22 = L "ErrorNameAlreadyExists" := by
    rw [e1, List.nil_append]
    exact List.take_left' (by decide)
  have hx1 : IStream.extract wide { rest := msg.msg } [] =
      (L "ErrorNameAlreadyExists", (⟨32 :: (a ++ 32 :: b), false, false⟩ : IStream)) := by
    rw [e1]
    exact extract_word_space wide [] (L "ErrorNameAlreadyExists") (a ++ 32 :: b) 32 []
      (fun c hc => absurd hc (List.not_mem_nil c)) (by decide)
      (isspace_of_graphic wide _ (by decide)) (isspace_space wide)
  have hsp1 : ∀ c ∈ ([32] : WString), isspace wide c = true := by
    intro c hc
    rw [List.mem_singleton.mp hc]
    exact isspace_space wide
  have hx2 : IStream.extract wide ⟨32 :: (a ++ 32 :: b), false, false⟩
      (L "ErrorNameAlreadyExists") = (a, (⟨32 :: b, false, false⟩ : IStream)) :=
    extract_word_space wide [32] a b 32 (L "ErrorNameAlreadyExists") hsp1 ha hasp
      (isspace_space wide)
  have hx3 : IStream.extract wide ⟨32 :: b, false, false⟩ a =
      (b, (⟨[], true, false⟩ : IStream)) :=
    extract_word_end wide [32] b a hsp1 hb hbsp
  have hbe : b.isEmpty = false := isEmpty_false_of_ne_nil _ hb
  unfold ReceiveThreadRecord
  rw [if_pos ⟨hcmd, htake⟩]
  simp only [hx1, hx2, hx3, hbe, Bool.false_eq_true, if_false]

/-- C21 (name-rejection handling in the client): for every classification of
the code units above ASCII and every received `ServerMsg` whose `msg` is
"ErrorNameAlreadyExists " followed by a token `a`, one space and a token `b`,
both non-empty and free of whitespace, the receive task leaves `error` as it
was, sets the local name to `b`, and hands `PrintReceivedMessage` the record
with `msg` = "User with name 'a' already exists", which is written after the
time and the sender; and when the server rejects a rename to `a` for the
session of slot `A` whose name is `b`, the reply it makes, handled by that
client, sets the local name to the name the server holds for slot `A`. -/
theorem name_rejection_handling (wide : WChar → Bool) (m_name : WString) (error : Bool)
    (a b : WString)
    (ha : a ≠ []) (hasp : a.all (fun c => !isspace wide c) = true)
    (hb : b ≠ []) (hbsp : b.all (fun c => !isspace wide c) = true) :
    (∀ (msg : ClientMessage) (timeStr : WString), msg.command = ClientCommand.ServerMsg →
      msg.msg = L "ErrorNameAlreadyExists " ++ a ++ [32] ++ b →
      ReceiveThreadRecord wide m_name error msg =
        ({ msg with msg := L "User with name '" ++ a ++ L "' already exists" }, b, error) ∧
      PrintReceivedMessage timeStr (ReceiveThreadRecord wide m_name error msg).1 =
        timeStr ++ msg.from_ ++ L ": " ++ (L "User with name '" ++ a ++ L "' already exists") ++
          [10]) ∧
    (∀ (alloc : Nat → Bool) (sv : Server) (req : ClientMessage) (A : Nat),
      req.msg = a → (sv.client (ClientRef.slot A)).m_name = b →
      a ∈ liveNames sv.m_clientThreads →
      28 + wsize (L "ErrorNameAlreadyExists " ++ a ++ [32] ++ b) < U32_MOD →
      alloc (serverMessage sv.time.1
        (L "ErrorNameAlreadyExists " ++ a ++ [32] ++ b)).dataSize = true →
      ∃ h, sv.ProcessNameChange alloc req (ClientRef.slot A) = some h ∧
        (h.sv.client (ClientRef.slot A)).m_name = b ∧
        (ReceiveThreadRecord wide m_name error h.msg).2.1 =
          (h.sv.client (ClientRef.slot A)).m_name) := by
  have hasp2 : ∀ c ∈ a, isspace wide c = false := by
    intro c hc
    have := List.all_eq_true.mp hasp c hc
    simpa using this
  have hbsp2 : ∀ c ∈ b, isspace wide c = false := by
    intro c hc
    have := List.all_eq_true.mp hbsp c hc
    simpa using this
  constructor
  · intro msg timeStr hcmd hmsg
    have hr := ReceiveThreadRecord_marker wide m_name error msg a b hcmd hmsg ha hasp2 hb hbsp2
    refine ⟨hr, ?_⟩
    rw [hr]
    unfold PrintReceivedMessage
    have n1 : ¬ msg.command = ClientCommand.Error := by rw [hcmd]; decide
    have hne : (timeStr ++ msg.from_ ++ L ": " ++
        (L "User with name '" ++ a ++ L "' already exists")).isEmpty = false := by
      apply isEmpty_false_of_ne_nil
      intro hnil
      have := congrArg List.length hnil
      simp only [List.length_append, List.length_nil] at this
      have h16 : (L "User with name '").length = 16 := by decide
      omega
    simp only [n1, hcmd, if_false, true_or, if_true, hne, Bool.false_eq_true]
    rw [if_neg (by decide)]
  · intro alloc sv req A hreq hname hlive hfit halloc
    subst hreq
    obtain ⟨h, h1, h2, _, _, _, h6⟩ := ProcessNameAlreadyExists_slot alloc sv req A
      (by rw [hname]; exact hfit) (by rw [hname]; exact halloc)
    have hex := (IsClientNameExists_iff sv req.msg).mpr hlive
    have hnm : (h.sv.client (ClientRef.slot A)).m_name = b := by
      rw [← hname]
      simp only [Server.client, List.getD_eq_getElem?_getD, h6 A]
      cases sv.m_clientThreads[A]? with
      | none => rfl
      | some c => simp [ServerClient.SendData]
    refine ⟨h, ?_, hnm, ?_⟩
    · unfold Server.ProcessNameChange
      rw [hex]
      simpa using h1
    · rw [hnm, hname] at *
      rw [ReceiveThreadRecord_marker wide m_name error h.msg req.msg b (by rw [h2]; rfl)
        (by rw [h2]; rfl) ha hasp2 hb hbsp2]
/-- C21, witness: with the ASCII classification, a client that had adopted the
name "Bob" and receives "ErrorNameAlreadyExists Bob Alice" takes the name
"Alice" again and displays "User with name 'Bob' already exists". -/
theorem name_rejection_handling_witness :
    ReceiveThreadRecord (fun _ => false) (L "Bob") false
        (serverMessage 7 (L "ErrorNameAlreadyExists Bob Alice")) =
      (serverMessage 7 (L "User with name 'Bob' already exists"), L "Alice", false) ∧
    PrintReceivedMessage (L "[12:00] ") (ReceiveThreadRecord (fun _ => false) (L "Bob") false
        (serverMessage 7 (L "ErrorNameAlreadyExists Bob Alice"))).1 =
      L "[12:00] Server: User with name 'Bob' already exists\n" := by
  have h := (name_rejection_handling (fun _ => false) (L "Bob") false (L "Bob") (L "Alice")
    (by decide) (by decide) (by decide) (by decide)).1
    (serverMessage 7 (L "ErrorNameAlreadyExists Bob Alice")) (L "[12:00] ") rfl (by decide)
  refine ⟨?_, ?_⟩
  · rw [h.1]; decide
  · rw [h.2]; decide

theorem take_marker_of_space (N s : WString)
    (h : (N ++ 32 :: s).take 22 = L "ErrorNameAlreadyExists") :
    N.take 22 = L "ErrorNameAlreadyExists" := by
  by_cases hlen : 22 ≤ N.length
  · rw [List.take_append_of_le_length hlen] at h
    exact h
  · exfalso
    have hmem : (32 : WChar) ∈ (N ++ 32 :: s).take 22 := by
      rw [List.take_append_eq_append_take]
      obtain ⟨k, hk⟩ : ∃ k, 22 - N.length = k + 1 := ⟨22 - N.length - 1, by omega⟩
      rw [hk, List.take_succ_cons]
      exact List.mem_append_right _ (List.mem_cons_self _ _)
    rw [h] at hmem
    revert hmem
    decide

theorem ReceiveThreadRecord_notice (wide : WChar → Bool) (m_name : WString) (error : Bool)
    (N s : WString) (t : Nat) (hN : N.take 22 ≠ L "ErrorNameAlreadyExists") :
    ReceiveThreadRecord wide m_name error (serverMessage t (N ++ 32 :: s)) =
      (serverMessage t (N ++ 32 :: s), m_name, error) := by
  unfold ReceiveThreadRecord
  rw [if_neg]
  rintro ⟨_, h⟩
  exact hN (take_marker_of_space N s h)

/-- C27, as amended (other users and a client's local name): for every name `N`
whose first 22 characters are not "ErrorNameAlreadyExists", the receive task
hands on the notices "N joined to the chat.", "N leaves the chat." and
"N changed his name to <other>" as they came and leaves the local name and
`error` as they were; and whenever the receive task changes the local name or
the record, the record is a `ServerMsg` whose `msg` begins with those 22
characters. -/
theorem notices_keep_local_name (wide : WChar → Bool) (m_name : WString) (error : Bool)
    (N other : WString) (t : Nat) (hN : N.take 22 ≠ L "ErrorNameAlreadyExists") :
    (∀ text ∈ [N ++ L " joined to the chat.", N ++ L " leaves the chat.",
        N ++ L " changed his name to " ++ other],
      ReceiveThreadRecord wide m_name error (serverMessage t text) =
        (serverMessage t text, m_name, error)) ∧
    (∀ msg : ClientMessage, ReceiveThreadRecord wide m_name error msg ≠ (msg, m_name, error) →
      msg.command = ClientCommand.ServerMsg ∧ msg.msg.take 22 = L "ErrorNameAlreadyExists") := by
  constructor
  · intro text htext
    simp only [List.mem_cons, List.mem_singleton, List.not_mem_nil, or_false] at htext
    rcases htext with rfl | rfl | rfl
    · exact ReceiveThreadRecord_notice wide m_name error N (L "joined to the chat.") t hN
    · exact ReceiveThreadRecord_notice wide m_name error N (L "leaves the chat.") t hN
    · have e : N ++ L " changed his name to " ++ other =
          N ++ 32 :: (L "changed his name to " ++ other) := by
        rw [List.append_assoc]; rfl
      rw [e]
      exact ReceiveThreadRecord_notice wide m_name error N _ t hN
  · intro msg hne
    by_contra hc
    apply hne
    unfold ReceiveThreadRecord
    rw [if_neg hc]

/-- C27, witness: the join notice for "Bob" leaves the client "Alice" with its
name and with the notice as it came. -/
theorem notices_keep_local_name_witness :
    ReceiveThreadRecord (fun _ => false) (L "Alice") false
        (serverMessage 0 (L "Bob joined to the chat.")) =
      (serverMessage 0 (L "Bob joined to the chat."), L "Alice", false) :=
  (notices_keep_local_name (fun _ => false) (L "Alice") false (L "Bob") [] 0 (by decide)).1
    (L "Bob joined to the chat.") (by decide)

set_option maxRecDepth 100000 in
/-- C27, counterexample: a user connects under the alphanumeric name
"ErrorNameAlreadyExists" while "Alice" is the only live session. The server
installs him and sends "Alice" the join notice
"ErrorNameAlreadyExists joined to the chat."; the receive task of the client
"Alice" decodes it, takes it for a name rejection, sets its local name to "to"
and displays "User with name 'joined' already exists". -/
theorem marker_name_changes_local_name :
    (L "ErrorNameAlreadyExists").all (isalnum (fun _ => false)) = true ∧
    (sampleAlice.AcceptClient (fun _ => true) true (some sampleMarkerConnection)).map
        (fun r => (liveNames r.2.m_clientThreads,
          (r.2.m_clientThreads.map (fun c => c.client.m_socket.sent)).head?)) =
      some ([L "Alice", L "ErrorNameAlreadyExists"],
        some (frameWrites (wireLayout
          (serverMessage 0 (L "ErrorNameAlreadyExists joined to the chat."))))) ∧
    ({} : ClientMessage).Unserialize
        (wireLayout (serverMessage 0 (L "ErrorNameAlreadyExists joined to the chat."))) =
      some (serverMessage 0 (L "ErrorNameAlreadyExists joined to the chat.")) ∧
    ReceiveThreadRecord (fun _ => false) (L "Alice") false
        (serverMessage 0 (L "ErrorNameAlreadyExists joined to the chat.")) =
      (serverMessage 0 (L "User with name 'joined' already exists"), L "to", false) ∧
    PrintReceivedMessage [] (serverMessage 0 (L "User with name 'joined' already exists")) =
      L "Server: User with name 'joined' already exists\n" := by
  refine ⟨by decide, by decide, by decide, by decide, by decide⟩

end Chat
